import Mathlib

/-!
Verification of the agentic tool-orchestration engine of the
intelligent-document-analysis-system repository.

The Python sources are shallowly embedded.  Python values that flow through
`json.loads`, tool parameters and tool results are modelled by `PyVal`;
Python exceptions by `PyErr`, with a raising call modelled as an `Except`
result.  Wall-clock timestamps, logging, pydantic `id` fields and the
`confidence` field of thought events are not modelled; where a Python
built-in produces an error message, the repository's own (Chinese) messages
are reproduced exactly and built-in message texts are approximated.
-/

/-- Kinds of Python exceptions raised by the embedded code.  `jsonDecodeError`
is a subclass of `valueError` in Python, which matters for `except` clauses. -/
inductive PyErrKind where
  | typeError
  | valueError
  | jsonDecodeError
  | attributeError
  | keyError
  | overflowError
  | validationError
  deriving DecidableEq

/-- A Python exception: its class and its `str(e)` message. -/
structure PyErr where
  kind : PyErrKind
  msg : String
  deriving DecidableEq

/-- Model of the Python values handled by the embedded code: `None`,
booleans, integers, floats (decimal literals kept exact as mantissa times a
power of ten), non-finite floats, strings, lists, and string-keyed dicts.
Dicts are association lists with unique keys, mirroring insertion-ordered
Python dicts. -/
inductive PyVal where
  | none
  | bool (b : Bool)
  | int (n : Int)
  | float (m : Int) (e : Int)
  | nonfinite (isNan : Bool) (neg : Bool)
  | str (s : String)
  | list (xs : List PyVal)
  | dict (kvs : List (String × PyVal))

/-- Python `type(v).__name__` for the modelled values. -/
def PyVal.typeName : PyVal → String
  | .none => "NoneType"
  | .bool _ => "bool"
  | .int _ => "int"
  | .float _ _ => "float"
  | .nonfinite _ _ => "float"
  | .str _ => "str"
  | .list _ => "list"
  | .dict _ => "dict"

/-- Python truthiness (`bool(v)`).  A non-finite float (nan or ±inf) is
always truthy. -/
def PyVal.truthy : PyVal → Bool
  | .none => false
  | .bool b => b
  | .int n => n != 0
  | .float m _ => m != 0
  | .nonfinite _ _ => true
  | .str s => s != ""
  | .list xs => !xs.isEmpty
  | .dict kvs => !kvs.isEmpty

/-- First value bound to key `k` in an association list (Python dict lookup;
keys are kept unique so the first hit is the binding). -/
def dictFind (kvs : List (String × PyVal)) (k : String) : Option PyVal :=
  match kvs with
  | [] => Option.none
  | kv :: rest => if kv.1 = k then some kv.2 else dictFind rest k

/-- Python `d[k] = v` on an insertion-ordered dict: an existing key keeps its
position and gets the new value, a new key is appended. -/
def dictInsert (kvs : List (String × PyVal)) (k : String) (v : PyVal) :
    List (String × PyVal) :=
  match kvs with
  | [] => [(k, v)]
  | kv :: rest => if kv.1 = k then (k, v) :: rest else kv :: dictInsert rest k v

/-- Python `d.get(k, default)` for a dict represented as an association list. -/
def dictGetD (kvs : List (String × PyVal)) (k : String) (default : PyVal) : PyVal :=
  match dictFind kvs k with
  | some v => v
  | Option.none => default

/-- Equality of two exact decimals `a*10^b` and `c*10^d`. -/
def decEq10 (a b c d : Int) : Bool :=
  if b ≥ d then a * (10 : Int) ^ (b - d).toNat == c
  else a == c * (10 : Int) ^ (d - b).toNat

mutual

/-- Python `==` on modelled values.  Booleans, integers and exact decimal
floats compare numerically across types as in Python; non-finite floats never
equal a finite number and `nan` is not equal to itself; dicts compare as
unordered key-value maps. -/
def pyEq : PyVal → PyVal → Bool
  | .none, .none => true
  | .bool a, .bool b => a == b
  | .bool a, .int n => (if a then (1 : Int) else 0) == n
  | .int n, .bool b => n == (if b then (1 : Int) else 0)
  | .bool a, .float m e => decEq10 (if a then 1 else 0) 0 m e
  | .float m e, .bool b => decEq10 m e (if b then 1 else 0) 0
  | .int n, .int m => n == m
  | .int n, .float m e => decEq10 n 0 m e
  | .float m e, .int n => decEq10 m e n 0
  | .float a b, .float c d => decEq10 a b c d
  | .nonfinite an aneg, .nonfinite bn bneg => !an && !bn && (aneg == bneg)
  | .str a, .str b => a == b
  | .list a, .list b => pyEqList a b
  | .dict a, .dict b => a.length == b.length && pyEqDictSub a b
  | _, _ => false

/-- Elementwise Python `==` on lists. -/
def pyEqList : List PyVal → List PyVal → Bool
  | [], [] => true
  | a :: arest, b :: brest => pyEq a b && pyEqList arest brest
  | _, _ => false

/-- Every binding of the first dict is matched by an equal binding in the
second. -/
def pyEqDictSub : List (String × PyVal) → List (String × PyVal) → Bool
  | [], _ => true
  | kv :: rest, b =>
    (match dictFind b kv.1 with
     | some w => pyEq kv.2 w
     | Option.none => false) && pyEqDictSub rest b

end

/-- Digits of a natural number (decimal). -/
def natDigits (n : Nat) : String :=
  Nat.toDigits 10 n |>.asString

/-- Python `repr` of an int. -/
def intRepr (n : Int) : String :=
  if n < 0 then "-" ++ natDigits (-n).toNat else natDigits n.toNat

/-- Render the exact decimal `m*10^e` in the style of Python float `repr`.
Python prints the shortest round-tripping decimal; for the decimal literals
produced by `json.loads` this is the plain decimal rendered here (scientific
notation for very large or small magnitudes is not modelled; no claim
inspects these strings). -/
def floatRepr (m : Int) (e : Int) : String :=
  let sign := if m < 0 then "-" else ""
  let digits := natDigits m.natAbs
  if e ≥ 0 then
    sign ++ digits ++ String.mk (List.replicate e.toNat '0') ++ ".0"
  else
    let k := (-e).toNat
    let ds := digits.data
    if ds.length > k then
      sign ++ String.mk (ds.take (ds.length - k)) ++ "." ++ String.mk (ds.drop (ds.length - k))
    else
      sign ++ "0." ++ String.mk (List.replicate (k - ds.length) '0') ++ digits

/-- Escape one character for a Python string repr quoted by `q`. -/
def pyCharEscape (q : Char) (c : Char) : String :=
  if c = '\\' then "\\\\"
  else if c = '\n' then "\\n"
  else if c = '\r' then "\\r"
  else if c = '\t' then "\\t"
  else if c = q then "\\" ++ String.mk [q]
  else String.mk [c]

/-- Python `repr` of a string: single-quoted, switching to double quotes when
the string contains a single quote but no double quote (escapes for
non-printable characters other than tab, newline and carriage return are not
modelled). -/
def pyStrRepr (s : String) : String :=
  let hasSingle := s.data.contains '\x27'
  let hasDouble := s.data.contains '"'
  let q : Char := if hasSingle && !hasDouble then '"' else '\x27'
  String.mk [q] ++ String.join (s.data.map (pyCharEscape q)) ++ String.mk [q]

mutual

/-- Python `repr` of a modelled value. -/
def pyRepr : PyVal → String
  | .none => "None"
  | .bool b => if b then "True" else "False"
  | .int n => intRepr n
  | .float m e => floatRepr m e
  | .nonfinite isNan neg => if isNan then "nan" else if neg then "-inf" else "inf"
  | .str s => pyStrRepr s
  | .list xs => "[" ++ pyReprList xs ++ "]"
  | .dict kvs => "\x7b" ++ pyReprDict kvs ++ "\x7d"

/-- Comma-joined reprs of list items. -/
def pyReprList : List PyVal → String
  | [] => ""
  | [x] => pyRepr x
  | x :: rest => pyRepr x ++ ", " ++ pyReprList rest

/-- Comma-joined `key: value` reprs of dict items. -/
def pyReprDict : List (String × PyVal) → String
  | [] => ""
  | [kv] => pyStrRepr kv.1 ++ ": " ++ pyRepr kv.2
  | kv :: rest => pyStrRepr kv.1 ++ ": " ++ pyRepr kv.2 ++ ", " ++ pyReprDict rest

end

/-- Python `str(v)`: the identity on strings, `repr` otherwise (as used by
f-string interpolation). -/
def pyStr : PyVal → String
  | .str s => s
  | v => pyRepr v

/-- Python `len(v)`: defined for strings, lists and dicts, a `TypeError`
otherwise. -/
def pyLen : PyVal → Except PyErr Nat
  | .str s => .ok s.length
  | .list xs => .ok xs.length
  | .dict kvs => .ok kvs.length
  | v => .error ⟨.typeError, "object of type \x27" ++ v.typeName ++ "\x27 has no len()"⟩

/-- Python substring test `pat in s` for a nonempty pattern (empty pattern
is always a member). -/
def strContainsSub (s pat : String) : Bool :=
  if pat = "" then true else (s.splitOn pat).length > 1

/-- Python `needle in v` for a string needle: key membership for dicts,
element membership for lists, substring for strings, `TypeError` otherwise. -/
def pyContains (needle : String) : PyVal → Except PyErr Bool
  | .dict kvs => .ok (dictFind kvs needle).isSome
  | .list xs => .ok (xs.any (fun x => pyEq x (.str needle)))
  | .str s => .ok (strContainsSub s needle)
  | v => .error ⟨.typeError, "argument of type \x27" ++ v.typeName ++ "\x27 is not iterable"⟩

/-- Python `v[key]` for a string key. -/
def pySubscript (v : PyVal) (key : String) : Except PyErr PyVal :=
  match v with
  | .dict kvs =>
    match dictFind kvs key with
    | some w => .ok w
    | Option.none => .error ⟨.keyError, key⟩
  | .list _ => .error ⟨.typeError, "list indices must be integers or slices, not str"⟩
  | .str _ => .error ⟨.typeError, "string indices must be integers"⟩
  | w => .error ⟨.typeError, "\x27" ++ w.typeName ++ "\x27 object is not subscriptable"⟩

/-- Python `v.get(key, default)`: available on dicts only, `AttributeError`
otherwise. -/
def pyGetAttrGet (v : PyVal) (key : String) (default : PyVal) : Except PyErr PyVal :=
  match v with
  | .dict kvs => .ok (dictGetD kvs key default)
  | w => .error ⟨.attributeError,
      "\x27" ++ w.typeName ++ "\x27 object has no attribute \x27get\x27"⟩

/-- JSON whitespace accepted by Python `json.loads`. -/
def jsonWs (c : Char) : Bool :=
  c = ' ' || c = '\t' || c = '\n' || c = '\r'

/-- Decimal digit test. -/
def isDigitCh (c : Char) : Bool :=
  '0' ≤ c && c ≤ '9'

/-- Hex digit value. -/
def hexVal (c : Char) : Option Nat :=
  let n := c.toNat
  if 48 ≤ n && n ≤ 57 then some (n - 48)
  else if 97 ≤ n && n ≤ 102 then some (n - 87)
  else if 65 ≤ n && n ≤ 70 then some (n - 55)
  else Option.none

/-- Value of a list of decimal digit characters. -/
def digitsVal (ds : List Char) : Nat :=
  ds.foldl (fun acc c => acc * 10 + (c.toNat - '0'.toNat)) 0

/-- Parse the body of a JSON string literal (after the opening quote),
returning the string and the rest of the input.  Escapes are the JSON ones;
`\uXXXX` produces the character with that code (surrogate-pair combination
and lone surrogates, which Lean characters cannot represent, map to the
replacement character — no claim involves them).  Unescaped control
characters are rejected as in Python's strict mode. -/
def parseJsonStringRest : List Char → Option (String × List Char)
  | [] => Option.none
  | '"' :: rest => some ("", rest)
  | '\\' :: esc =>
    match esc with
    | 'u' :: h1 :: h2 :: h3 :: h4 :: rest => do
      let a ← hexVal h1
      let b ← hexVal h2
      let c ← hexVal h3
      let d ← hexVal h4
      let code := ((a * 16 + b) * 16 + c) * 16 + d
      let ch := if 0xD800 ≤ code && code ≤ 0xDFFF then (Char.ofNat 0xFFFD) else Char.ofNat code
      let (s, rem) ← parseJsonStringRest rest
      pure (String.mk [ch] ++ s, rem)
    | e :: rest => do
      let ch ← match e with
        | '"' => some '"'
        | '\\' => some '\\'
        | '/' => some '/'
        | 'b' => some (Char.ofNat 8)
        | 'f' => some (Char.ofNat 12)
        | 'n' => some '\n'
        | 'r' => some '\r'
        | 't' => some '\t'
        | _ => Option.none
      let (s, rem) ← parseJsonStringRest rest
      pure (String.mk [ch] ++ s, rem)
    | [] => Option.none
  | c :: rest =>
    if c.toNat < 0x20 then Option.none
    else do
      let (s, rem) ← parseJsonStringRest rest
      pure (String.mk [c] ++ s, rem)

/-- Parse a JSON number at the head of the input, following Python's
`NUMBER_RE`: `-?(0|[1-9][0-9]*)(\.[0-9]+)?([eE][+-]?[0-9]+)?`.  A fraction
or exponent makes a float (kept exact as mantissa and decimal exponent),
otherwise an int. -/
def parseJsonNumber (cs : List Char) : Option (PyVal × List Char) :=
  let (neg, cs1) := match cs with
    | '-' :: r => (true, r)
    | _ => (false, cs)
  let intPart : Option (List Char × List Char) :=
    match cs1 with
    | '0' :: r => some (['0'], r)
    | c :: r =>
      if isDigitCh c && c ≠ '0' then
        some (c :: r.takeWhile isDigitCh, r.dropWhile isDigitCh)
      else Option.none
    | [] => Option.none
  match intPart with
  | Option.none => Option.none
  | some (ids, r1) =>
    let (fds, r2) : List Char × List Char :=
      match r1 with
      | '.' :: fr =>
        let ds := fr.takeWhile isDigitCh
        if ds.isEmpty then ([], r1) else (ds, fr.dropWhile isDigitCh)
      | _ => ([], r1)
    let fracPresent := !fds.isEmpty
    let (expVal, expPresent, r3) : Int × Bool × List Char :=
      match r2 with
      | e :: er =>
        if e = 'e' || e = 'E' then
          let (esign, er1) : Bool × List Char := match er with
            | '+' :: t => (false, t)
            | '-' :: t => (true, t)
            | _ => (false, er)
          let ds := er1.takeWhile isDigitCh
          if ds.isEmpty then (0, false, r2)
          else
            let v : Int := Int.ofNat (digitsVal ds)
            ((if esign then -v else v), true, er1.dropWhile isDigitCh)
        else (0, false, r2)
      | [] => (0, false, r2)
    if fracPresent || expPresent then
      let mant : Int := Int.ofNat (digitsVal (ids ++ fds))
      let mant := if neg then -mant else mant
      some (.float mant (expVal - Int.ofNat fds.length), r3)
    else
      let v : Int := Int.ofNat (digitsVal ids)
      some (.int (if neg then -v else v), r3)

mutual

/-- Parse one JSON value (whitespace-prefixed) from the input.  Fuel bounds
the nesting depth; each nesting level consumes at least one character, so
`length + 1` fuel is always enough. -/
def parseJsonValue : Nat → List Char → Option (PyVal × List Char)
  | 0, _ => Option.none
  | Nat.succ fuel, cs0 =>
    let cs := cs0.dropWhile jsonWs
    match cs with
    | 'n' :: 'u' :: 'l' :: 'l' :: rest => some (.none, rest)
    | 't' :: 'r' :: 'u' :: 'e' :: rest => some (.bool true, rest)
    | 'f' :: 'a' :: 'l' :: 's' :: 'e' :: rest => some (.bool false, rest)
    | 'N' :: 'a' :: 'N' :: rest => some (.nonfinite true false, rest)
    | 'I' :: 'n' :: 'f' :: 'i' :: 'n' :: 'i' :: 't' :: 'y' :: rest =>
      some (.nonfinite false false, rest)
    | '-' :: 'I' :: 'n' :: 'f' :: 'i' :: 'n' :: 'i' :: 't' :: 'y' :: rest =>
      some (.nonfinite false true, rest)
    | '"' :: rest => (parseJsonStringRest rest).map (fun p => (.str p.1, p.2))
    | '[' :: rest => parseJsonArrayItems fuel rest true []
    | '\x7b' :: rest => parseJsonObjectItems fuel rest true []
    | _ => parseJsonNumber cs

/-- Parse the items of a JSON array after `[` (or after a comma).  `first`
is true before any item has been read, so that `[]` is accepted but `[1,]`
is not. -/
def parseJsonArrayItems (fuel : Nat) (cs : List Char) (first : Bool)
    (acc : List PyVal) : Option (PyVal × List Char) :=
  match fuel with
  | 0 => Option.none
  | Nat.succ fuel =>
    let cs1 := cs.dropWhile jsonWs
    match cs1 with
    | ']' :: rest => if first then some (.list acc.reverse, rest) else Option.none
    | _ => do
      let (v, r1) ← parseJsonValue fuel cs1
      let r2 := r1.dropWhile jsonWs
      match r2 with
      | ',' :: r3 => parseJsonArrayItems fuel r3 false (v :: acc)
      | ']' :: r3 => some (.list (v :: acc).reverse, r3)
      | _ => Option.none

/-- Parse the members of a JSON object after an opening brace (or after a
comma).  Duplicate keys behave like repeated Python dict assignment: the
last value wins, the first position is kept. -/
def parseJsonObjectItems (fuel : Nat) (cs : List Char) (first : Bool)
    (acc : List (String × PyVal)) : Option (PyVal × List Char) :=
  match fuel with
  | 0 => Option.none
  | Nat.succ fuel =>
    let cs1 := cs.dropWhile jsonWs
    match cs1 with
    | '\x7d' :: rest => if first then some (.dict acc, rest) else Option.none
    | '"' :: rest => do
      let (k, r1) ← parseJsonStringRest rest
      let r2 := r1.dropWhile jsonWs
      match r2 with
      | ':' :: r3 => do
        let (v, r4) ← parseJsonValue fuel r3
        let r5 := r4.dropWhile jsonWs
        match r5 with
        | ',' :: r6 => parseJsonObjectItems fuel r6 false (dictInsert acc k v)
        | '\x7d' :: r6 => some (.dict (dictInsert acc k v), r6)
        | _ => Option.none
      | _ => Option.none
    | _ => Option.none

end

/-- Python `json.loads`: parse one JSON document, allowing only trailing
whitespace; every failure is a `json.JSONDecodeError`. -/
def jsonLoads (s : String) : Except PyErr PyVal :=
  match parseJsonValue (s.length + 1) s.data with
  | some (v, rest) =>
    if (rest.dropWhile jsonWs).isEmpty then .ok v
    else .error ⟨.jsonDecodeError, "Extra data"⟩
  | Option.none => .error ⟨.jsonDecodeError, "Expecting value"⟩

/-- Index of the first occurrence of `c` (Python `str.find`, `-1` becoming
`none`). -/
def charFindIdx (c : Char) : List Char → Option Nat
  | [] => Option.none
  | x :: rest =>
    if x = c then some 0 else (charFindIdx c rest).map Nat.succ

/-- Index of the last occurrence of `c` (Python `str.rfind`). -/
def charRfindIdx (c : Char) (cs : List Char) : Option Nat :=
  (charFindIdx c cs.reverse).map (fun i => cs.length - 1 - i)

/-- Characters stripped by Python `str.strip()` (the ASCII whitespace set;
rarer unicode whitespace is not modelled). -/
def pyWs (c : Char) : Bool :=
  c = ' ' || c = '\t' || c = '\n' || c = '\r' || c = '\x0b' || c = '\x0c'

/-- Python `str.strip()`. -/
def pyStrip (cs : List Char) : List Char :=
  ((cs.dropWhile pyWs).reverse.dropWhile pyWs).reverse

/-- The code-fence fallback of `MCPAgent._extract_json_from_response`, used
when no brace pair is found: strip, drop a leading markdown fence, drop a
trailing fence, strip again. -/
def fenceStrip (cs : List Char) : List Char :=
  let c1 := pyStrip cs
  let c2 := if "```json".data.isPrefixOf c1 then c1.drop 7 else c1
  let c3 := if "```".data.isPrefixOf c2 then c2.drop 3 else c2
  let c4 := if "```".data.isSuffixOf c3 then c3.take (c3.length - 3) else c3
  pyStrip c4

/-- `MCPAgent._extract_json_from_response`: slice from the first opening
brace to the last closing brace when that span is non-degenerate, otherwise
fall back to markdown-fence stripping. -/
def extractJsonFromResponse (response : String) : String :=
  let cs := response.data
  match charFindIdx '\x7b' cs, charRfindIdx '\x7d' cs with
  | some si, some ei =>
    if si < ei then String.mk ((cs.drop si).take (ei + 1 - si))
    else String.mk (fenceStrip cs)
  | some _, Option.none => String.mk (fenceStrip cs)
  | Option.none, _ => String.mk (fenceStrip cs)

/-- The apology text of the fallback action synthesized by
`MCPAgent._decide_next_action` on a parse failure. -/
def fallbackAnswerText : String := "处理过程中遇到错误，无法继续执行。"

/-- The fallback action synthesized by `MCPAgent._decide_next_action`. -/
def fallbackAction : PyVal :=
  .dict [("type", .str "tool_call"), ("tool_name", .str "final_answer"),
    ("parameters", .dict [("answer", .str fallbackAnswerText)])]

/-- The body of the `try` block of `MCPAgent._decide_next_action` applied to
the LLM response text: extract a JSON candidate, `json.loads` it, return the
nested `action` member if present, else the value itself when it carries
`type` and `tool_name`, else raise `ValueError`. -/
def decideBody (responseText : String) : Except PyErr PyVal := do
  let cleaned := extractJsonFromResponse responseText
  let action ← jsonLoads cleaned
  let hasAction ← pyContains "action" action
  if hasAction then
    pySubscript action "action"
  else do
    let hasType ← pyContains "type" action
    let hasToolName ← if hasType then pyContains "tool_name" action else pure false
    if hasType && hasToolName then pure action
    else .error ⟨.valueError, "决策JSON中缺少\x27action\x27或\x27type\x27/\x27tool_name\x27"⟩

/-- `MCPAgent._decide_next_action` from the decide-step LLM response text
onward: the `except (json.JSONDecodeError, ValueError)` clause converts
those two exception classes into the fallback action; any other exception
propagates. -/
def decideNextAction (responseText : String) : Except PyErr PyVal :=
  match decideBody responseText with
  | .ok v => .ok v
  | .error e =>
    if e.kind = .jsonDecodeError || e.kind = .valueError then .ok fallbackAction
    else .error e

/-- Escape one character for `json.dumps` with `ensure_ascii=False`. -/
def jsonEscapeChar (c : Char) : String :=
  if c = '"' then "\\\""
  else if c = '\\' then "\\\\"
  else if c = '\n' then "\\n"
  else if c = '\r' then "\\r"
  else if c = '\t' then "\\t"
  else if c.toNat < 0x20 then
    "\\u00" ++ String.mk [(Nat.toDigits 16 (c.toNat / 16)).headD '0',
      (Nat.toDigits 16 (c.toNat % 16)).headD '0']
  else String.mk [c]

/-- A JSON string literal as produced by `json.dumps(..., ensure_ascii=False)`. -/
def jsonStrLit (s : String) : String :=
  "\"" ++ String.join (s.data.map jsonEscapeChar) ++ "\""

/-- Indentation for `json.dumps(..., indent=2)`. -/
def jsonIndent (level : Nat) : String :=
  String.mk (List.replicate (2 * level) ' ')

mutual

/-- `json.dumps(v, ensure_ascii=False, indent=2, default=str)` at an
indentation level.  With `default=str` every modelled value is serializable,
so the call is total. -/
def jsonDumpsVal (level : Nat) : PyVal → String
  | .none => "null"
  | .bool b => if b then "true" else "false"
  | .int n => intRepr n
  | .float m e => floatRepr m e
  | .nonfinite isNan neg =>
    if isNan then "NaN" else if neg then "-Infinity" else "Infinity"
  | .str s => jsonStrLit s
  | .list [] => "[]"
  | .list (x :: xs) =>
    "[\n" ++ jsonIndent (level + 1) ++ jsonDumpsItems (level + 1) x xs
      ++ "\n" ++ jsonIndent level ++ "]"
  | .dict [] => "\x7b\x7d"
  | .dict ((k, v) :: kvs) =>
    "\x7b\n" ++ jsonIndent (level + 1) ++ jsonDumpsMembers (level + 1) k v kvs
      ++ "\n" ++ jsonIndent level ++ "\x7d"
termination_by v => sizeOf v

/-- Comma-and-newline separated array items. -/
def jsonDumpsItems (level : Nat) (x : PyVal) : List PyVal → String
  | [] => jsonDumpsVal level x
  | y :: ys =>
    jsonDumpsVal level x ++ ",\n" ++ jsonIndent level ++ jsonDumpsItems level y ys
termination_by ys => sizeOf x + sizeOf ys

/-- Comma-and-newline separated object members. -/
def jsonDumpsMembers (level : Nat) (k : String) (v : PyVal) :
    List (String × PyVal) → String
  | [] => jsonStrLit k ++ ": " ++ jsonDumpsVal level v
  | (k2, v2) :: ms =>
    jsonStrLit k ++ ": " ++ jsonDumpsVal level v ++ ",\n"
      ++ jsonIndent level ++ jsonDumpsMembers level k2 v2 ms
termination_by ms => sizeOf v + sizeOf ms

end

/-- Top-level `json.dumps(v, ensure_ascii=False, indent=2, default=str)`. -/
def jsonDumps (v : PyVal) : String := jsonDumpsVal 0 v

/-- The `ThoughtType` enum of `mcp_services/models.py`. -/
inductive EventType where
  | thinking
  | toolCall
  | toolResult
  | finalAnswer
  | error
  deriving DecidableEq

/-- A `ThoughtProcess` event as yielded by `MCPAgent.think_and_act`
(`id`, `timestamp` and `confidence` are not modelled; no claim uses them). -/
structure Event where
  type : EventType
  content : String
  tool_name : Option String := Option.none
  parameters : Option (List (String × PyVal)) := Option.none
  result : Option (List (String × PyVal)) := Option.none

/-- A Thinking event. -/
def thinkingEvent (t : String) : Event :=
  { type := .thinking, content := t }

/-- An Error event. -/
def errorEvent (c : String) : Event :=
  { type := .error, content := c }

/-- A FinalAnswer event. -/
def finalAnswerEvent (a : String) : Event :=
  { type := .finalAnswer, content := a }

/-- A ToolCall event. -/
def toolCallEvent (c : String) (tn : Option String)
    (ps : Option (List (String × PyVal))) : Event :=
  { type := .toolCall, content := c, tool_name := tn, parameters := ps }

/-- A ToolResult event. -/
def toolResultEvent (tn : Option String) (res : List (String × PyVal)) : Event :=
  { type := .toolResult, content := "工具执行完成", tool_name := tn, result := some res }

/-- A chat-history entry (`timestamp` from `datetime.now` is not modelled). -/
structure Message where
  role : String
  content : String

/-- The `ConversationContext` of one reasoning run.  `session_id` (a random
uuid) and the tool-catalog snapshot are not needed by any claim about the
loop and are omitted; the pydantic default of `current_iteration` is `0`. -/
structure Ctx where
  user_query : String
  document_content : Option String
  document_type : Option String
  document_file_path : Option String
  chat_history : List Message
  max_iterations : Nat
  current_iteration : Nat
  is_completed : Bool
  final_answer : Option PyVal

/-- Engine state: the context plus the agent's own `self.current_iteration`
counter (a distinct attribute from `Ctx.current_iteration`). -/
structure AgentSt where
  ctx : Ctx
  selfIter : Nat

/-- The environment of one run: the Think and Decide completion calls (which
may raise), indexed by the iteration counter, and `MCPAgent._execute_tool`,
which catches every exception internally and always returns a dict. -/
structure Oracle where
  think : Nat → Except PyErr String
  decide : Nat → String → Except PyErr String
  execTool : Nat → PyVal → PyVal → List (String × PyVal)

/-- How one loop pass ends: fall through to the next pass, `break`, or an
exception propagating to the `try` of `think_and_act`. -/
inductive PassExit where
  | cont
  | brk
  | raised (e : PyErr)

/-- Pydantic validation of the `tool_name : Optional[str]` field of
`ThoughtProcess`. -/
def validateOptStrField (v : PyVal) : Except PyErr (Option String) :=
  match v with
  | .none => .ok Option.none
  | .str s => .ok (some s)
  | _ => .error ⟨.validationError, "tool_name: Input should be a valid string"⟩

/-- Pydantic validation of the `parameters : Optional[Dict[str, Any]]` field
of `ThoughtProcess`. -/
def validateOptDictField (v : PyVal) :
    Except PyErr (Option (List (String × PyVal))) :=
  match v with
  | .none => .ok Option.none
  | .dict kvs => .ok (some kvs)
  | _ => .error ⟨.validationError, "parameters: Input should be a valid dictionary"⟩

/-- One pass of the `while` loop of `MCPAgent.think_and_act` (lines 142-208):
increment `self.current_iteration`, Think, yield a Thinking event, Decide,
then act on the decided action.  Returns the events yielded during the pass,
the state after it, and how the pass ended. -/
def runPass (o : Oracle) (s : AgentSt) : List Event × AgentSt × PassExit :=
  let s1 : AgentSt := { s with selfIter := s.selfIter + 1 }
  match o.think s1.selfIter with
  | .error e => ([], s1, .raised e)
  | .ok thought =>
    let ev1 : Event := thinkingEvent thought
    match o.decide s1.selfIter thought with
    | .error e => ([ev1], s1, .raised e)
    | .ok resp =>
      match decideNextAction resp with
      | .error e => ([ev1], s1, .raised e)
      | .ok action =>
        if !action.truthy then
          ([ev1, errorEvent ("无效的行动: " ++ pyStr action)], s1, .brk)
        else
          match pyGetAttrGet action "type" PyVal.none with
          | .error e => ([ev1], s1, .raised e)
          | .ok t =>
            if !pyEq t (.str "tool_call") then
              ([ev1, errorEvent ("无效的行动: " ++ pyStr action)], s1, .brk)
            else
              match pyGetAttrGet action "tool_name" PyVal.none with
              | .error e => ([ev1], s1, .raised e)
              | .ok toolName =>
                match pyGetAttrGet action "parameters" (PyVal.dict []) with
                | .error e => ([ev1], s1, .raised e)
                | .ok parameters =>
                  if pyEq toolName (.str "final_answer") then
                    match pyGetAttrGet parameters "answer" (.str "未能生成答案。") with
                    | .error e => ([ev1], s1, .raised e)
                    | .ok ans =>
                      let s2 : AgentSt :=
                        { s1 with ctx :=
                            { s1.ctx with is_completed := true, final_answer := some ans } }
                      match pyLen ans with
                      | .error e => ([ev1], s2, .raised e)
                      | .ok _ =>
                        match ans with
                        | .str a =>
                          ([ev1, finalAnswerEvent a], s2, .brk)
                        | _ =>
                          ([ev1], s2,
                            .raised ⟨.validationError, "content: Input should be a valid string"⟩)
                  else
                    let callContent := "调用工具：" ++ pyStr toolName
                    match validateOptStrField toolName with
                    | .error e => ([ev1], s1, .raised e)
                    | .ok tn =>
                      match validateOptDictField parameters with
                      | .error e => ([ev1], s1, .raised e)
                      | .ok ps =>
                        let ev2 : Event := toolCallEvent callContent tn ps
                        let res := o.execTool s1.selfIter toolName parameters
                        let ev3 : Event := toolResultEvent tn res
                        let resultStr := jsonDumps (.dict res)
                        let msg : Message :=
                          { role := "tool",
                            content := "工具 " ++ pyStr toolName ++ " 执行结果: " ++ resultStr }
                        let s2 : AgentSt :=
                          { s1 with ctx :=
                              { s1.ctx with chat_history := s1.ctx.chat_history ++ [msg] } }
                        ([ev1, ev2, ev3], s2, .cont)

/-- How the `try` block of `think_and_act` ends. -/
inductive LoopExit where
  | finished
  | raised (e : PyErr)

/-- The `while not is_completed and current_iteration < max_iterations` loop.
The fuel argument is `max_iterations` at the top-level call; since every pass
increments `self.current_iteration`, the guard is false whenever the fuel
runs out, so the fuelled recursion computes exactly the Python loop. -/
def runLoop (o : Oracle) : Nat → AgentSt → List Event × AgentSt × LoopExit
  | 0, s => ([], s, .finished)
  | Nat.succ fuel, s =>
    if s.ctx.is_completed || s.ctx.max_iterations ≤ s.selfIter then
      ([], s, .finished)
    else
      match runPass o s with
      | (evs, s1, .cont) =>
        let r := runLoop o fuel s1
        (evs ++ r.1, r.2.1, r.2.2)
      | (evs, s1, .brk) => (evs, s1, .finished)
      | (evs, s1, .raised e) => (evs, s1, .raised e)

/-- The fixed message synthesized when the loop ends without completion. -/
def maxIterReachedText : String :=
  "已达到最大思考次数，未能得出最终结论。请尝试优化问题或提供更多信息。"

/-- Outcome of a whole `think_and_act` run: the ordered event stream, the
final conversation context, the final value of `self.current_iteration`,
and the exception absorbed by the outer `except`, if any. -/
structure RunResult where
  events : List Event
  ctx : Ctx
  selfIter : Nat
  raised : Option PyErr

/-- The context constructed at the start of `think_and_act`: pydantic
defaults plus the initial `add_message("user", user_query)`. -/
def initialCtx (userQuery : String) (docContent docType docPath : Option String)
    (maxIterations : Nat) : Ctx :=
  { user_query := userQuery, document_content := docContent,
    document_type := docType, document_file_path := docPath,
    chat_history := [{ role := "user", content := userQuery }],
    max_iterations := maxIterations, current_iteration := 0,
    is_completed := false, final_answer := Option.none }

/-- `MCPAgent.think_and_act`: reset `self.current_iteration`, run the loop,
then either append the synthesized FinalAnswer (loop finished without
completion) or convert a propagated exception into a single Error event. -/
def thinkAndAct (o : Oracle) (userQuery : String)
    (docContent docType docPath : Option String) (maxIterations : Nat) :
    RunResult :=
  let s0 : AgentSt := ⟨initialCtx userQuery docContent docType docPath maxIterations, 0⟩
  let r := runLoop o maxIterations s0
  match r.2.2 with
  | .raised e =>
    ⟨r.1 ++ [errorEvent ("执行过程中出现错误: " ++ e.msg)],
      r.2.1.ctx, r.2.1.selfIter, some e⟩
  | .finished =>
    if !r.2.1.ctx.is_completed then
      ⟨r.1 ++ [finalAnswerEvent maxIterReachedText],
        r.2.1.ctx, r.2.1.selfIter, Option.none⟩
    else
      ⟨r.1, r.2.1.ctx, r.2.1.selfIter, Option.none⟩

/-- A run with no document attached. -/
def runAgent (o : Oracle) (userQuery : String) (maxIterations : Nat) : RunResult :=
  thinkAndAct o userQuery Option.none Option.none Option.none maxIterations

/-- ASCII lowercasing of one character (Python `str.lower`; rare non-ASCII
special casings are not modelled). -/
def asciiLower (c : Char) : Char :=
  if 65 ≤ c.toNat && c.toNat ≤ 90 then Char.ofNat (c.toNat + 32) else c

/-- ASCII lowercasing of a string. -/
def strLowerAscii (s : String) : String :=
  String.mk (s.data.map asciiLower)

/-- Parse an optionally signed run of decimal digits (Python `int(str)`;
surrounding whitespace is allowed, underscore digit grouping is not
modelled). -/
def parseIntLit (s : String) : Option Int :=
  let cs := pyStrip s.data
  let (neg, cs1) := match cs with
    | '-' :: r => (true, r)
    | '+' :: r => (false, r)
    | _ => (false, cs)
  if cs1.isEmpty || !cs1.all isDigitCh then Option.none
  else
    let v : Int := Int.ofNat (digitsVal cs1)
    some (if neg then -v else v)

/-- Python `int(value)`: parse strings, truncate floats toward zero, map
booleans to 0/1; `None`, lists and dicts raise `TypeError`; non-finite
floats raise `ValueError` (nan) or `OverflowError` (infinity), the latter
being caught by neither `except (ValueError, TypeError)` nor re-raised as
one. -/
def pyIntOf (v : PyVal) : Except PyErr Int :=
  match v with
  | .int n => .ok n
  | .bool b => .ok (if b then 1 else 0)
  | .float m e =>
    if e ≥ 0 then .ok (m * (10 : Int) ^ e.toNat)
    else .ok (m.tdiv ((10 : Int) ^ (-e).toNat))
  | .nonfinite isNan _ =>
    if isNan then .error ⟨.valueError, "cannot convert float NaN to integer"⟩
    else .error ⟨.overflowError, "cannot convert float infinity to integer"⟩
  | .str s =>
    match parseIntLit s with
    | some n => .ok n
    | Option.none =>
      .error ⟨.valueError, "invalid literal for int() with base 10: " ++ pyStrRepr s⟩
  | w => .error ⟨.typeError,
      "int() argument must be a string, a bytes-like object or a real number, not \x27"
        ++ w.typeName ++ "\x27"⟩

/-- Parse a Python float literal: optional sign, digits around an optional
point (at least one digit), optional exponent, or the case-insensitive
words `inf`, `infinity`, `nan`. -/
def parseFloatLit (s : String) : Option PyVal :=
  let cs := pyStrip s.data
  let (neg, cs1) := match cs with
    | '-' :: r => (true, r)
    | '+' :: r => (false, r)
    | _ => (false, cs)
  let lower := (String.mk cs1).toLower
  if lower = "inf" || lower = "infinity" then some (.nonfinite false neg)
  else if lower = "nan" then some (.nonfinite true false)
  else
    let ipart := cs1.takeWhile isDigitCh
    let r1 := cs1.dropWhile isDigitCh
    let (fpart, r2) : List Char × List Char :=
      match r1 with
      | '.' :: fr => (fr.takeWhile isDigitCh, fr.dropWhile isDigitCh)
      | _ => ([], r1)
    if ipart.isEmpty && fpart.isEmpty then Option.none
    else
      let mant : Int := Int.ofNat (digitsVal (ipart ++ fpart))
      let mant := if neg then -mant else mant
      match r2 with
      | [] => some (.float mant (-(Int.ofNat fpart.length)))
      | e :: er =>
        if e = 'e' || e = 'E' then
          let (esign, er1) : Bool × List Char := match er with
            | '+' :: t => (false, t)
            | '-' :: t => (true, t)
            | _ => (false, er)
          let ds := er1.takeWhile isDigitCh
          if ds.isEmpty || !(er1.dropWhile isDigitCh).isEmpty then Option.none
          else
            let ev : Int := Int.ofNat (digitsVal ds)
            some (.float mant ((if esign then -ev else ev) - Int.ofNat fpart.length))
        else Option.none

/-- Python `float(value)`. -/
def pyFloatOf (v : PyVal) : Except PyErr PyVal :=
  match v with
  | .float m e => .ok (.float m e)
  | .nonfinite a b => .ok (.nonfinite a b)
  | .int n => .ok (.float n 0)
  | .bool b => .ok (.float (if b then 1 else 0) 0)
  | .str s =>
    match parseFloatLit s with
    | some f => .ok f
    | Option.none =>
      .error ⟨.valueError, "could not convert string to float: " ++ pyStrRepr s⟩
  | w => .error ⟨.typeError,
      "float() argument must be a string or a real number, not \x27"
        ++ w.typeName ++ "\x27"⟩

/-- The `ToolParameterType` enum. -/
inductive ToolParamType where
  | string
  | number
  | integer
  | boolean
  | array
  | object
  deriving DecidableEq

/-- A `ToolParameter` as used by `BaseTool` (the free-text description is
irrelevant to the claims and omitted). -/
structure ToolParamSpec where
  type : ToolParamType
  required : Bool
  default : PyVal

/-- A concrete tool: its name, declared parameters, required-parameter list,
and its `execute` handler (which may raise or return any value). -/
structure ToolImpl where
  name : String
  params : List (String × ToolParamSpec)
  required_parameters : List String
  execute : List (String × PyVal) → Except PyErr PyVal

/-- Association-list lookup for parameter specs. -/
def specFind (ps : List (String × ToolParamSpec)) (k : String) : Option ToolParamSpec :=
  match ps with
  | [] => Option.none
  | kv :: rest => if kv.1 = k then some kv.2 else specFind rest k

/-- The conversion inside the `try` of `BaseTool._validate_parameter_type`. -/
def coerceByType (ty : ToolParamType) (paramName : String) (v : PyVal) :
    Except PyErr PyVal :=
  match ty with
  | .string => .ok (.str (pyStr v))
  | .integer => (pyIntOf v).map PyVal.int
  | .number => pyFloatOf v
  | .boolean =>
    match v with
    | .bool b => .ok (.bool b)
    | _ =>
      let sv := strLowerAscii (pyStr v)
      .ok (.bool (sv = "true" || sv = "1" || sv = "yes" || sv = "on"))
  | .array =>
    match v with
    | .list xs => .ok (.list xs)
    | _ => .ok (.list [v])
  | .object =>
    match v with
    | .dict kvs => .ok (.dict kvs)
    | _ => .error ⟨.valueError, "参数 " ++ paramName ++ " 必须是对象类型"⟩

/-- `BaseTool._validate_parameter_type`: `None` yields the default (or a
`ValueError` when the parameter is required); otherwise coerce per the
declared type, re-raising `ValueError`/`TypeError` as a `ValueError` with
the tool's own message (an `OverflowError` from `int(inf)` is not caught
here). -/
def validateParameterType (paramName : String) (v : PyVal) (pd : ToolParamSpec) :
    Except PyErr PyVal :=
  match v with
  | .none =>
    if pd.required then .error ⟨.valueError, "参数 " ++ paramName ++ " 不能为空"⟩
    else .ok pd.default
  | _ =>
    match coerceByType pd.type paramName v with
    | .ok w => .ok w
    | .error e =>
      if e.kind = .valueError || e.kind = .jsonDecodeError || e.kind = .typeError then
        .error ⟨.valueError, "参数 " ++ paramName ++ " 类型转换失败: " ++ e.msg⟩
      else .error e

/-- The per-parameter loop of `BaseTool.validate_parameters`: declared
parameters are validated and coerced, unknown parameters pass through
unchanged (with a logged warning). -/
def validateEach (tparams : List (String × ToolParamSpec)) :
    List (String × PyVal) → Except PyErr (List (String × PyVal))
  | [] => .ok []
  | (k, v) :: rest =>
    match (match specFind tparams k with
           | some pd => validateParameterType k v pd
           | Option.none => .ok v) with
    | .error e => .error e
    | .ok w =>
      match validateEach tparams rest with
      | .error e => .error e
      | .ok tail => .ok ((k, w) :: tail)

/-- `BaseTool.validate_parameters`: raise on the first missing required
parameter, then validate every supplied parameter. -/
def validateParameters (t : ToolImpl) (parameters : List (String × PyVal)) :
    Except PyErr (List (String × PyVal)) :=
  match t.required_parameters.find? (fun r => (dictFind parameters r).isNone) with
  | some r => .error ⟨.valueError, "缺少必需参数: " ++ r⟩
  | Option.none => validateEach t.params parameters

/-- `BaseTool.safe_execute`: validate, run the handler, wrap a non-dict
return value as `{output: value}`, then unconditionally set
`result["success"] = True`; any exception becomes the structured failure
dict. -/
def safeExecute (t : ToolImpl) (kwargs : List (String × PyVal)) :
    List (String × PyVal) :=
  match validateParameters t kwargs with
  | .error e =>
    [("success", .bool false), ("error", .str e.msg), ("tool_name", .str t.name)]
  | .ok vp =>
    match t.execute vp with
    | .error e =>
      [("success", .bool false), ("error", .str e.msg), ("tool_name", .str t.name)]
    | .ok result =>
      dictInsert (match result with
        | .dict kvs => kvs
        | v => [("output", v)]) "success" (.bool true)

/-- A `ToolCallResult` as returned by `ModernMCPServer._execute_tool`
(`id`, `timestamp` and `execution_time` are not modelled). -/
structure ToolCallResult where
  success : Bool
  result : Option (List (String × PyVal))
  error : Option String

/-- `ModernMCPServer._execute_tool`: unknown tool names raise `ValueError`
(propagating to the route handler); a handler exception becomes
`success=False` with the message; a successful handler result is wrapped as
`{output: result}` when it is not a dict and surfaced with `success=True`. -/
def serverExecuteTool (tools : List String)
    (handlers : List (String × (List (String × PyVal) → Except PyErr PyVal)))
    (toolName : String) (parameters : List (String × PyVal)) :
    Except PyErr ToolCallResult :=
  if !tools.contains toolName then
    .error ⟨.valueError, "工具 \x27" ++ toolName ++ "\x27 不存在"⟩
  else
    match handlers.find? (fun h => h.1 = toolName) with
    | Option.none => .error ⟨.valueError, "工具 \x27" ++ toolName ++ "\x27 没有注册处理器"⟩
    | some h =>
      match h.2 parameters with
      | .ok result =>
        .ok { success := true,
              result := some (match result with
                | .dict kvs => kvs
                | v => [("output", v)]),
              error := Option.none }
      | .error e =>
        .ok { success := false, result := Option.none, error := some e.msg }

/-- `ToolRegistry.register`: `self.tools[tool.name] = tool` on an
insertion-ordered dict keyed by tool name. -/
def registryRegister (reg : List (String × ToolImpl)) (t : ToolImpl) :
    List (String × ToolImpl) :=
  match reg with
  | [] => [(t.name, t)]
  | kv :: rest =>
    if kv.1 = t.name then (t.name, t) :: rest
    else kv :: registryRegister rest t

/-- `ToolRegistry.get_tool`. -/
def registryGetTool (reg : List (String × ToolImpl)) (toolName : String) :
    Option ToolImpl :=
  match reg with
  | [] => Option.none
  | kv :: rest => if kv.1 = toolName then some kv.2 else registryGetTool rest toolName

/-- `ToolRegistry.list_tools`: the registered tools in insertion order. -/
def registryListTools (reg : List (String × ToolImpl)) : List ToolImpl :=
  reg.map (fun kv => kv.2)

/-- A `ToolDefinition` as it appears in the engine catalog (parameters are
irrelevant to the catalog claims). -/
structure ToolDefinition where
  name : String
  description : String

/-- The reserved `final_answer` pseudo-tool definition of `MCPAgent`. -/
def finalAnswerDefn : ToolDefinition :=
  { name := "final_answer",
    description := "当您拥有足够信息时，调用此工具以向用户提供最终答案。" }

/-- The catalog assembly of `MCPAgent._register_tools`: all local tool
definitions in registry order, then the reserved `final_answer` pseudo-tool,
then every remote tool whose name is not among the names collected so far. -/
def assembleCatalog (localDefs : List ToolDefinition)
    (remoteDefs : List ToolDefinition) : List ToolDefinition :=
  let localList := localDefs ++ [finalAnswerDefn]
  let localNames := localList.map ToolDefinition.name
  localList ++ remoteDefs.filter (fun rt => !localNames.contains rt.name)

/-- The bytes Python `urlsplit` removes from a URL before parsing. -/
def isTabCrLf (c : Char) : Bool :=
  c = '\t' || c = '\r' || c = '\n'

/-- Remove tab, CR and LF as Python `urlsplit` does before parsing. -/
def removeTabCrLf (cs : List Char) : List Char :=
  cs.filter (fun c => !isTabCrLf c)

/-- ASCII letter test. -/
def isAsciiAlphaCh (c : Char) : Bool :=
  ('a' ≤ c && c ≤ 'z') || ('A' ≤ c && c ≤ 'Z')

/-- The characters allowed in a URL scheme. -/
def isSchemeChar (c : Char) : Bool :=
  isAsciiAlphaCh c || isDigitCh c || c = '+' || c = '-' || c = '.'

/-- Split a character list at the first character satisfying `p`: the part
before it and, when found, the part after it (the matching character is
dropped). -/
def splitFirst (p : Char → Bool) : List Char → List Char × Option (List Char)
  | [] => ([], Option.none)
  | c :: rest =>
    if p c then ([], some rest)
    else
      let r := splitFirst p rest
      (c :: r.1, r.2)

/-- The six components of Python's `urlparse` result. -/
structure UrlParts where
  scheme : List Char
  netloc : List Char
  path : List Char
  params : List Char
  query : List Char
  fragment : List Char

/-- The scheme step of `urlsplit`: consume `prefix:` when the text before
the first colon is nonempty, starts with an ASCII letter, and consists of
scheme characters only; the scheme is lowercased. -/
def extractScheme (url : List Char) : List Char × List Char :=
  match splitFirst (fun c => c = ':') url with
  | (before, some after) =>
    if !before.isEmpty && isAsciiAlphaCh (before.headD ' ')
        && before.all isSchemeChar then
      (before.map asciiLower, after)
    else ([], url)
  | (_, Option.none) => ([], url)

/-- Delimiters ending the netloc. -/
def isNetlocEnd (c : Char) : Bool :=
  c = '/' || c = '?' || c = '#'

/-- Python `str.split(sep)` for a one-character separator. -/
def splitOnCh (x : Char) : List Char → List (List Char)
  | [] => [[]]
  | c :: rest =>
    if c = x then [] :: splitOnCh x rest
    else
      match splitOnCh x rest with
      | [] => [[c]]
      | s :: ss => (c :: s) :: ss

/-- ASCII hex-digit test (`ipaddress._BaseV6._HEX_DIGITS`). -/
def isHexDigitCh (c : Char) : Bool :=
  isDigitCh c || (97 ≤ c.toNat && c.toNat ≤ 102) || (65 ≤ c.toNat && c.toNat ≤ 70)

/-- The numeric value of a decimal digit string. -/
def decDigitsVal (s : List Char) : Nat :=
  s.foldl (fun acc c => acc * 10 + (c.toNat - 48)) 0

/-- `ipaddress._BaseV4._parse_octet` as a validity test: nonempty, ASCII
decimal digits only, at most three characters, no leading zero except `0`
itself, and value at most 255. -/
def validOctet (s : List Char) : Bool :=
  !s.isEmpty && s.all isDigitCh && s.length ≤ 3 &&
    (s = ['0'] || s.headD ' ' ≠ '0') && decDigitsVal s ≤ 255

/-- `ipaddress.IPv4Address._ip_int_from_string` as a validity test: exactly
four `.`-separated valid octets. -/
def validIPv4 (s : List Char) : Bool :=
  !s.isEmpty && (splitOnCh '.' s).length = 4 && (splitOnCh '.' s).all validOctet

/-- `ipaddress._BaseV6._parse_hextet` as a validity test: one to four hex
digits. -/
def validHextet (s : List Char) : Bool :=
  !s.isEmpty && s.length ≤ 4 && s.all isHexDigitCh

/-- `ipaddress._BaseV6._ip_int_from_string` as a validity test (the scope id
is handled separately): split on `:`; at least three parts; an IPv4-style
last part is converted into two hextets; at most nine parts; at most one
empty middle part (the `::`); an empty first or last part only directly at
the `::`; at least one hextet skipped by a `::`; all remaining parts valid
hextets. -/
def validIPv6Core (s : List Char) : Bool :=
  if s.isEmpty then false
  else
    let parts0 := splitOnCh ':' s
    if parts0.length < 3 then false
    else if (parts0.getLastD []).contains '.' && !validIPv4 (parts0.getLastD []) then
      false
    else
      let parts := if (parts0.getLastD []).contains '.' then
        parts0.dropLast ++ [['0'], ['0']] else parts0
      if parts.length > 9 then false
      else
        let mids := (parts.drop 1).dropLast
        if 2 ≤ (mids.filter (fun q => q.isEmpty)).length then false
        else
          match mids.findIdx? (fun q => q.isEmpty) with
          | some i0 =>
            if (parts.headD []).isEmpty && i0 + 1 ≠ 1 then false
            else if (parts.getLastD []).isEmpty &&
                parts.length - (i0 + 1) - 1 ≠ 1 then false
            else
              let hi := if (parts.headD []).isEmpty then 0 else i0 + 1
              let lo := if (parts.getLastD []).isEmpty then 0
                else parts.length - (i0 + 1) - 1
              if 8 ≤ hi + lo then false
              else (parts.take hi).all validHextet &&
                (parts.drop (parts.length - lo)).all validHextet
          | Option.none =>
            parts.length = 8 && parts.all validHextet

/-- `ipaddress.IPv6Address` string parsing as a validity test: an optional
`%scope` suffix (nonempty, holding no further `%`) after a valid address. -/
def validIPv6 (s : List Char) : Bool :=
  match splitFirst (fun c => c = '%') s with
  | (addr, Option.none) => validIPv6Core addr
  | (addr, some scope) =>
    !scope.isEmpty && !scope.contains '%' && validIPv6Core addr

/-- `urllib.parse._check_bracketed_host` (CPython 3.11): a bracketed host
starting with `v` must match the IPvFuture pattern `v<hex>+.<nonempty>`;
otherwise it must parse via `ipaddress.ip_address`, with IPv4 addresses
rejected, so only an IPv6 address is accepted.  (The host comes from a
netloc already free of tab, CR and LF, so the regex newline caveat cannot
fire.) -/
def checkBracketedHost (h : List Char) : Except PyErr Unit :=
  if h.headD ' ' = 'v' then
    match splitFirst (fun c => c = '.') (h.drop 1) with
    | (hex1, some tl) =>
      if !hex1.isEmpty && hex1.all isHexDigitCh && !tl.isEmpty then .ok ()
      else .error ⟨.valueError, "IPvFuture address is invalid"⟩
    | (_, Option.none) => .error ⟨.valueError, "IPvFuture address is invalid"⟩
  else if validIPv4 h then
    .error ⟨.valueError, "An IPv4 address cannot be in brackets"⟩
  else if validIPv6 h then .ok ()
  else
    .error ⟨.valueError,
      pyStrRepr (String.mk h) ++ " does not appear to be an IPv4 or IPv6 address"⟩

/-- The bracket validation `urlsplit` applies to a netloc: mismatched `[`/`]`
raise `ValueError("Invalid IPv6 URL")`; with both present, the text between
the first `[` and the following `]` must pass `_check_bracketed_host`. -/
def netlocBrackets (netloc : List Char) : Except PyErr Unit :=
  if (netloc.contains '[' && !netloc.contains ']') ||
      (netloc.contains ']' && !netloc.contains '[') then
    .error ⟨.valueError, "Invalid IPv6 URL"⟩
  else if netloc.contains '[' && netloc.contains ']' then
    checkBracketedHost
      ((splitFirst (fun c => c = ']')
        (((splitFirst (fun c => c = '[') netloc).2).getD [])).1)
  else .ok ()

/-- The netloc step of `urlsplit`: after a leading `//`, the netloc runs to
the next `/`, `?` or `#` (kept in the remainder); the bracket validation
may raise `ValueError`.  The NFKC `_checknetloc` check, which can only fire
on exotic non-ASCII netlocs, is not modelled. -/
def extractNetloc (url : List Char) : Except PyErr (List Char × List Char) :=
  if url.take 2 = ['/', '/'] then
    let rest := url.drop 2
    let netloc := rest.takeWhile (fun c => !isNetlocEnd c)
    let remainder := rest.dropWhile (fun c => !isNetlocEnd c)
    match netlocBrackets netloc with
    | .error e => .error e
    | .ok _ => .ok (netloc, remainder)
  else .ok ([], url)

/-- WHATWG C0-control-or-space class used by `urlsplit`'s leading strip. -/
def isC0OrSpace (c : Char) : Bool :=
  c.toNat ≤ 0x20

/-- Python `urlsplit` (with `allow_fragments=True`, as in CPython 3.11):
strip leading C0 controls and spaces, remove tab/CR/LF, take the scheme,
the netloc, then split off the fragment at the first `#` and the query at
the first `?`. -/
def urlsplitCore (url0 : List Char) : Except PyErr UrlParts :=
  let url1 := removeTabCrLf (url0.dropWhile isC0OrSpace)
  let sp := extractScheme url1
  match extractNetloc sp.2 with
  | .error e => .error e
  | .ok nl =>
    let f := splitFirst (fun c => c = '#') nl.2
    let fragment := f.2.getD []
    let qs := splitFirst (fun c => c = '?') f.1
    let query := qs.2.getD []
    .ok { scheme := sp.1, netloc := nl.1, path := qs.1,
          params := [], query := query, fragment := fragment }

/-- Decompose `url` as `pre ++ '/' :: lastSeg` where `lastSeg` holds no `/`. -/
def splitLastSlash (url : List Char) : Option (List Char × List Char) :=
  match splitFirst (fun c => c = '/') url.reverse with
  | (revSeg, some revPre) => some (revPre.reverse, revSeg.reverse)
  | (_, Option.none) => Option.none

/-- Python `_splitparams`: parameters are split at the first `;` of the last
path segment (`url.find(';', url.rfind('/'))`); with no `/` in the path, at
the first `;` overall. -/
def splitparams (url : List Char) : List Char × List Char :=
  match splitLastSlash url with
  | some (pre, lastSeg) =>
    match splitFirst (fun c => c = ';') lastSeg with
    | (b, some a) => (pre ++ '/' :: b, a)
    | (_, Option.none) => (url, [])
  | Option.none =>
    match splitFirst (fun c => c = ';') url with
    | (b, some a) => (b, a)
    | (_, Option.none) => (url, [])

/-- The `uses_params` scheme list of `urllib.parse` (CPython 3.11). -/
def usesParamsSchemes : List (List Char) :=
  ["".data, "ftp".data, "hdl".data, "prospero".data, "http".data, "imap".data,
   "https".data, "shttp".data, "rtsp".data, "rtsps".data, "rtspu".data,
   "sip".data, "sips".data, "mms".data, "sftp".data, "tel".data]

/-- Python `urlparse`: `urlsplit`, then the params split, applied only when
the scheme is a params-using scheme and the path holds a `;`. -/
def urlparseCore (s : String) : Except PyErr UrlParts :=
  match urlsplitCore s.data with
  | .error e => .error e
  | .ok parts =>
    if usesParamsSchemes.contains parts.scheme && parts.path.contains ';' then
      let pp := splitparams parts.path
      .ok { parts with path := pp.1, params := pp.2 }
    else .ok parts

/-- The `uses_netloc` scheme list of `urllib.parse`. -/
def usesNetlocSchemes : List (List Char) :=
  ["".data, "ftp".data, "http".data, "gopher".data, "nntp".data, "telnet".data,
   "imap".data, "wais".data, "file".data, "mms".data, "https".data, "shttp".data,
   "snews".data, "prospero".data, "rtsp".data, "rtsps".data, "rtspu".data,
   "rsync".data, "svn".data, "svn+ssh".data, "sftp".data, "nfs".data,
   "git".data, "git+ssh".data, "ws".data, "wss".data]

/-- Python `urlunsplit` (CPython 3.11: the `//` part is emitted when there
is a netloc, or when the scheme is a known netloc-using scheme and the path
does not already begin with `//`). -/
def urlunsplitCore (scheme netloc url query fragment : List Char) : List Char :=
  let url :=
    if !netloc.isEmpty
        || (!scheme.isEmpty && usesNetlocSchemes.contains scheme
            && url.take 2 ≠ ['/', '/']) then
      let url1 := if !url.isEmpty && url.headD ' ' ≠ '/' then '/' :: url else url
      '/' :: '/' :: (netloc ++ url1)
    else url
  let url := if !scheme.isEmpty then scheme ++ ':' :: url else url
  let url := if !query.isEmpty then url ++ '?' :: query else url
  if !fragment.isEmpty then url ++ '#' :: fragment else url

/-- Python `urlunparse`: re-attach params to the path, then `urlunsplit`. -/
def urlunparseCore (p : UrlParts) : List Char :=
  let url := if !p.params.isEmpty then p.path ++ ';' :: p.params else p.path
  urlunsplitCore p.scheme p.netloc url p.query p.fragment

/-- Python `path.split("/")`. -/
def splitOnSlash : List Char → List (List Char)
  | [] => [[]]
  | c :: rest =>
    if c = '/' then [] :: splitOnSlash rest
    else
      match splitOnSlash rest with
      | [] => [[c]]
      | s :: ss => (c :: s) :: ss

/-- Whether some nonempty `/`-separated segment of the path lowercases to
`mcp`. -/
def hasMcpSegment (path : List Char) : Bool :=
  ((splitOnSlash path).filter (fun s => !s.isEmpty)).any
    (fun seg => seg.map asciiLower == ['m', 'c', 'p'])

/-- Python `path.rstrip("/")`. -/
def rstripSlash (cs : List Char) : List Char :=
  (cs.reverse.dropWhile (fun c => c = '/')).reverse

/-- The replacement path built by `_normalize_server_url`: `/mcp` for an
empty or root path, otherwise the slash-stripped path with `/mcp` appended. -/
def mcpPath (path : List Char) : List Char :=
  if path.isEmpty || path = ['/'] then "/mcp".data
  else rstripSlash path ++ "/mcp".data

/-- `MCPClient._normalize_server_url`: keep URLs whose path already has an
`mcp` segment; otherwise replace the path by `mcpPath` and reassemble; any
exception (the IPv6 `ValueError`) returns the input unchanged. -/
def normalizeServerUrl (raw : String) : String :=
  match urlparseCore raw with
  | .error _ => raw
  | .ok p =>
    if hasMcpSegment p.path then raw
    else String.mk (urlunparseCore { p with path := mcpPath p.path })

/-- Facts relating the state after one loop pass to the state before it. -/
structure PassBase (s s1 : AgentSt) : Prop where
  selfIter_eq : s1.selfIter = s.selfIter + 1
  maxIter_eq : s1.ctx.max_iterations = s.ctx.max_iterations
  curIter_eq : s1.ctx.current_iteration = s.ctx.current_iteration
  query_eq : s1.ctx.user_query = s.ctx.user_query
  chat_extend : ∃ δ, s1.ctx.chat_history = s.ctx.chat_history ++ δ
  completed_mono : s.ctx.is_completed = true → s1.ctx.is_completed = true

/-- The possible outcomes of one loop pass. -/
inductive PassShape (s : AgentSt) : List Event × AgentSt × PassExit → Prop where
  | raisedNil (e : PyErr) (s1 : AgentSt) (hb : PassBase s s1) :
      PassShape s ([], s1, .raised e)
  | raisedThink (t : String) (e : PyErr) (s1 : AgentSt) (hb : PassBase s s1) :
      PassShape s ([thinkingEvent t], s1, .raised e)
  | errBrk (t c : String) (s1 : AgentSt) (hb : PassBase s s1)
      (hc : s1.ctx.is_completed = s.ctx.is_completed) :
      PassShape s ([thinkingEvent t, errorEvent c], s1, .brk)
  | finBrk (t a : String) (s1 : AgentSt) (hb : PassBase s s1)
      (hc : s1.ctx.is_completed = true) :
      PassShape s ([thinkingEvent t, finalAnswerEvent a], s1, .brk)
  | contStep (t c : String) (tn : Option String)
      (ps : Option (List (String × PyVal))) (res : List (String × PyVal))
      (s1 : AgentSt) (hb : PassBase s s1)
      (hc : s1.ctx.is_completed = s.ctx.is_completed) :
      PassShape s ([thinkingEvent t, toolCallEvent c tn ps, toolResultEvent tn res],
        s1, .cont)

/-- Event streams produced by completed (non-breaking) loop passes: a
sequence of Thinking / ToolCall / ToolResult triples. -/
inductive Blocks : List Event → Prop where
  | nil : Blocks []
  | cons3 (t c : String) (tn : Option String)
      (ps : Option (List (String × PyVal))) (res : List (String × PyVal))
      (rest : List Event) (h : Blocks rest) :
      Blocks (thinkingEvent t :: toolCallEvent c tn ps :: toolResultEvent tn res :: rest)

/-- The trailing events and exit status of the loop: nothing (bound or
fuel exit), an invalid-action Error, a FinalAnswer break, or the events
yielded before an exception. -/
inductive TailOut : List Event → AgentSt → LoopExit → Prop where
  | bound (sF : AgentSt) (hc : sF.ctx.is_completed = false) : TailOut [] sF .finished
  | errBrk (t c : String) (sF : AgentSt) (hc : sF.ctx.is_completed = false) :
      TailOut [thinkingEvent t, errorEvent c] sF .finished
  | finBrk (t a : String) (sF : AgentSt) (hc : sF.ctx.is_completed = true) :
      TailOut [thinkingEvent t, finalAnswerEvent a] sF .finished
  | raisedNil (e : PyErr) (sF : AgentSt) : TailOut [] sF (.raised e)
  | raisedThink (t : String) (e : PyErr) (sF : AgentSt) :
      TailOut [thinkingEvent t] sF (.raised e)

/-- An event of terminal type (FinalAnswer or Error). -/
def isTerminal (e : Event) : Bool :=
  match e.type with
  | .finalAnswer => true
  | .error => true
  | _ => false

/-- Number of terminal-typed events in a stream. -/
def countTerminal (evs : List Event) : Nat :=
  (evs.filter isTerminal).length

/-- The trailing events of a finished run: an Error after an exception (with
or without a preceding Thinking event), the synthesized FinalAnswer after a
bound exit, an invalid-action Error followed by the synthesized FinalAnswer,
or a Thinking/FinalAnswer pair from the final_answer branch. -/
inductive FinalTail : List Event → Prop where
  | err (m : String) : FinalTail [errorEvent m]
  | thinkErr (t m : String) : FinalTail [thinkingEvent t, errorEvent m]
  | fin1 : FinalTail [finalAnswerEvent maxIterReachedText]
  | errFin (t c : String) :
      FinalTail [thinkingEvent t, errorEvent c, finalAnswerEvent maxIterReachedText]
  | thinkFin (t a : String) : FinalTail [thinkingEvent t, finalAnswerEvent a]

/-- An environment whose Decide responses never parse: the decide step
always yields the synthesized fallback action. -/
def fallbackOracle : Oracle :=
  { think := fun _ => .ok "思考。",
    decide := fun _ _ => .ok "无法解析的输出",
    execTool := fun _ _ _ => [] }

/-- An environment whose Decide responses parse to an action whose type is
not `tool_call`. -/
def badActionOracle : Oracle :=
  { think := fun _ => .ok "思考。",
    decide := fun _ _ => .ok "\x7b\"action\": \x7b\"type\": \"x\"\x7d\x7d",
    execTool := fun _ _ _ => [] }

/-- An environment that always asks for the `echo` tool, so a bounded run
exhausts its iterations. -/
def echoOracle : Oracle :=
  { think := fun _ => .ok "思考。",
    decide := fun _ _ => .ok "\x7b\"action\": \x7b\"type\": \"tool_call\", \"tool_name\": \"echo\", \"parameters\": \x7b\"text\": \"hi\"\x7d\x7d\x7d",
    execTool := fun _ _ _ => [("output", PyVal.str "hi")] }

/-- A state whose context is already completed. -/
def doneState : AgentSt :=
  ⟨{ initialCtx "q" Option.none Option.none Option.none 3 with is_completed := true }, 0⟩

/-- A tool whose handler reports failure through its payload, like the
repository tools in `file_tools.py` / `analysis_tools.py` do. -/
def declaredFailTool : ToolImpl :=
  { name := "file_operation", params := [], required_parameters := [],
    execute := fun _ =>
      .ok (.dict [("success", .bool false), ("error", .str "磁盘已满")]) }

/-- A tool with an integer, an array and an object parameter, the integer
one required. -/
def countTool : ToolImpl :=
  { name := "counter",
    params := [("count", ⟨.integer, true, .none⟩), ("tags", ⟨.array, false, .none⟩),
               ("opts", ⟨.object, false, .none⟩)],
    required_parameters := ["count"],
    execute := fun vp => .ok (.dict vp) }

/-- A tool whose handler always raises. -/
def raisingTool : ToolImpl :=
  { name := "boom", params := [], required_parameters := [],
    execute := fun _ => .error ⟨.valueError, "爆炸"⟩ }

/-- A tool whose handler returns a bare scalar. -/
def scalarTool : ToolImpl :=
  { name := "scalar", params := [], required_parameters := [],
    execute := fun _ => .ok (.str "42") }

/-- Two distinct tools sharing one name, and a small catalog fixture. -/
def dupTool1 : ToolImpl :=
  { name := "dup", params := [], required_parameters := [],
    execute := fun _ => .ok .none }

def dupTool2 : ToolImpl :=
  { name := "dup", params := [], required_parameters := [],
    execute := fun _ => .ok (.bool true) }

def localEcho : ToolDefinition := ⟨"echo", "本地回声工具"⟩

def remoteEcho : ToolDefinition := ⟨"echo", "远程回声工具"⟩

def remoteWeb : ToolDefinition := ⟨"web_search", "远程搜索工具"⟩

structure UrlWF (p : UrlParts) : Prop where
  scheme_ok : p.scheme = [] ∨ (p.scheme ≠ [] ∧ isAsciiAlphaCh (p.scheme.headD ' ') = true ∧
    p.scheme.all isSchemeChar = true ∧ p.scheme.map asciiLower = p.scheme)
  netloc_end : ∀ c ∈ p.netloc, isNetlocEnd c = false
  netloc_br : netlocBrackets p.netloc = .ok ()
  path_hash : ∀ c ∈ p.path, (c = '#' : Bool) = false
  path_qm : ∀ c ∈ p.path, (c = '?' : Bool) = false
  params_hash : ∀ c ∈ p.params, (c = '#' : Bool) = false
  params_qm : ∀ c ∈ p.params, (c = '?' : Bool) = false
  params_slash : ∀ c ∈ p.params, (c = '/' : Bool) = false
  query_hash : ∀ c ∈ p.query, (c = '#' : Bool) = false
  netloc_tab : ∀ c ∈ p.netloc, isTabCrLf c = false
  path_tab : ∀ c ∈ p.path, isTabCrLf c = false
  params_tab : ∀ c ∈ p.params, isTabCrLf c = false
  query_tab : ∀ c ∈ p.query, isTabCrLf c = false
  frag_tab : ∀ c ∈ p.fragment, isTabCrLf c = false
  head_ok : p.scheme = [] → ∀ a t, p.path = a :: t → isC0OrSpace a = false
  colon_ok : p.scheme = [] → ∀ b0 r0,
    splitFirst (fun c => (c = ':' : Bool)) p.path = (b0, some r0) →
    b0 = [] ∨ isAsciiAlphaCh (b0.headD ' ') = false ∨ b0.all isSchemeChar = false
  params_scheme : p.params ≠ [] → usesParamsSchemes.contains p.scheme = true

theorem passBase_bump (s : AgentSt) :
    PassBase s { s with selfIter := s.selfIter + 1 } :=
  ⟨rfl, rfl, rfl, rfl, ⟨[], (List.append_nil _).symm⟩, fun h => h⟩

theorem runPass_shape (o : Oracle) (s : AgentSt) : PassShape s (runPass o s) := by
  unfold runPass
  dsimp only
  split
  next => exact .raisedNil _ _ (passBase_bump s)
  next =>
    split
    next => exact .raisedThink _ _ _ (passBase_bump s)
    next =>
      split
      next => exact .raisedThink _ _ _ (passBase_bump s)
      next =>
        split
        next => exact .errBrk _ _ _ (passBase_bump s) rfl
        next =>
          split
          next => exact .raisedThink _ _ _ (passBase_bump s)
          next =>
            split
            next => exact .errBrk _ _ _ (passBase_bump s) rfl
            next =>
              split
              next => exact .raisedThink _ _ _ (passBase_bump s)
              next =>
                split
                next => exact .raisedThink _ _ _ (passBase_bump s)
                next =>
                  split
                  next =>
                    split
                    next => exact .raisedThink _ _ _ (passBase_bump s)
                    next =>
                      split
                      next =>
                        exact .raisedThink _ _ _
                          ⟨rfl, rfl, rfl, rfl, ⟨[], (List.append_nil _).symm⟩, fun _ => rfl⟩
                      next =>
                        split
                        next =>
                          exact .finBrk _ _ _
                            ⟨rfl, rfl, rfl, rfl, ⟨[], (List.append_nil _).symm⟩,
                              fun _ => rfl⟩ rfl
                        next =>
                          exact .raisedThink _ _ _
                            ⟨rfl, rfl, rfl, rfl, ⟨[], (List.append_nil _).symm⟩, fun _ => rfl⟩
                  next =>
                    split
                    next => exact .raisedThink _ _ _ (passBase_bump s)
                    next =>
                      split
                      next => exact .raisedThink _ _ _ (passBase_bump s)
                      next =>
                        exact .contStep _ _ _ _ _ _
                          ⟨rfl, rfl, rfl, rfl, ⟨[_], rfl⟩, fun h => h⟩ rfl

theorem passShape_base {s : AgentSt} {out : List Event × AgentSt × PassExit}
    (h : PassShape s out) : PassBase s out.2.1 := by
  cases h <;> assumption

theorem runLoop_out (o : Oracle) (fuel : Nat) (s : AgentSt)
    (h : s.ctx.is_completed = false) :
    ∃ body tail, (runLoop o fuel s).1 = body ++ tail ∧ Blocks body ∧
      TailOut tail (runLoop o fuel s).2.1 (runLoop o fuel s).2.2 := by
  induction fuel generalizing s with
  | zero => exact ⟨[], [], rfl, .nil, .bound s h⟩
  | succ fuel ih =>
    unfold runLoop
    split
    next => exact ⟨[], [], rfl, .nil, .bound s h⟩
    next hguard =>
      have hshape := runPass_shape o s
      rcases hr : runPass o s with ⟨evs, s1, ex⟩
      rw [hr] at hshape
      cases hshape with
      | raisedNil e s1 hb => exact ⟨[], [], rfl, .nil, .raisedNil e s1⟩
      | raisedThink t e s1 hb =>
        exact ⟨[], [thinkingEvent t], rfl, .nil, .raisedThink t e s1⟩
      | errBrk t c s1 hb hc =>
        exact ⟨[], [thinkingEvent t, errorEvent c], rfl, .nil, .errBrk t c s1 (hc.trans h)⟩
      | finBrk t a s1 hb hc =>
        exact ⟨[], [thinkingEvent t, finalAnswerEvent a], rfl, .nil, .finBrk t a s1 hc⟩
      | contStep t c tn ps res s1 hb hc =>
        obtain ⟨body, tail, he, hB, hT⟩ := ih s1 (hc.trans h)
        refine ⟨thinkingEvent t :: toolCallEvent c tn ps :: toolResultEvent tn res :: body,
          tail, ?_, Blocks.cons3 t c tn ps res body hB, hT⟩
        simp [he]

theorem runLoop_state (o : Oracle) (fuel : Nat) (s : AgentSt) :
    (runLoop o fuel s).2.1.ctx.max_iterations = s.ctx.max_iterations ∧
    (runLoop o fuel s).2.1.ctx.current_iteration = s.ctx.current_iteration ∧
    (runLoop o fuel s).2.1.ctx.user_query = s.ctx.user_query ∧
    (∃ δ, (runLoop o fuel s).2.1.ctx.chat_history = s.ctx.chat_history ++ δ) ∧
    (s.selfIter ≤ s.ctx.max_iterations →
      (runLoop o fuel s).2.1.selfIter ≤ s.ctx.max_iterations) := by
  induction fuel generalizing s with
  | zero => exact ⟨rfl, rfl, rfl, ⟨[], (List.append_nil _).symm⟩, fun hle => hle⟩
  | succ fuel ih =>
    unfold runLoop
    split
    next => exact ⟨rfl, rfl, rfl, ⟨[], (List.append_nil _).symm⟩, fun hle => hle⟩
    next hguard =>
      have hlt : s.selfIter < s.ctx.max_iterations := by
        simp only [Bool.or_eq_true, decide_eq_true_eq, not_or] at hguard
        omega
      have hshape := runPass_shape o s
      rcases hr : runPass o s with ⟨evs, s1, ex⟩
      rw [hr] at hshape
      have hb : PassBase s s1 := passShape_base hshape
      obtain ⟨δ1, hδ1⟩ := hb.chat_extend
      have hs1le : s1.selfIter ≤ s.ctx.max_iterations := by
        rw [hb.selfIter_eq]; omega
      cases ex with
      | cont =>
        obtain ⟨hmax, hcur, hq, ⟨δ2, hδ2⟩, hle⟩ := ih s1
        refine ⟨hmax.trans hb.maxIter_eq, hcur.trans hb.curIter_eq,
          hq.trans hb.query_eq, ⟨δ1 ++ δ2, ?_⟩, fun _ => ?_⟩
        · rw [hδ2, hδ1, List.append_assoc]
        · have := hle (by rw [hb.maxIter_eq]; exact hs1le)
          rwa [hb.maxIter_eq] at this
      | brk =>
        exact ⟨hb.maxIter_eq, hb.curIter_eq, hb.query_eq, ⟨δ1, hδ1⟩, fun _ => hs1le⟩
      | raised e =>
        exact ⟨hb.maxIter_eq, hb.curIter_eq, hb.query_eq, ⟨δ1, hδ1⟩, fun _ => hs1le⟩

theorem blocks_filter_terminal {body : List Event} (h : Blocks body) :
    body.filter isTerminal = [] := by
  induction h with
  | nil => rfl
  | cons3 t c tn ps res rest hrest ih =>
    simp [List.filter, thinkingEvent, toolCallEvent, toolResultEvent, isTerminal, ih]

theorem thinkAndAct_decomp (o : Oracle) (q : String) (dc dt dp : Option String)
    (m : Nat) :
    ∃ body tail, (thinkAndAct o q dc dt dp m).events = body ++ tail ∧
      Blocks body ∧ FinalTail tail ∧
      ((thinkAndAct o q dc dt dp m).raised = Option.none →
        (thinkAndAct o q dc dt dp m).ctx.is_completed = false →
        ∃ pre, tail = pre ++ [finalAnswerEvent maxIterReachedText]) := by
  unfold thinkAndAct
  dsimp only
  have hout := runLoop_out o m ⟨initialCtx q dc dt dp m, 0⟩ rfl
  rcases hr : runLoop o m ⟨initialCtx q dc dt dp m, 0⟩ with ⟨levs, ls, lex⟩
  rw [hr] at hout
  obtain ⟨body, tail, he, hB, hT⟩ := hout
  dsimp only at he ⊢
  cases hT with
  | bound sF hc =>
    dsimp only at hc
    refine ⟨body, [finalAnswerEvent maxIterReachedText], ?_, hB, .fin1,
      fun _ _ => ⟨[], rfl⟩⟩
    simp [hc, he]
  | errBrk t c sF hc =>
    dsimp only at hc
    refine ⟨body, [thinkingEvent t, errorEvent c, finalAnswerEvent maxIterReachedText],
      ?_, hB, .errFin t c, fun _ _ => ⟨[thinkingEvent t, errorEvent c], rfl⟩⟩
    simp [hc, he]
  | finBrk t a sF hc =>
    dsimp only at hc
    refine ⟨body, [thinkingEvent t, finalAnswerEvent a], ?_, hB, .thinkFin t a,
      fun _ hcomp => ?_⟩
    · simp [hc, he]
    · simp [hc] at hcomp
  | raisedNil e sF =>
    refine ⟨body, [errorEvent ("执行过程中出现错误: " ++ e.msg)], ?_, hB, .err _,
      fun hn _ => by simp at hn⟩
    simp [he]
  | raisedThink t e sF =>
    refine ⟨body, [thinkingEvent t, errorEvent ("执行过程中出现错误: " ++ e.msg)],
      ?_, hB, .thinkErr t _, fun hn _ => by simp at hn⟩
    simp [he]

theorem thinkAndAct_proj (o : Oracle) (q : String) (dc dt dp : Option String)
    (m : Nat) :
    (thinkAndAct o q dc dt dp m).selfIter =
      (runLoop o m ⟨initialCtx q dc dt dp m, 0⟩).2.1.selfIter ∧
    (thinkAndAct o q dc dt dp m).ctx =
      (runLoop o m ⟨initialCtx q dc dt dp m, 0⟩).2.1.ctx := by
  unfold thinkAndAct
  dsimp only
  split
  next => exact ⟨rfl, rfl⟩
  next =>
    split
    next => exact ⟨rfl, rfl⟩
    next => exact ⟨rfl, rfl⟩

theorem finalTail_facts {tail : List Event} (h : FinalTail tail) :
    (1 ≤ countTerminal tail ∧ countTerminal tail ≤ 2) ∧
    (∃ e, tail.getLast? = some e ∧ isTerminal e = true) ∧ tail ≠ [] := by
  cases h <;>
    simp [countTerminal, isTerminal, errorEvent, thinkingEvent, finalAnswerEvent,
      List.filter, List.getLast?]

/-- Claim C2 (amended): for every oracle, query and max_iterations at least 1,
the event stream ends in a terminal event, holds one or two terminal events
(two exactly when an invalid-action Error is followed by the synthesized
FinalAnswer), the iteration counter the engine keeps stays within the bound,
and an uncompleted non-raising run ends with the fixed max-iterations
FinalAnswer. -/
theorem C2_terminal_behaviour (o : Oracle) (q : String) (dc dt dp : Option String)
    (m : Nat) (_hm : 1 ≤ m) :
    (∃ e, (thinkAndAct o q dc dt dp m).events.getLast? = some e ∧ isTerminal e = true) ∧
    1 ≤ countTerminal (thinkAndAct o q dc dt dp m).events ∧
    countTerminal (thinkAndAct o q dc dt dp m).events ≤ 2 ∧
    (countTerminal (thinkAndAct o q dc dt dp m).events = 2 →
      ∃ pre c, (thinkAndAct o q dc dt dp m).events =
          pre ++ [errorEvent c, finalAnswerEvent maxIterReachedText] ∧
        countTerminal pre = 0) ∧
    (thinkAndAct o q dc dt dp m).selfIter ≤ m ∧
    ((thinkAndAct o q dc dt dp m).raised = Option.none →
      (thinkAndAct o q dc dt dp m).ctx.is_completed = false →
      (thinkAndAct o q dc dt dp m).events.getLast? =
        some (finalAnswerEvent maxIterReachedText)) := by
  obtain ⟨body, tail, he, hB, hT, hfix⟩ := thinkAndAct_decomp o q dc dt dp m
  have hbf := blocks_filter_terminal hB
  have hcount : countTerminal (thinkAndAct o q dc dt dp m).events = countTerminal tail := by
    rw [he]
    unfold countTerminal
    rw [List.filter_append, hbf, List.nil_append]
  obtain ⟨⟨h1, h2⟩, ⟨elast, hel, helt⟩, hne⟩ := finalTail_facts hT
  refine ⟨⟨elast, ?_, helt⟩, ?_, ?_, ?_, ?_, ?_⟩
  · rw [he]
    rw [List.getLast?_append_of_ne_nil _ hne]
    exact hel
  · omega
  · omega
  · intro h2c
    rw [hcount] at h2c
    cases hT with
    | errFin t c =>
      refine ⟨body ++ [thinkingEvent t], c, ?_, ?_⟩
      · rw [he]; simp
      · unfold countTerminal
        rw [List.filter_append, hbf]
        simp [isTerminal, thinkingEvent, List.filter]
    | err mm => simp [countTerminal, isTerminal, errorEvent, List.filter] at h2c
    | thinkErr t mm =>
      simp [countTerminal, isTerminal, errorEvent, thinkingEvent, List.filter] at h2c
    | fin1 =>
      simp [countTerminal, isTerminal, finalAnswerEvent, List.filter] at h2c
    | thinkFin t a =>
      simp [countTerminal, isTerminal, finalAnswerEvent, thinkingEvent, List.filter] at h2c
  · rw [(thinkAndAct_proj o q dc dt dp m).1]
    exact (runLoop_state o m ⟨initialCtx q dc dt dp m, 0⟩).2.2.2.2 (Nat.zero_le m)
  · intro hraise hcomp
    obtain ⟨pre, hpre⟩ := hfix hraise hcomp
    rw [he, hpre, ← List.append_assoc]
    exact List.getLast?_concat _

theorem blocks_types {body : List Event} (h : Blocks body) :
    ∀ y ∈ body, y.type = EventType.thinking ∨ y.type = EventType.toolCall ∨
      y.type = EventType.toolResult := by
  induction h with
  | nil => intro y hy; cases hy
  | cons3 t c tn ps res rest hrest ih =>
    intro y hy
    rcases hy with _ | ⟨_, hy⟩
    · exact Or.inl rfl
    rcases hy with _ | ⟨_, hy⟩
    · exact Or.inr (Or.inl rfl)
    rcases hy with _ | ⟨_, hy⟩
    · exact Or.inr (Or.inr rfl)
    · exact ih y hy

theorem blocks_toolResult_prev {body tail : List Event} (hB : Blocks body)
    (hno : ∀ x ∈ tail, x.type ≠ EventType.toolResult) :
    ∀ pre e post, body ++ tail = pre ++ e :: post → e.type = .toolResult →
      ∃ pre1 tc, pre = pre1 ++ [tc] ∧ tc.type = .toolCall ∧
        tc.tool_name = e.tool_name := by
  induction hB with
  | nil =>
    intro pre e post hsplit ht
    refine absurd ht (hno e ?_)
    rw [List.nil_append] at hsplit
    rw [hsplit]
    exact List.mem_append_right _ (List.mem_cons_self _ _)
  | cons3 t c tn ps res rest hrest ih =>
    intro pre e post hsplit ht
    cases pre with
    | nil =>
      simp only [List.cons_append, List.nil_append, List.cons.injEq] at hsplit
      rw [← hsplit.1] at ht
      cases ht
    | cons p1 pre1 =>
      cases pre1 with
      | nil =>
        simp only [List.cons_append, List.nil_append, List.cons.injEq] at hsplit
        rw [← hsplit.2.1] at ht
        cases ht
      | cons p2 pre2 =>
        cases pre2 with
        | nil =>
          simp only [List.cons_append, List.nil_append, List.cons.injEq] at hsplit
          obtain ⟨h1, h2, h3, -⟩ := hsplit
          exact ⟨[p1], p2, rfl, by rw [← h2]; rfl, by rw [← h2, ← h3]; rfl⟩
        | cons p3 pre3 =>
          simp only [List.cons_append, List.cons.injEq] at hsplit
          obtain ⟨h1, h2, h3, h4⟩ := hsplit
          obtain ⟨pre1', tc, hp, htc, htn⟩ := ih pre3 e post h4 ht
          exact ⟨p1 :: p2 :: p3 :: pre1', tc, by rw [hp]; simp, htc, htn⟩

theorem split_in_append {front suffix pre post : List Event} {e : Event}
    (h : front ++ suffix = pre ++ e :: post)
    (hno : ∀ y ∈ front, y.type ≠ e.type) :
    ∃ pre2, suffix = pre2 ++ e :: post ∧ pre = front ++ pre2 := by
  induction front generalizing pre with
  | nil =>
    rw [List.nil_append] at h
    exact ⟨pre, h, rfl⟩
  | cons f front' ih =>
    cases pre with
    | nil =>
      simp only [List.cons_append, List.nil_append, List.cons.injEq] at h
      exact absurd (congrArg Event.type h.1) (hno f (List.mem_cons_self _ _))
    | cons p pre' =>
      simp only [List.cons_append, List.cons.injEq] at h
      obtain ⟨pre2, hs, hp⟩ := ih h.2 (fun y hy => hno y (List.mem_cons_of_mem _ hy))
      exact ⟨pre2, hs, by rw [h.1, hp]; rfl⟩

theorem finalTail_no_toolResult {tail : List Event} (hT : FinalTail tail) :
    ∀ x ∈ tail, x.type ≠ EventType.toolResult := by
  cases hT <;> intro x hx <;>
    simp only [List.mem_cons, List.mem_singleton, List.not_mem_nil, or_false] at hx <;>
    rcases hx with rfl | rfl | rfl <;>
    simp [thinkingEvent, errorEvent, finalAnswerEvent]

theorem finalTail_after_final {tail : List Event} (hT : FinalTail tail) :
    ∀ pre2 e post, pre2 ++ e :: post = tail → e.type = .finalAnswer → post = [] := by
  intro pre2 e post h ht
  cases hT <;>
    rcases pre2 with _ | ⟨x1, _ | ⟨x2, _ | ⟨x3, pre3⟩⟩⟩ <;>
    simp only [List.cons_append, List.nil_append, List.cons.injEq] at h <;>
    simp_all [thinkingEvent, errorEvent, finalAnswerEvent]

theorem finalTail_after_error {tail : List Event} (hT : FinalTail tail) :
    ∀ pre2 e post, pre2 ++ e :: post = tail → e.type = .error →
      post = [] ∨ post = [finalAnswerEvent maxIterReachedText] := by
  intro pre2 e post h ht
  cases hT <;>
    rcases pre2 with _ | ⟨x1, _ | ⟨x2, _ | ⟨x3, pre3⟩⟩⟩ <;>
    simp only [List.cons_append, List.nil_append, List.cons.injEq] at h <;>
    simp_all [thinkingEvent, errorEvent, finalAnswerEvent]
/-- Claim C3 (amended): in every event stream, every ToolResult is immediately
preceded by a ToolCall with the same tool name; nothing follows a FinalAnswer;
after an Error at most the synthesized max-iterations FinalAnswer follows. -/
theorem C3_event_ordering (o : Oracle) (q : String) (dc dt dp : Option String) (m : Nat) :
    (∀ pre e post, (thinkAndAct o q dc dt dp m).events = pre ++ e :: post →
      e.type = .toolResult →
      ∃ pre1 tc, pre = pre1 ++ [tc] ∧ tc.type = .toolCall ∧
        tc.tool_name = e.tool_name) ∧
    (∀ pre e post, (thinkAndAct o q dc dt dp m).events = pre ++ e :: post →
      e.type = .finalAnswer → post = []) ∧
    (∀ pre e post, (thinkAndAct o q dc dt dp m).events = pre ++ e :: post →
      e.type = .error →
      post = [] ∨ post = [finalAnswerEvent maxIterReachedText]) := by
  obtain ⟨body, tail, he, hB, hT, -⟩ := thinkAndAct_decomp o q dc dt dp m
  refine ⟨?_, ?_, ?_⟩
  · intro pre e post hsplit ht
    exact blocks_toolResult_prev hB (finalTail_no_toolResult hT) pre e post
      (he.symm.trans hsplit) ht
  · intro pre e post hsplit ht
    have hno : ∀ y ∈ body, y.type ≠ e.type := by
      intro y hy
      rcases blocks_types hB y hy with h | h | h <;> rw [h, ht] <;> simp
    obtain ⟨pre2, hsub, -⟩ := split_in_append (he.symm.trans hsplit) hno
    exact finalTail_after_final hT pre2 e post hsub.symm ht
  · intro pre e post hsplit ht
    have hno : ∀ y ∈ body, y.type ≠ e.type := by
      intro y hy
      rcases blocks_types hB y hy with h | h | h <;> rw [h, ht] <;> simp
    obtain ⟨pre2, hsub, -⟩ := split_in_append (he.symm.trans hsplit) hno
    exact finalTail_after_error hT pre2 e post hsub.symm ht

theorem runPass_fallback (o : Oracle) (s : AgentSt) (t ds : String)
    (h1 : o.think (s.selfIter + 1) = .ok t)
    (h2 : o.decide (s.selfIter + 1) t = .ok ds)
    (h3 : decideNextAction ds = .ok fallbackAction) :
    runPass o s = ([thinkingEvent t, finalAnswerEvent fallbackAnswerText],
      ⟨{ s.ctx with
          is_completed := true,
          final_answer := some (.str fallbackAnswerText) },
        s.selfIter + 1⟩,
      .brk) := by
  unfold runPass
  dsimp only
  rw [h1]
  dsimp only
  rw [h2]
  dsimp only
  rw [h3]
  rfl

/-- Claim C4 (amended): when Think succeeds and Decide always yields the
fallback action, a run with max_iterations 3 performs exactly one iteration and
emits a Thinking event followed by a FinalAnswer with the fixed fallback text,
with no ToolCall event, since the final_answer branch yields the answer
directly. -/
theorem C4_unparsable_scenario (o : Oracle) (q : String) (dc dt dp : Option String)
    (hth : ∃ t, o.think 1 = .ok t)
    (hde : ∀ t, ∃ ds, o.decide 1 t = .ok ds ∧ decideNextAction ds = .ok fallbackAction) :
    ∃ t, (thinkAndAct o q dc dt dp 3).events =
        [thinkingEvent t, finalAnswerEvent fallbackAnswerText] ∧
      (thinkAndAct o q dc dt dp 3).selfIter = 1 ∧
      (thinkAndAct o q dc dt dp 3).ctx.is_completed = true := by
  obtain ⟨t, ht⟩ := hth
  obtain ⟨ds, hs, hd⟩ := hde t
  have hp := runPass_fallback o ⟨initialCtx q dc dt dp 3, 0⟩ t ds ht hs hd
  refine ⟨t, ?_, ?_, ?_⟩ <;>
  · unfold thinkAndAct runLoop
    dsimp only
    rw [hp]
    simp [initialCtx]

/-- Claim C9 (amended): each pass increments the iteration counter the agent
keeps on itself by exactly one, while the current_iteration field of the
ConversationContext is never touched and stays 0; chat history only grows by
appends and completion is monotone. -/
theorem C9_loop_state_invariants (o : Oracle) (s : AgentSt) (q : String) (dc dt dp : Option String)
    (m : Nat) :
    (runPass o s).2.1.selfIter = s.selfIter + 1 ∧
    (runPass o s).2.1.ctx.current_iteration = s.ctx.current_iteration ∧
    (∃ δ, (runPass o s).2.1.ctx.chat_history = s.ctx.chat_history ++ δ) ∧
    (s.ctx.is_completed = true → (runPass o s).2.1.ctx.is_completed = true) ∧
    (thinkAndAct o q dc dt dp m).ctx.current_iteration = 0 ∧
    (∃ δ, (thinkAndAct o q dc dt dp m).ctx.chat_history =
      { role := "user", content := q } :: δ) := by
  have hb := passShape_base (runPass_shape o s)
  obtain ⟨hmax, hcur, hq, ⟨δ, hδ⟩, hle⟩ := runLoop_state o m ⟨initialCtx q dc dt dp m, 0⟩
  refine ⟨hb.selfIter_eq, hb.curIter_eq, hb.chat_extend, hb.completed_mono, ?_, ⟨δ, ?_⟩⟩
  · rw [(thinkAndAct_proj o q dc dt dp m).2, hcur]; rfl
  · rw [(thinkAndAct_proj o q dc dt dp m).2, hδ]; rfl

/-- Claim C1: refuted as stated. The decide step does not survive every
completion reply: the reply "3" is extracted unchanged, parses as the JSON
number 3, and the membership test of "action" in a non-dict then raises an
uncaught TypeError; empty, brace-free, truncated and code-fenced replies do
reach the fallback action without an exception. -/
theorem C1_decide_step_uncaught_typeerror :
    decideNextAction "3" =
      .error ⟨.typeError, "argument of type \x27int\x27 is not iterable"⟩ ∧
    decideNextAction "" = .ok fallbackAction ∧
    decideNextAction "没有大括号的纯文本。" = .ok fallbackAction ∧
    decideNextAction "\x7b\"action\": \x7b\"type\"" = .ok fallbackAction ∧
    decideNextAction "```json\nnot json\n```" = .ok fallbackAction :=
  ⟨rfl, rfl, rfl, rfl, rfl⟩

/-- Claim C2, counterexample to the original wording: with a Decide reply whose
action type is not tool_call, a run emits an Error and then the synthesized
FinalAnswer, two terminal events rather than exactly one. -/
theorem C2_cex_two_terminal_events :
    (thinkAndAct badActionOracle "查询" Option.none Option.none Option.none 3).events.map
        Event.type = [.thinking, .error, .finalAnswer] ∧
    countTerminal
      (thinkAndAct badActionOracle "查询" Option.none Option.none Option.none 3).events = 2 :=
  ⟨rfl, rfl⟩

/-- Claim C9, counterexample to the original wording: after one pass the
counter the agent keeps on itself is 1 while the current_iteration field of
the ConversationContext is still 0. -/
theorem C9_cex_context_counter_static :
    (thinkAndAct fallbackOracle "查询" Option.none Option.none Option.none 3).selfIter = 1 ∧
    (thinkAndAct fallbackOracle "查询" Option.none Option.none Option.none
      3).ctx.current_iteration = 0 :=
  ⟨rfl, rfl⟩

/-- Claim C4, counterexample to the original wording: the unparsable-Decide run
emits no ToolCall event at all, only Thinking and the fallback FinalAnswer. -/
theorem C4_cex_no_toolcall_event :
    (thinkAndAct fallbackOracle "查询" Option.none Option.none Option.none 3).events =
      [thinkingEvent "思考。", finalAnswerEvent fallbackAnswerText] ∧
    (thinkAndAct fallbackOracle "查询" Option.none Option.none Option.none 3).selfIter = 1 :=
  ⟨rfl, rfl⟩


/-- Claim C3, counterexample to the original wording: after the Error event the
run still emits the synthesized FinalAnswer. -/
theorem C3_cex_event_after_error :
    (thinkAndAct badActionOracle "查询" Option.none Option.none Option.none 5).events.get? 1 =
      some (errorEvent "无效的行动: \x7b\x27type\x27: \x27x\x27\x7d") ∧
    (thinkAndAct badActionOracle "查询" Option.none Option.none Option.none 5).events.get? 2 =
      some (finalAnswerEvent maxIterReachedText) :=
  ⟨rfl, rfl⟩

/-- Claim C2, witness: the amended statement at concrete oracles and bounds. -/
theorem C2_terminal_behaviour_witness :
    (1 : Nat) ≤ 1 ∧
    (∃ e, (thinkAndAct echoOracle "查询" Option.none Option.none Option.none
        1).events.getLast? = some e ∧ isTerminal e = true) ∧
    (thinkAndAct echoOracle "查询" Option.none Option.none Option.none 1).selfIter ≤ 1 ∧
    (thinkAndAct echoOracle "查询" Option.none Option.none Option.none 1).events.getLast? =
      some (finalAnswerEvent maxIterReachedText) ∧
    (∃ pre c, (thinkAndAct badActionOracle "查询" Option.none Option.none Option.none
        3).events = pre ++ [errorEvent c, finalAnswerEvent maxIterReachedText] ∧
      countTerminal pre = 0) :=
  ⟨by decide,
   (C2_terminal_behaviour echoOracle "查询" Option.none Option.none Option.none 1 (by decide)).1,
   (C2_terminal_behaviour echoOracle "查询" Option.none Option.none Option.none 1 (by decide)).2.2.2.2.1,
   (C2_terminal_behaviour echoOracle "查询" Option.none Option.none Option.none 1 (by decide)).2.2.2.2.2
     rfl rfl,
   (C2_terminal_behaviour badActionOracle "查询" Option.none Option.none Option.none 3
     (by decide)).2.2.2.1 rfl⟩

/-- Claim C3, witness: the ordering statement at concrete runs. -/
theorem C3_event_ordering_witness :
    (∃ pre1 tc,
      [thinkingEvent "思考。",
        toolCallEvent "调用工具：echo" (some "echo") (some [("text", PyVal.str "hi")])] =
          pre1 ++ [tc] ∧ tc.type = .toolCall ∧
        tc.tool_name =
          (toolResultEvent (some "echo") [("output", PyVal.str "hi")]).tool_name) ∧
    ([finalAnswerEvent maxIterReachedText] = ([] : List Event) ∨
      [finalAnswerEvent maxIterReachedText] = [finalAnswerEvent maxIterReachedText]) :=
  ⟨(C3_event_ordering echoOracle "查询" Option.none Option.none Option.none 1).1
      [thinkingEvent "思考。",
        toolCallEvent "调用工具：echo" (some "echo") (some [("text", PyVal.str "hi")])]
      (toolResultEvent (some "echo") [("output", PyVal.str "hi")])
      [finalAnswerEvent maxIterReachedText] rfl rfl,
   (C3_event_ordering badActionOracle "查询" Option.none Option.none Option.none 5).2.2
      [thinkingEvent "思考。"]
      (errorEvent "无效的行动: \x7b\x27type\x27: \x27x\x27\x7d")
      [finalAnswerEvent maxIterReachedText] rfl rfl⟩

/-- Claim C4, witness: the amended scenario under the always-fallback oracle. -/
theorem C4_unparsable_scenario_witness :
    ∃ t, (thinkAndAct fallbackOracle "查询" Option.none Option.none Option.none 3).events =
        [thinkingEvent t, finalAnswerEvent fallbackAnswerText] ∧
      (thinkAndAct fallbackOracle "查询" Option.none Option.none Option.none 3).selfIter = 1 ∧
      (thinkAndAct fallbackOracle "查询" Option.none Option.none Option.none
        3).ctx.is_completed = true :=
  C4_unparsable_scenario fallbackOracle "查询" Option.none Option.none Option.none
    ⟨"思考。", rfl⟩ (fun _ => ⟨"无法解析的输出", rfl, rfl⟩)

/-- Claim C9, witness: the invariants at a concrete pass and run. -/
theorem C9_loop_state_invariants_witness :
    (runPass fallbackOracle doneState).2.1.selfIter = doneState.selfIter + 1 ∧
    (runPass fallbackOracle doneState).2.1.ctx.is_completed = true ∧
    (thinkAndAct fallbackOracle "查询" Option.none Option.none Option.none
      3).ctx.current_iteration = 0 :=
  ⟨(C9_loop_state_invariants fallbackOracle doneState "查询" Option.none Option.none Option.none 3).1,
   (C9_loop_state_invariants fallbackOracle doneState "查询" Option.none Option.none Option.none 3).2.2.2.1 rfl,
   (C9_loop_state_invariants fallbackOracle doneState "查询" Option.none Option.none Option.none 3).2.2.2.2.1⟩

/-- Claim C5: refuted. A handler that returns a declared-failure payload
(success false with an error text) is surfaced as success true: safe_execute
overwrites the success key of the returned dict with True, and the server
wraps the call as ok. -/
theorem C5_declared_failure_masked :
    dictFind (safeExecute declaredFailTool []) "success" = some (.bool true) ∧
    dictFind (safeExecute declaredFailTool []) "error" = some (.str "磁盘已满") ∧
    serverExecuteTool ["file_operation"] [("file_operation", declaredFailTool.execute)]
      "file_operation" [] =
      .ok { success := true,
            result := some [("success", .bool false), ("error", .str "磁盘已满")],
            error := Option.none } :=
  ⟨rfl, rfl, rfl⟩

/-- Claim C7: safe_execute is total over handler behaviour. A raising handler
yields success false with the message and tool name, and a non-dict return
value is normalized into a structured payload under the output key. -/
theorem C7_safe_execute_totality :
    (∀ (t : ToolImpl) (kwargs vp : List (String × PyVal)) (e : PyErr),
      validateParameters t kwargs = .ok vp → t.execute vp = .error e →
      safeExecute t kwargs =
        [("success", .bool false), ("error", .str e.msg), ("tool_name", .str t.name)]) ∧
    (∀ (t : ToolImpl) (kwargs vp : List (String × PyVal)) (v : PyVal),
      validateParameters t kwargs = .ok vp → t.execute vp = .ok v →
      (∀ kvs, v ≠ .dict kvs) →
      safeExecute t kwargs = [("output", v), ("success", .bool true)]) := by
  constructor
  · intro t kwargs vp e hvp hex
    unfold safeExecute
    rw [hvp]
    dsimp only [Except.bind]
    rw [hex]
  · intro t kwargs vp v hvp hex hnd
    unfold safeExecute
    rw [hvp]
    dsimp only [Except.bind]
    rw [hex]
    cases v with
    | dict kvs => exact absurd rfl (hnd kvs)
    | none => rfl
    | bool b => rfl
    | int n => rfl
    | float m e => rfl
    | nonfinite a b => rfl
    | str s => rfl
    | list xs => rfl

/-- Claim C6: the declared coercion table. The string "3" becomes the integer 3
for an integer parameter, a missing required parameter gives a failure result
rather than an exception, a scalar is wrapped into a one-element list for an
array parameter, an object parameter rejects non-dict values, and an
undeclared parameter passes through unchanged. -/
theorem C6_parameter_validation :
    (∀ (t : ToolImpl) (p : String) (spec : ToolParamSpec),
      specFind t.params p = some spec → spec.type = .integer →
      (∀ r ∈ t.required_parameters, r = p) →
      validateParameters t [(p, .str "3")] = .ok [(p, .int 3)]) ∧
    (∀ (t : ToolImpl) (kwargs : List (String × PyVal)) (r : String),
      r ∈ t.required_parameters → dictFind kwargs r = Option.none →
      dictFind (safeExecute t kwargs) "success" = some (.bool false) ∧
      ∃ msg, dictFind (safeExecute t kwargs) "error" = some (.str msg)) ∧
    (∀ (p : String) (spec : ToolParamSpec) (v : PyVal),
      spec.type = .array → (∀ xs, v ≠ .list xs) → v ≠ .none →
      validateParameterType p v spec = .ok (.list [v])) ∧
    (∀ (p : String) (spec : ToolParamSpec) (v : PyVal),
      spec.type = .object → (∀ kvs, v ≠ .dict kvs) → v ≠ .none →
      validateParameterType p v spec =
        .error ⟨.valueError,
          "参数 " ++ p ++ " 类型转换失败: " ++ ("参数 " ++ p ++ " 必须是对象类型")⟩) ∧
    (∀ (t : ToolImpl) (p : String) (v : PyVal),
      specFind t.params p = Option.none →
      (∀ r ∈ t.required_parameters, r = p) →
      validateParameters t [(p, v)] = .ok [(p, v)]) := by
  refine ⟨?_, ?_, ?_, ?_, ?_⟩
  · intro t p spec hfind htype hreq
    unfold validateParameters
    have hnone : t.required_parameters.find?
        (fun r => (dictFind [(p, PyVal.str "3")] r).isNone) = Option.none := by
      rw [List.find?_eq_none]
      intro r hr
      rw [hreq r hr]
      simp [dictFind]
    rw [hnone]
    unfold validateEach
    rw [hfind]
    dsimp only
    have hv : validateParameterType p (PyVal.str "3") spec = .ok (.int 3) := by
      unfold validateParameterType
      dsimp only
      rw [show coerceByType spec.type p (PyVal.str "3") = .ok (.int 3) by
        rw [htype]; rfl]
    rw [hv]
    rfl
  · intro t kwargs r hr hmiss
    have hsome : (t.required_parameters.find?
        (fun r => (dictFind kwargs r).isNone)).isSome := by
      rw [List.find?_isSome]
      exact ⟨r, hr, by simp [hmiss]⟩
    obtain ⟨r0, hr0⟩ := Option.isSome_iff_exists.mp hsome
    have hvp : validateParameters t kwargs =
        .error ⟨.valueError, "缺少必需参数: " ++ r0⟩ := by
      unfold validateParameters
      rw [hr0]
    refine ⟨?_, "缺少必需参数: " ++ r0, ?_⟩ <;>
    · unfold safeExecute
      rw [hvp]
      rfl
  · intro p spec v htype hnl hnn
    cases v with
    | none => exact absurd rfl hnn
    | list xs => exact absurd rfl (hnl xs)
    | bool b => unfold validateParameterType; dsimp only; rw [htype]; rfl
    | int n => unfold validateParameterType; dsimp only; rw [htype]; rfl
    | float m e => unfold validateParameterType; dsimp only; rw [htype]; rfl
    | nonfinite a b => unfold validateParameterType; dsimp only; rw [htype]; rfl
    | str s => unfold validateParameterType; dsimp only; rw [htype]; rfl
    | dict kvs => unfold validateParameterType; dsimp only; rw [htype]; rfl
  · intro p spec v htype hnd hnn
    cases v with
    | none => exact absurd rfl hnn
    | dict kvs => exact absurd rfl (hnd kvs)
    | bool b => unfold validateParameterType; dsimp only; rw [htype]; rfl
    | int n => unfold validateParameterType; dsimp only; rw [htype]; rfl
    | float m e => unfold validateParameterType; dsimp only; rw [htype]; rfl
    | nonfinite a b => unfold validateParameterType; dsimp only; rw [htype]; rfl
    | str s => unfold validateParameterType; dsimp only; rw [htype]; rfl
    | list xs => unfold validateParameterType; dsimp only; rw [htype]; rfl
  · intro t p v hfind hreq
    unfold validateParameters
    have hnone : t.required_parameters.find?
        (fun r => (dictFind [(p, v)] r).isNone) = Option.none := by
      rw [List.find?_eq_none]
      intro r hr
      rw [hreq r hr]
      simp [dictFind]
    rw [hnone]
    unfold validateEach
    rw [hfind]
    rfl

theorem registryRegister_keys (reg : List (String × ToolImpl)) (t : ToolImpl) :
    (registryRegister reg t).map Prod.fst =
      if t.name ∈ reg.map Prod.fst then reg.map Prod.fst
      else reg.map Prod.fst ++ [t.name] := by
  induction reg with
  | nil => simp [registryRegister]
  | cons kv rest ih =>
    by_cases h : kv.1 = t.name
    · simp [registryRegister, h]
    · simp only [registryRegister, if_neg h, List.map_cons, ih]
      by_cases h2 : t.name ∈ rest.map Prod.fst
      · simp [h2, List.mem_cons, Ne.symm h]
      · simp [h2, List.mem_cons, Ne.symm h]

theorem registryRegister_get (reg : List (String × ToolImpl)) (t : ToolImpl) :
    registryGetTool (registryRegister reg t) t.name = some t := by
  induction reg with
  | nil => simp [registryRegister, registryGetTool]
  | cons kv rest ih =>
    by_cases h : kv.1 = t.name
    · simp [registryRegister, h, registryGetTool]
    · simp [registryRegister, h, registryGetTool, ih]

/-- Claim C8: registering the same name twice leaves exactly one entry with the
later registration winning, and catalog assembly appends a remote tool only
when its name is absent from the local list (locals plus final_answer), so a
colliding remote tool is never duplicated and the local definition wins. -/
theorem C8_catalog_merge :
    (∀ (reg : List (String × ToolImpl)) (t1 t2 : ToolImpl),
      (reg.map Prod.fst).Nodup → t1.name = t2.name →
      ((registryRegister (registryRegister reg t1) t2).map Prod.fst).count t2.name = 1 ∧
      registryGetTool (registryRegister (registryRegister reg t1) t2) t2.name = some t2) ∧
    (∀ (locals remote : List ToolDefinition) (rt : ToolDefinition),
      rt ∈ remote →
      rt.name ∈ ((locals ++ [finalAnswerDefn]).map ToolDefinition.name) →
      ((assembleCatalog locals remote).map ToolDefinition.name).count rt.name =
        (((locals ++ [finalAnswerDefn]).map ToolDefinition.name).count rt.name)) ∧
    (∀ (locals remote : List ToolDefinition) (rt : ToolDefinition),
      rt ∈ remote →
      rt.name ∉ ((locals ++ [finalAnswerDefn]).map ToolDefinition.name) →
      rt ∈ assembleCatalog locals remote) ∧
    (∀ (locals remote : List ToolDefinition) (n : String),
      n ∈ ((locals ++ [finalAnswerDefn]).map ToolDefinition.name) →
      (assembleCatalog locals remote).find? (fun d => d.name = n) =
        (locals ++ [finalAnswerDefn]).find? (fun d => d.name = n)) := by
  refine ⟨?_, ?_, ?_, ?_⟩
  · intro reg t1 t2 hnd heq
    constructor
    · rw [registryRegister_keys, registryRegister_keys]
      by_cases h1 : t1.name ∈ reg.map Prod.fst
      · rw [if_pos h1, if_pos (heq ▸ h1), ← heq]
        exact List.count_eq_one_of_mem hnd h1
      · rw [if_neg h1, if_pos (by rw [← heq]; exact List.mem_append_right _ (by simp))]
        rw [List.count_append, ← heq]
        have : (reg.map Prod.fst).count t1.name = 0 := List.count_eq_zero.mpr h1
        simp [this]
    · exact registryRegister_get _ t2
  · intro locals remote rt hmem hname
    unfold assembleCatalog
    rw [List.map_append, List.count_append]
    have hz : ((remote.filter
        (fun rt2 => !((locals ++ [finalAnswerDefn]).map ToolDefinition.name).contains
          rt2.name)).map ToolDefinition.name).count rt.name = 0 := by
      rw [List.count_eq_zero]
      intro hc
      obtain ⟨d, hd, hdn⟩ := List.mem_map.mp hc
      obtain ⟨-, hfilt⟩ := List.mem_filter.mp hd
      rw [hdn] at hfilt
      rw [Bool.not_eq_true'] at hfilt
      exact absurd (List.elem_iff.mpr hname) (by simp [List.contains] at hfilt ⊢; exact hfilt)
    omega
  · intro locals remote rt hmem hname
    unfold assembleCatalog
    refine List.mem_append_right _ (List.mem_filter.mpr ⟨hmem, ?_⟩)
    rw [Bool.not_eq_true']
    rw [show ((locals ++ [finalAnswerDefn]).map ToolDefinition.name).contains rt.name =
      ((locals ++ [finalAnswerDefn]).map ToolDefinition.name).elem rt.name from rfl]
    exact Bool.not_eq_true _ ▸ fun hc => hname (List.elem_iff.mp hc)
  · intro locals remote n hname
    unfold assembleCatalog
    rw [List.find?_append]
    obtain ⟨d, hd, hdn⟩ := List.mem_map.mp hname
    have : ((locals ++ [finalAnswerDefn]).find? (fun d => d.name = n)).isSome := by
      rw [List.find?_isSome]
      exact ⟨d, hd, by simp [hdn]⟩
    obtain ⟨d0, hd0⟩ := Option.isSome_iff_exists.mp this
    rw [hd0]
    rfl

/-- Claim C6, witness: the coercion table at a concrete tool. -/
theorem C6_parameter_validation_witness :
    validateParameters countTool [("count", .str "3")] = .ok [("count", .int 3)] ∧
    dictFind (safeExecute countTool []) "success" = some (.bool false) ∧
    (∃ msg, dictFind (safeExecute countTool []) "error" = some (.str msg)) ∧
    validateParameterType "tags" (.str "x") ⟨.array, false, .none⟩ =
      .ok (.list [.str "x"]) ∧
    validateParameterType "opts" (.int 5) ⟨.object, false, .none⟩ =
      .error ⟨.valueError, "参数 opts 类型转换失败: " ++ ("参数 opts 必须是对象类型")⟩ ∧
    validateParameters scalarTool [("extra", .str "v")] = .ok [("extra", .str "v")] :=
  ⟨C6_parameter_validation.1 countTool "count" ⟨.integer, true, .none⟩ rfl rfl (by decide),
   (C6_parameter_validation.2.1 countTool [] "count" (by decide) rfl).1,
   (C6_parameter_validation.2.1 countTool [] "count" (by decide) rfl).2,
   C6_parameter_validation.2.2.1 "tags" ⟨.array, false, .none⟩ (.str "x") rfl
     (fun xs h => PyVal.noConfusion h) (fun h => PyVal.noConfusion h),
   C6_parameter_validation.2.2.2.1 "opts" ⟨.object, false, .none⟩ (.int 5) rfl
     (fun kvs h => PyVal.noConfusion h) (fun h => PyVal.noConfusion h),
   C6_parameter_validation.2.2.2.2 scalarTool "extra" (.str "v") rfl (by intro r hr; cases hr)⟩

/-- Claim C7, witness: safe_execute at a raising and a scalar-returning tool. -/
theorem C7_safe_execute_totality_witness :
    safeExecute raisingTool [] =
      [("success", .bool false), ("error", .str "爆炸"), ("tool_name", .str "boom")] ∧
    safeExecute scalarTool [] = [("output", .str "42"), ("success", .bool true)] :=
  ⟨C7_safe_execute_totality.1 raisingTool [] [] ⟨.valueError, "爆炸"⟩ rfl rfl,
   C7_safe_execute_totality.2 scalarTool [] [] (.str "42") rfl rfl
     (fun _ h => PyVal.noConfusion h)⟩

/-- Claim C8, witness: the merge behaviour at a concrete registry and catalog. -/
theorem C8_catalog_merge_witness :
    (((registryRegister (registryRegister [] dupTool1) dupTool2).map
        Prod.fst).count "dup" = 1 ∧
      registryGetTool (registryRegister (registryRegister [] dupTool1) dupTool2)
        "dup" = some dupTool2) ∧
    ((assembleCatalog [localEcho] [remoteEcho, remoteWeb]).map
        ToolDefinition.name).count "echo" =
      ((([localEcho] ++ [finalAnswerDefn]).map ToolDefinition.name).count "echo") ∧
    remoteWeb ∈ assembleCatalog [localEcho] [remoteEcho, remoteWeb] ∧
    (assembleCatalog [localEcho] [remoteEcho, remoteWeb]).find?
        (fun d => d.name = "echo") =
      ([localEcho] ++ [finalAnswerDefn]).find? (fun d => d.name = "echo") :=
  ⟨C8_catalog_merge.1 [] dupTool1 dupTool2 (by simp) rfl,
   C8_catalog_merge.2.1 [localEcho] [remoteEcho, remoteWeb] remoteEcho (by simp)
     (by simp [localEcho, remoteEcho, finalAnswerDefn]),
   C8_catalog_merge.2.2.1 [localEcho] [remoteEcho, remoteWeb] remoteWeb (by simp)
     (by simp [localEcho, remoteWeb, finalAnswerDefn]),
   C8_catalog_merge.2.2.2 [localEcho] [remoteEcho, remoteWeb] "echo"
     (by simp [localEcho, finalAnswerDefn])⟩

theorem splitFirst_of_not_mem {p : Char → Bool} {l : List Char}
    (h : ∀ c ∈ l, ¬ p c) : splitFirst p l = (l, Option.none) := by
  induction l with
  | nil => rfl
  | cons c rest ih =>
    have hc := h c (List.mem_cons_self _ _)
    simp only [splitFirst, if_neg hc, ih (fun d hd => h d (List.mem_cons_of_mem _ hd))]

theorem splitFirst_append_found {p : Char → Bool} {a : List Char} (c : Char)
    (b : List Char) (ha : ∀ d ∈ a, ¬ p d) (hc : p c) :
    splitFirst p (a ++ c :: b) = (a, some b) := by
  induction a with
  | nil => simp [splitFirst, hc]
  | cons x a2 ih =>
    have hx := ha x (List.mem_cons_self _ _)
    have ih2 := ih (fun d hd => ha d (List.mem_cons_of_mem _ hd))
    simp only [List.cons_append, splitFirst, if_neg hx]
    rw [show splitFirst p (a2.append (c :: b)) = (a2, some b) from ih2]

theorem splitFirst_before_not (p : Char → Bool) (l : List Char) :
    ∀ c ∈ (splitFirst p l).1, ¬ p c := by
  induction l with
  | nil => intro c hc; cases hc
  | cons x l2 ih =>
    by_cases hx : p x
    · simp [splitFirst, hx]
    · simp only [splitFirst, if_neg hx]
      intro c hc
      rcases List.mem_cons.mp hc with rfl | hc2
      · exact hx
      · exact ih c hc2

theorem splitFirst_after_sub (p : Char → Bool) (l : List Char) :
    ∀ {after}, (splitFirst p l).2 = some after → ∀ c ∈ after, c ∈ l := by
  induction l with
  | nil => intro after h; cases h
  | cons x l2 ih =>
    intro after h
    by_cases hx : p x
    · simp only [splitFirst, if_pos hx] at h
      injection h with h
      rw [← h]
      exact fun c hc => List.mem_cons_of_mem _ hc
    · simp only [splitFirst, if_neg hx] at h
      exact fun c hc => List.mem_cons_of_mem _ (ih h c hc)

theorem splitFirst_fst_sub (p : Char → Bool) (l : List Char) :
    ∀ c ∈ (splitFirst p l).1, c ∈ l := by
  induction l with
  | nil => intro c hc; cases hc
  | cons x l2 ih =>
    by_cases hx : p x
    · simp [splitFirst, hx]
    · simp only [splitFirst, if_neg hx]
      intro c hc
      rcases List.mem_cons.mp hc with rfl | hc2
      · exact List.mem_cons_self _ _
      · exact List.mem_cons_of_mem _ (ih c hc2)

theorem char_le_iff (a c : Char) : (a ≤ c) ↔ a.toNat ≤ c.toNat := by
  rw [Char.le_def, UInt32.le_def]
  rfl

theorem char_toNat_inj {a b : Char} (h : a.toNat = b.toNat) : a = b :=
  Char.eq_of_val_eq (UInt32.ext h)

theorem charOfNat_toNat (n : Nat) (h : n < 0xd800) : (Char.ofNat n).toNat = n := by
  have hv : n.isValidChar := Or.inl h
  unfold Char.ofNat
  split
  · simp only [Char.toNat, Char.ofNatAux, UInt32.toNat, UInt32.ofNatCore, BitVec.toNat_ofNatLt]
  · next h2 => exact absurd hv h2

theorem char_eq_lit_iff (c x : Char) : (c = x) ↔ c.toNat = x.toNat :=
  ⟨fun h => h ▸ rfl, char_toNat_inj⟩

theorem isAsciiAlphaCh_iff (c : Char) : isAsciiAlphaCh c = true ↔
    (97 ≤ c.toNat ∧ c.toNat ≤ 122) ∨ (65 ≤ c.toNat ∧ c.toNat ≤ 90) := by
  simp only [isAsciiAlphaCh, Bool.or_eq_true, Bool.and_eq_true, decide_eq_true_eq,
    char_le_iff]
  exact Iff.rfl

theorem isDigitCh_iff (c : Char) : isDigitCh c = true ↔
    48 ≤ c.toNat ∧ c.toNat ≤ 57 := by
  simp only [isDigitCh, Bool.and_eq_true, decide_eq_true_eq, char_le_iff]
  exact Iff.rfl

theorem isSchemeChar_iff (c : Char) : isSchemeChar c = true ↔
    (97 ≤ c.toNat ∧ c.toNat ≤ 122) ∨ (65 ≤ c.toNat ∧ c.toNat ≤ 90) ∨
    (48 ≤ c.toNat ∧ c.toNat ≤ 57) ∨ c.toNat = 43 ∨ c.toNat = 45 ∨ c.toNat = 46 := by
  simp only [isSchemeChar, Bool.or_eq_true, isAsciiAlphaCh_iff, isDigitCh_iff,
    decide_eq_true_eq, char_eq_lit_iff]
  rw [show Char.toNat (Char.ofNat 43) = 43 from rfl, show Char.toNat (Char.ofNat 45) = 45 from rfl,
    show Char.toNat (Char.ofNat 46) = 46 from rfl]
  tauto

theorem asciiLower_toNat (c : Char) :
    (asciiLower c).toNat =
      if 65 ≤ c.toNat ∧ c.toNat ≤ 90 then c.toNat + 32 else c.toNat := by
  unfold asciiLower
  by_cases h : 65 ≤ c.toNat ∧ c.toNat ≤ 90
  · rw [if_pos (by simp only [Bool.and_eq_true, decide_eq_true_eq]; exact h), if_pos h]
    exact charOfNat_toNat _ (by omega)
  · rw [if_neg _, if_neg h]
    simp only [Bool.and_eq_true, decide_eq_true_eq]
    exact h

theorem asciiLower_idem (c : Char) : asciiLower (asciiLower c) = asciiLower c := by
  apply char_toNat_inj
  rw [asciiLower_toNat, asciiLower_toNat]
  by_cases h : 65 ≤ c.toNat ∧ c.toNat ≤ 90
  · rw [if_pos h, if_neg (by omega)]
  · rw [if_neg h, if_neg h]

theorem map_asciiLower_idem (l : List Char) :
    (l.map asciiLower).map asciiLower = l.map asciiLower := by
  rw [List.map_map]
  exact List.map_congr_left (fun a _ => asciiLower_idem a)

theorem isAsciiAlphaCh_asciiLower {c : Char} (h : isAsciiAlphaCh c = true) :
    isAsciiAlphaCh (asciiLower c) = true := by
  rw [isAsciiAlphaCh_iff] at h ⊢
  rw [asciiLower_toNat]
  rcases h with h | h
  · rw [if_neg (by omega)]
    exact Or.inl h
  · rw [if_pos (by omega)]
    exact Or.inl (by omega)

theorem isSchemeChar_asciiLower {c : Char} (h : isSchemeChar c = true) :
    isSchemeChar (asciiLower c) = true := by
  rw [isSchemeChar_iff] at h ⊢
  rw [asciiLower_toNat]
  by_cases hc : 65 ≤ c.toNat ∧ c.toNat ≤ 90
  · rw [if_pos hc]
    omega
  · rw [if_neg hc]
    exact h

theorem schemeChar_ne {c : Char} (h : isSchemeChar c = true) :
    (c = ':' : Bool) = false ∧ (c = '/' : Bool) = false ∧
    (c = '?' : Bool) = false ∧ (c = '#' : Bool) = false ∧
    isTabCrLf c = false ∧ isC0OrSpace c = false := by
  rw [isSchemeChar_iff] at h
  refine ⟨?_, ?_, ?_, ?_, ?_, ?_⟩
  · rw [decide_eq_false_iff_not, char_eq_lit_iff, show Char.toNat (Char.ofNat 58) = 58 from rfl]
    omega
  · rw [decide_eq_false_iff_not, char_eq_lit_iff, show Char.toNat (Char.ofNat 47) = 47 from rfl]
    omega
  · rw [decide_eq_false_iff_not, char_eq_lit_iff, show Char.toNat (Char.ofNat 63) = 63 from rfl]
    omega
  · rw [decide_eq_false_iff_not, char_eq_lit_iff, show Char.toNat (Char.ofNat 35) = 35 from rfl]
    omega
  · simp only [isTabCrLf, Bool.or_eq_false_iff, decide_eq_false_iff_not, char_eq_lit_iff]
    rw [show Char.toNat (Char.ofNat 9) = 9 from rfl, show Char.toNat (Char.ofNat 13) = 13 from rfl,
      show Char.toNat (Char.ofNat 10) = 10 from rfl]
    omega
  · simp only [isC0OrSpace, decide_eq_false_iff_not]
    omega

theorem splitFirst_none_not (p : Char → Bool) (l : List Char)
    (h : (splitFirst p l).2 = Option.none) : ∀ c ∈ l, p c = false := by
  induction l with
  | nil => intro c hc; cases hc
  | cons x l2 ih =>
    by_cases hx : p x = true
    · simp [splitFirst, hx] at h
    · simp only [splitFirst, if_neg hx] at h
      intro c hc
      rcases List.mem_cons.mp hc with rfl | hc2
      · exact Bool.eq_false_iff.mpr hx
      · exact ih h c hc2

theorem splitFirst_recompose (x : Char) (l : List Char) : ∀ b a,
    splitFirst (fun c => (c = x : Bool)) l = (b, some a) → l = b ++ x :: a := by
  induction l with
  | nil => intro b a h; simp [splitFirst] at h
  | cons y l2 ih =>
    intro b a h
    simp only [splitFirst] at h
    by_cases hy : (y = x : Bool) = true
    · rw [if_pos hy] at h
      injection h with h1 h2
      injection h2 with h2
      subst h1; subst h2
      rw [show y = x from of_decide_eq_true hy]
      rfl
    · rw [if_neg hy] at h
      rcases hsp : splitFirst (fun c => (c = x : Bool)) l2 with ⟨b1, ob⟩
      rw [hsp] at h
      injection h with h1 h2
      subst h2
      rw [← h1, ih b1 a hsp]
      rfl

theorem splitFirst_fst_prefix (p : Char → Bool) (l : List Char) :
    ∃ t, l = (splitFirst p l).1 ++ t := by
  induction l with
  | nil => exact ⟨[], rfl⟩
  | cons y l2 ih =>
    by_cases hy : p y = true
    · exact ⟨y :: l2, by simp [splitFirst, hy]⟩
    · obtain ⟨t, ht⟩ := ih
      refine ⟨t, ?_⟩
      simp only [splitFirst, if_neg hy, List.cons_append]
      exact congrArg (y :: ·) ht

theorem dropWhile_head (q : Char → Bool) (l : List Char) : ∀ h t,
    l.dropWhile q = h :: t → q h = false := by
  induction l with
  | nil => intro h t he; cases he
  | cons y l2 ih =>
    intro h t he
    rw [List.dropWhile_cons] at he
    by_cases hy : q y = true
    · rw [if_pos hy] at he
      exact ih h t he
    · rw [if_neg hy] at he
      injection he with h1 _
      rw [← h1]
      exact Bool.eq_false_iff.mpr hy

theorem takeWhile_append_stop (q : Char → Bool) (a : List Char) (c : Char) (b : List Char)
    (ha : ∀ x ∈ a, q x = true) (hc : q c = false) :
    (a ++ c :: b).takeWhile q = a ∧ (a ++ c :: b).dropWhile q = c :: b := by
  induction a with
  | nil =>
    constructor
    · rw [List.nil_append, List.takeWhile_cons, hc]
      rfl
    · rw [List.nil_append, List.dropWhile_cons, hc]
      rfl
  | cons x a2 ih =>
    have hx := ha x (List.mem_cons_self _ _)
    obtain ⟨ih1, ih2⟩ := ih (fun d hd => ha d (List.mem_cons_of_mem _ hd))
    constructor
    · rw [List.cons_append, List.takeWhile_cons, hx]
      simpa using ih1
    · rw [List.cons_append, List.dropWhile_cons, hx]
      simpa using ih2

theorem dropWhile_reach_slash (q : Char → Bool) (hq : q '/' = false) (Z M : List Char) :
    ∃ Z2, (Z ++ '/' :: M).dropWhile q = Z2 ++ '/' :: M ∧ ∀ c ∈ Z2, c ∈ Z := by
  induction Z with
  | nil =>
    refine ⟨[], ?_, by simp⟩
    rw [List.nil_append, List.dropWhile_cons, hq]
    rfl
  | cons z Z1 ih =>
    by_cases hz : q z = true
    · obtain ⟨Z2, h1, h2⟩ := ih
      refine ⟨Z2, ?_, fun c hc => List.mem_cons_of_mem _ (h2 c hc)⟩
      rw [List.cons_append, List.dropWhile_cons, hz]
      simpa using h1
    · refine ⟨z :: Z1, ?_, fun c hc => hc⟩
      rw [List.cons_append, List.dropWhile_cons, if_neg hz]

theorem splitLastSlash_append (A B : List Char)
    (hB : ∀ c ∈ B, (c = '/' : Bool) = false) :
    splitLastSlash (A ++ '/' :: B) = some (A, B) := by
  unfold splitLastSlash
  rw [show (A ++ '/' :: B).reverse = B.reverse ++ '/' :: A.reverse from by
    simp [List.reverse_append]]
  rw [splitFirst_append_found '/' A.reverse
    (fun d hd => by rw [hB d (List.mem_reverse.mp hd)]; exact Bool.false_ne_true)
    (by decide)]
  simp

theorem splitLastSlash_some (url pre seg : List Char)
    (h : splitLastSlash url = some (pre, seg)) :
    url = pre ++ '/' :: seg ∧ ∀ c ∈ seg, (c = '/' : Bool) = false := by
  unfold splitLastSlash at h
  rcases hsp : splitFirst (fun c => (c = '/' : Bool)) url.reverse with ⟨b1, ob⟩
  rw [hsp] at h
  cases ob with
  | none => cases h
  | some revPre =>
    simp only at h
    injection h with h
    injection h with h1 h2
    constructor
    · have hrec := splitFirst_recompose '/' url.reverse b1 revPre hsp
      have := congrArg List.reverse hrec
      simp only [List.reverse_reverse, List.reverse_append, List.reverse_cons] at this
      rw [this, ← h1, ← h2]
      simp
    · intro c hc
      rw [← h2] at hc
      have := splitFirst_before_not (fun c => (c = '/' : Bool)) url.reverse c
        (by rw [hsp]; exact List.mem_reverse.mp hc)
      exact Bool.eq_false_iff.mpr this

theorem splitLastSlash_none (url : List Char) (h : splitLastSlash url = Option.none) :
    ∀ c ∈ url, (c = '/' : Bool) = false := by
  unfold splitLastSlash at h
  rcases hsp : splitFirst (fun c => (c = '/' : Bool)) url.reverse with ⟨b1, ob⟩
  rw [hsp] at h
  cases ob with
  | some revPre => cases h
  | none =>
    intro c hc
    exact splitFirst_none_not _ _ (by rw [hsp]) c (List.mem_reverse.mpr hc)

theorem splitOnSlash_ne_nil (l : List Char) : splitOnSlash l ≠ [] := by
  cases l with
  | nil => simp [splitOnSlash]
  | cons c rest =>
    by_cases hc : c = '/'
    · simp [splitOnSlash, hc]
    · simp only [splitOnSlash, if_neg hc]
      rcases hm : splitOnSlash rest with _ | ⟨s, ss⟩ <;> simp

theorem splitOnSlash_append (Z M : List Char) :
    splitOnSlash (Z ++ '/' :: M) = splitOnSlash Z ++ splitOnSlash M := by
  induction Z with
  | nil => simp [splitOnSlash]
  | cons z Z1 ih =>
    by_cases hz : z = '/'
    · rw [List.cons_append]
      simp only [splitOnSlash, if_pos hz, ih]
      rfl
    · rw [List.cons_append]
      simp only [splitOnSlash, if_neg hz]
      rw [ih]
      rcases hm : splitOnSlash Z1 with _ | ⟨s, ss⟩
      · exact absurd hm (splitOnSlash_ne_nil Z1)
      · simp

theorem hasMcp_append_end (Z : List Char) :
    hasMcpSegment (Z ++ '/' :: ['m', 'c', 'p']) = true := by
  unfold hasMcpSegment
  rw [splitOnSlash_append, List.filter_append, List.any_append]
  rw [show ((splitOnSlash ['m', 'c', 'p']).filter (fun s => !s.isEmpty)).any
      (fun seg => seg.map asciiLower == ['m', 'c', 'p']) = true from by decide]
  rw [Bool.or_true]

theorem rstripSlash_prefix (P : List Char) :
    ∃ T, P = rstripSlash P ++ T ∧ ∀ c ∈ T, (c = '/' : Bool) = true := by
  refine ⟨(P.reverse.takeWhile (fun c => (c = '/' : Bool))).reverse, ?_, ?_⟩
  · unfold rstripSlash
    have h0 : P.reverse.takeWhile (fun c => (c = '/' : Bool)) ++
        P.reverse.dropWhile (fun c => (c = '/' : Bool)) = P.reverse := by
      rw [List.takeWhile_append_dropWhile]
    have h := congrArg List.reverse h0
    simp only [List.reverse_append, List.reverse_reverse] at h
    exact h.symm
  · intro c hc
    have hc2 : c ∈ P.reverse.takeWhile (fun c => (c = '/' : Bool)) :=
      List.mem_reverse.mp hc
    simpa using List.mem_takeWhile_imp hc2

theorem rstripSlash_last (P : List Char)
    (hl : (rstripSlash P).getLast? = some '/') : False := by
  unfold rstripSlash at hl
  rw [List.getLast?_reverse] at hl
  rcases hd : P.reverse.dropWhile (fun c => (c = '/' : Bool)) with _ | ⟨h, t⟩
  · rw [hd] at hl
    cases hl
  · rw [hd] at hl
    injection hl with hl
    have := dropWhile_head _ _ _ _ hd
    rw [hl] at this
    simp at this

theorem isTabCrLf_c0 {c : Char} (h : isTabCrLf c = true) : isC0OrSpace c = true := by
  simp only [isTabCrLf, Bool.or_eq_true, decide_eq_true_eq] at h
  simp only [isC0OrSpace, decide_eq_true_eq]
  rcases h with (h | h) | h <;> rw [h] <;> decide

theorem removeTabCrLf_eq_self (l : List Char) (h : ∀ c ∈ l, isTabCrLf c = false) :
    removeTabCrLf l = l :=
  List.filter_eq_self.mpr (fun a ha => by rw [h a ha]; rfl)

theorem dropWhile_eq_self (q : Char → Bool) (l : List Char)
    (h : ∀ a t, l = a :: t → q a = false) : l.dropWhile q = l := by
  cases l with
  | nil => rfl
  | cons a t =>
    rw [List.dropWhile_cons, h a t rfl]
    simp

theorem isEmpty_false_of_ne {l : List Char} (h : l ≠ []) : l.isEmpty = false := by
  cases l with
  | nil => exact absurd rfl h
  | cons a t => rfl

theorem url1_head (l : List Char) : ∀ a t,
    removeTabCrLf (l.dropWhile isC0OrSpace) = a :: t → isC0OrSpace a = false := by
  intro a t h
  rcases hd : l.dropWhile isC0OrSpace with _ | ⟨h0, t0⟩
  · rw [hd] at h
    cases h
  · have hc0 : isC0OrSpace h0 = false := dropWhile_head _ _ _ _ hd
    have htab : isTabCrLf h0 = false := by
      rcases ht : isTabCrLf h0 with _ | _
      · rfl
      · rw [isTabCrLf_c0 ht] at hc0
        cases hc0
    rw [hd] at h
    unfold removeTabCrLf at h
    rw [List.filter_cons, show (!isTabCrLf h0) = true from by rw [htab]; rfl] at h
    simp only at h
    injection h with h1 _
    rw [← h1]
    exact hc0

theorem url1_no_tabs (l : List Char) :
    ∀ c ∈ removeTabCrLf (l.dropWhile isC0OrSpace), isTabCrLf c = false := by
  intro c hc
  have := List.of_mem_filter hc
  rcases ht : isTabCrLf c with _ | _
  · rfl
  · rw [ht] at this
    cases this

theorem splitFirst_fst_head (p : Char → Bool) (l : List Char) (a : Char) (t : List Char)
    (h : (splitFirst p l).1 = a :: t) : ∃ t2, l = a :: t2 := by
  cases l with
  | nil => cases h
  | cons y l2 =>
    by_cases hy : p y = true
    · rw [show (splitFirst p (y :: l2)).1 = [] from by simp [splitFirst, hy]] at h
      cases h
    · have he : (splitFirst p (y :: l2)).1 = y :: (splitFirst p l2).1 := by
        simp [splitFirst, hy]
      rw [he] at h
      injection h with h1 _
      exact ⟨l2, by rw [h1]⟩

theorem extractScheme_cases (url : List Char) :
    (extractScheme url = ([], url) ∧
      ((splitFirst (fun c => (c = ':' : Bool)) url).2 = Option.none ∨
        ¬((splitFirst (fun c => (c = ':' : Bool)) url).1 ≠ [] ∧
          isAsciiAlphaCh ((splitFirst (fun c => (c = ':' : Bool)) url).1.headD ' ') = true ∧
          (splitFirst (fun c => (c = ':' : Bool)) url).1.all isSchemeChar = true))) ∨
    (∃ before after, url = before ++ ':' :: after ∧
      extractScheme url = (before.map asciiLower, after) ∧ before ≠ [] ∧
      isAsciiAlphaCh (before.headD ' ') = true ∧ before.all isSchemeChar = true ∧
      (∀ c ∈ before, (c = ':' : Bool) = false)) := by
  unfold extractScheme
  rcases hsp : splitFirst (fun c => (c = ':' : Bool)) url with ⟨before, ob⟩
  cases ob with
  | none => exact Or.inl ⟨rfl, Or.inl rfl⟩
  | some after =>
    dsimp only
    by_cases hc : (!before.isEmpty && isAsciiAlphaCh (before.headD ' ')
        && before.all isSchemeChar) = true
    · right
      refine ⟨before, after, splitFirst_recompose ':' url before after hsp, ?_, ?_, ?_, ?_, ?_⟩
      · rw [if_pos hc]
      · intro hnil
        rw [hnil] at hc
        simp at hc
      · simp only [Bool.and_eq_true] at hc
        exact hc.1.2
      · simp only [Bool.and_eq_true] at hc
        exact hc.2
      · intro c hcm
        have := splitFirst_before_not (fun c => (c = ':' : Bool)) url c (by rw [hsp]; exact hcm)
        exact Bool.eq_false_iff.mpr this
    · left
      refine ⟨by rw [if_neg hc], Or.inr ?_⟩
      rintro ⟨h1, h2, h3⟩
      exact hc (by
        rw [show (!before.isEmpty) = true from by rw [isEmpty_false_of_ne h1]; rfl, h2, h3]
        rfl)

theorem extractScheme_of_wf (S rest : List Char) (hS : S ≠ [])
    (hall : S.all isSchemeChar = true) (halpha : isAsciiAlphaCh (S.headD ' ') = true)
    (hlow : S.map asciiLower = S) :
    extractScheme (S ++ ':' :: rest) = (S, rest) := by
  unfold extractScheme
  have hclean : ∀ d ∈ S, ¬ ((fun c => (c = ':' : Bool)) d = true) := by
    intro d hd hdt
    dsimp only at hdt
    rw [(schemeChar_ne (List.all_eq_true.mp hall d hd)).1] at hdt
    cases hdt
  rw [splitFirst_append_found ':' rest hclean (by decide)]
  dsimp only
  rw [if_pos (by rw [show (!S.isEmpty) = true from by rw [isEmpty_false_of_ne hS]; rfl,
    halpha, hall]; rfl)]
  rw [hlow]

theorem extractNetloc_no_slash2 (url : List Char) (h : url.take 2 ≠ ['/', '/']) :
    extractNetloc url = .ok ([], url) := by
  unfold extractNetloc
  rw [if_neg h]

theorem extractNetloc_clean (N U : List Char)
    (hN : ∀ c ∈ N, isNetlocEnd c = false)
    (hbr : netlocBrackets N = .ok ()) :
    extractNetloc ('/' :: '/' :: (N ++ '/' :: U)) = .ok (N, '/' :: U) := by
  unfold extractNetloc
  rw [if_pos (show List.take 2 ('/' :: '/' :: (N ++ '/' :: U)) = ['/', '/'] from rfl)]
  obtain ⟨ht, hd⟩ := takeWhile_append_stop (fun c => !isNetlocEnd c) N '/' U
    (fun x hx => by dsimp only; rw [hN x hx]; rfl) (by decide)
  dsimp only
  rw [show List.drop 2 ('/' :: '/' :: (N ++ '/' :: U)) = N ++ '/' :: U from rfl]
  rw [ht, hd, hbr]

theorem extractNetloc_slash2_any (rest : List Char) :
    (∃ e, extractNetloc ('/' :: '/' :: rest) = .error e) ∨
    extractNetloc ('/' :: '/' :: rest) =
      .ok (rest.takeWhile (fun c => !isNetlocEnd c),
           rest.dropWhile (fun c => !isNetlocEnd c)) := by
  unfold extractNetloc
  rw [if_pos (show List.take 2 ('/' :: '/' :: rest) = ['/', '/'] from rfl)]
  dsimp only
  rw [show List.drop 2 ('/' :: '/' :: rest) = rest from rfl]
  cases hb : netlocBrackets (rest.takeWhile (fun c => !isNetlocEnd c)) with
  | error e => exact Or.inl ⟨e, rfl⟩
  | ok u => exact Or.inr rfl

theorem splitparams_fst_sub (u : List Char) : ∀ c ∈ (splitparams u).1, c ∈ u := by
  unfold splitparams
  rcases hls : splitLastSlash u with _ | ⟨pre, seg⟩
  · dsimp only
    rcases hsp : splitFirst (fun c => (c = ';' : Bool)) u with ⟨b, ob⟩
    cases ob with
    | none => intro c hc; exact hc
    | some a =>
      dsimp only
      intro c hc
      exact splitFirst_fst_sub _ u c (by rw [hsp]; exact hc)
  · dsimp only
    obtain ⟨hu, hseg⟩ := splitLastSlash_some u pre seg hls
    rcases hsp : splitFirst (fun c => (c = ';' : Bool)) seg with ⟨b, ob⟩
    cases ob with
    | none => intro c hc; exact hc
    | some a =>
      dsimp only
      intro c hc
      rw [hu]
      rcases List.mem_append.mp hc with hc2 | hc2
      · exact List.mem_append.mpr (Or.inl hc2)
      · rcases List.mem_cons.mp hc2 with rfl | hc3
        · exact List.mem_append.mpr (Or.inr (List.mem_cons_self _ _))
        · refine List.mem_append.mpr (Or.inr (List.mem_cons_of_mem _ ?_))
          exact splitFirst_fst_sub _ seg c (by rw [hsp]; exact hc3)

theorem splitparams_snd_sub (u : List Char) :
    ∀ c ∈ (splitparams u).2, c ∈ u ∧ (c = '/' : Bool) = false := by
  unfold splitparams
  rcases hls : splitLastSlash u with _ | ⟨pre, seg⟩
  · dsimp only
    have hno := splitLastSlash_none u hls
    rcases hsp : splitFirst (fun c => (c = ';' : Bool)) u with ⟨b, ob⟩
    cases ob with
    | none => intro c hc; cases hc
    | some a =>
      dsimp only
      intro c hc
      have hm : c ∈ u := splitFirst_after_sub _ u (by rw [hsp]) c hc
      exact ⟨hm, hno c hm⟩
  · dsimp only
    obtain ⟨hu, hseg⟩ := splitLastSlash_some u pre seg hls
    rcases hsp : splitFirst (fun c => (c = ';' : Bool)) seg with ⟨b, ob⟩
    cases ob with
    | none => intro c hc; cases hc
    | some a =>
      dsimp only
      intro c hc
      have hm : c ∈ seg := splitFirst_after_sub _ seg (by rw [hsp]) c hc
      refine ⟨?_, hseg c hm⟩
      rw [hu]
      exact List.mem_append.mpr (Or.inr (List.mem_cons_of_mem _ hm))

theorem splitparams_fst_prefix (u : List Char) : ∃ t, u = (splitparams u).1 ++ t := by
  unfold splitparams
  rcases hls : splitLastSlash u with _ | ⟨pre, seg⟩
  · dsimp only
    rcases hsp : splitFirst (fun c => (c = ';' : Bool)) u with ⟨b, ob⟩
    cases ob with
    | none => exact ⟨[], by simp⟩
    | some a =>
      dsimp only
      exact ⟨';' :: a, splitFirst_recompose ';' u b a hsp⟩
  · dsimp only
    obtain ⟨hu, hseg⟩ := splitLastSlash_some u pre seg hls
    rcases hsp : splitFirst (fun c => (c = ';' : Bool)) seg with ⟨b, ob⟩
    cases ob with
    | none => exact ⟨[], by simp⟩
    | some a =>
      dsimp only
      refine ⟨';' :: a, ?_⟩
      rw [hu, splitFirst_recompose ';' seg b a hsp]
      simp

theorem splitparams_fst_head (u : List Char) : ∀ a t, (splitparams u).1 = a :: t →
    a = '/' ∨ ∃ t2, u = a :: t2 := by
  intro a t h
  obtain ⟨tp, htp⟩ := splitparams_fst_prefix u
  rw [h] at htp
  cases u with
  | nil => cases htp
  | cons y u2 =>
    rw [List.cons_append] at htp
    injection htp with h1 _
    exact Or.inr ⟨u2, by rw [h1]⟩

theorem netlocEnd_not_c0 {a : Char} (h : isNetlocEnd a = true) : isC0OrSpace a = false := by
  simp only [isNetlocEnd, Bool.or_eq_true, decide_eq_true_eq] at h
  simp only [isC0OrSpace, decide_eq_false_iff_not]
  rcases h with (h | h) | h <;> rw [h] <;> decide

theorem netlocEnd_slash {a : Char} (h : isNetlocEnd a = true)
    (hq : (a = '?' : Bool) = false) (hh : (a = '#' : Bool) = false) : a = '/' := by
  simp only [isNetlocEnd, Bool.or_eq_true, decide_eq_true_eq] at h
  rcases h with (h | h) | h
  · exact h
  · rw [h] at hq
    simp at hq
  · rw [h] at hh
    simp at hh

theorem map_ne_nil {f : Char → Char} {l : List Char} (h : l ≠ []) : l.map f ≠ [] := by
  cases l with
  | nil => exact absurd rfl h
  | cons a t => simp

theorem extractNetloc_ok_facts (u N u3 : List Char) (h : extractNetloc u = .ok (N, u3)) :
    (∀ c ∈ N, isNetlocEnd c = false) ∧
    netlocBrackets N = .ok () ∧
    (∀ c ∈ N, c ∈ u) ∧
    (∀ c ∈ u3, c ∈ u) ∧
    ((N = [] ∧ u3 = u) ∨ (∀ a t, u3 = a :: t → isNetlocEnd a = true)) := by
  unfold extractNetloc at h
  by_cases ht : u.take 2 = ['/', '/']
  · rw [if_pos ht] at h
    dsimp only at h
    cases hb : netlocBrackets ((u.drop 2).takeWhile (fun c => !isNetlocEnd c)) with
    | error e =>
      rw [hb] at h
      cases h
    | ok v =>
      rw [hb] at h
      injection h with h
      injection h with h1 h2
      refine ⟨?_, ?_, ?_, ?_, Or.inr ?_⟩
      · intro c hc
        rw [← h1] at hc
        have := List.mem_takeWhile_imp hc
        simp only [Bool.not_eq_true'] at this
        exact this
      · rw [← h1]
        exact hb
      · intro c hc
        rw [← h1] at hc
        exact List.drop_subset 2 u ((List.takeWhile_sublist _).subset hc)
      · intro c hc
        rw [← h2] at hc
        exact List.drop_subset 2 u ((List.dropWhile_sublist _).subset hc)
      · intro a t he
        rw [← h2] at he
        have := dropWhile_head _ _ _ _ he
        simp only [Bool.not_eq_false'] at this
        exact this
  · rw [if_neg ht] at h
    injection h with h
    injection h with h1 h2
    refine ⟨?_, ?_, ?_, ?_, Or.inl ⟨h1.symm, h2.symm⟩⟩
    · intro c hc
      rw [← h1] at hc
      cases hc
    · rw [← h1]
      rfl
    · intro c hc
      rw [← h1] at hc
      cases hc
    · intro c hc
      rw [← h2] at hc
      exact hc

theorem urlsplit_wf (l : List Char) (P : UrlParts) (hs : urlsplitCore l = .ok P) :
    UrlWF P ∧ P.params = [] := by
  unfold urlsplitCore at hs
  dsimp only at hs
  have hXtab : ∀ c ∈ removeTabCrLf (l.dropWhile isC0OrSpace), isTabCrLf c = false :=
    url1_no_tabs l
  have hXhead : ∀ a t, removeTabCrLf (l.dropWhile isC0OrSpace) = a :: t →
      isC0OrSpace a = false := url1_head l
  rcases extractScheme_cases (removeTabCrLf (l.dropWhile isC0OrSpace)) with
    ⟨heq, hcol⟩ | ⟨before, after, hXeq, heq, hne, halpha, hall, hclean⟩
  all_goals rw [heq] at hs
  all_goals dsimp only at hs
  -- case 1: no scheme, url2 = X; case 2: scheme consumed, url2 = after
  case inl =>
    cases hen : extractNetloc (removeTabCrLf (l.dropWhile isC0OrSpace)) with
    | error e =>
      rw [hen] at hs
      cases hs
    | ok nl =>
      obtain ⟨N, u3⟩ := nl
      rw [hen] at hs
      dsimp only at hs
      obtain ⟨hNend, hNbr, hNsub, hu3sub, hnd⟩ := extractNetloc_ok_facts _ _ _ hen
      rcases hf : splitFirst (fun c => (c = '#' : Bool)) u3 with ⟨u4, obF⟩
      rw [hf] at hs
      rcases hq2 : splitFirst (fun c => (c = '?' : Bool)) u4 with ⟨path0, obQ⟩
      rw [hq2] at hs
      dsimp only at hs
      injection hs with hP
      subst hP
      have hu4sub : ∀ c ∈ u4, c ∈ u3 := fun c hc =>
        splitFirst_fst_sub _ u3 c (by rw [hf]; exact hc)
      have hp0sub : ∀ c ∈ path0, c ∈ u4 := fun c hc =>
        splitFirst_fst_sub _ u4 c (by rw [hq2]; exact hc)
      have hu4hash : ∀ c ∈ u4, (c = '#' : Bool) = false := fun c hc =>
        Bool.eq_false_iff.mpr (splitFirst_before_not _ u3 c (by rw [hf]; exact hc))
      have hp0qm : ∀ c ∈ path0, (c = '?' : Bool) = false := fun c hc =>
        Bool.eq_false_iff.mpr (splitFirst_before_not _ u4 c (by rw [hq2]; exact hc))
      have hp0X : ∀ c ∈ path0, c ∈ removeTabCrLf (l.dropWhile isC0OrSpace) := fun c hc =>
        hu3sub c (hu4sub c (hp0sub c hc))
      refine ⟨⟨?_, ?_, ?_, ?_, ?_, ?_, ?_, ?_, ?_, ?_, ?_, ?_, ?_, ?_, ?_, ?_, ?_⟩, rfl⟩
      all_goals dsimp only
      · exact Or.inl rfl
      · exact hNend
      · exact hNbr
      · exact fun c hc => hu4hash c (hp0sub c hc)
      · exact hp0qm
      · intro c hc
        cases hc
      · intro c hc
        cases hc
      · intro c hc
        cases hc
      · cases obQ with
        | none => intro c hc; cases hc
        | some Q =>
          intro c hc
          exact hu4hash c (splitFirst_after_sub _ u4 (by rw [hq2]; try rfl) c hc)
      · exact fun c hc => hXtab c (hNsub c hc)
      · exact fun c hc => hXtab c (hp0X c hc)
      · intro c hc
        cases hc
      · cases obQ with
        | none => intro c hc; cases hc
        | some Q =>
          intro c hc
          exact hXtab c (hu3sub c (hu4sub c (splitFirst_after_sub _ u4 (by rw [hq2]; try rfl) c hc)))
      · cases obF with
        | none => intro c hc; cases hc
        | some F =>
          intro c hc
          exact hXtab c (hu3sub c (splitFirst_after_sub _ u3 (by rw [hf]; try rfl) c hc))
      · intro _ a t hpt
        obtain ⟨t3, ht3⟩ := splitFirst_fst_head _ u4 a t (by rw [hq2]; exact hpt)
        obtain ⟨t4, ht4⟩ := splitFirst_fst_head _ u3 a t3 (by rw [hf, ht3])
        rcases hnd with ⟨hN0, hu30⟩ | hend
        · exact hXhead a t4 (by rw [← hu30, ht4])
        · exact netlocEnd_not_c0 (hend a t4 ht4)
      · intro _ b0 r0 hsplit
        have hb0clean : ∀ c ∈ b0, (c = ':' : Bool) = false := fun c hc =>
          Bool.eq_false_iff.mpr (splitFirst_before_not _ path0 c (by rw [hsplit]; exact hc))
        have hrec : path0 = b0 ++ ':' :: r0 := splitFirst_recompose ':' path0 b0 r0 hsplit
        by_cases h1 : b0 = []
        · exact Or.inl h1
        rcases hB : isAsciiAlphaCh (b0.headD ' ') with _ | _
        · exact Or.inr (Or.inl rfl)
        rcases hC : b0.all isSchemeChar with _ | _
        · exact Or.inr (Or.inr rfl)
        exfalso
        rcases hnd with ⟨hN0, hu30⟩ | hend
        · -- path0 is a prefix of X; transfer the failed scheme check
          obtain ⟨t1, ht1⟩ := splitFirst_fst_prefix (fun c => (c = '?' : Bool)) u4
          rw [hq2] at ht1
          obtain ⟨t2, ht2⟩ := splitFirst_fst_prefix (fun c => (c = '#' : Bool)) u3
          rw [hf] at ht2
          have hX : removeTabCrLf (l.dropWhile isC0OrSpace) =
              b0 ++ ':' :: (r0 ++ t1 ++ t2) := by
            rw [← hu30, ht2, ht1, hrec]
            simp
          have hfound : splitFirst (fun c => (c = ':' : Bool))
              (removeTabCrLf (l.dropWhile isC0OrSpace)) = (b0, some (r0 ++ t1 ++ t2)) := by
            rw [hX]
            exact splitFirst_append_found ':' _
              (fun d hd hdt => by rw [hb0clean d hd] at hdt; cases hdt) (by decide)
          rcases hcol with hnone | hfail
          · rw [hfound] at hnone
            cases hnone
          · rw [hfound] at hfail
            exact hfail ⟨h1, hB, hC⟩
        · -- the // branch was taken: the path starts with a netloc delimiter
          obtain ⟨b1, hb1⟩ : ∃ b1, b0 = (b0.headD ' ') :: b1 := by
            cases b0 with
            | nil => exact absurd rfl h1
            | cons x xs => exact ⟨xs, rfl⟩
          have hhd : path0 = (b0.headD ' ') :: (b1 ++ ':' :: r0) := by
            rw [hrec, hb1]
            rfl
          obtain ⟨t3, ht3⟩ := splitFirst_fst_head _ u4 _ _ (by rw [hq2]; exact hhd)
          obtain ⟨t4, ht4⟩ := splitFirst_fst_head _ u3 _ _ (by rw [hf, ht3])
          have hE := hend _ _ ht4
          have hmem : (b0.headD ' ') ∈ path0 := by
            rw [hhd]
            exact List.mem_cons_self _ _
          have := netlocEnd_slash hE (hp0qm _ hmem) (hu4hash _ (hp0sub _ hmem))
          rw [this] at hB
          rw [show isAsciiAlphaCh '/' = false from by decide] at hB
          cases hB
      · intro hne
        exact absurd rfl hne
  case inr =>
    cases hen : extractNetloc after with
    | error e =>
      rw [hen] at hs
      cases hs
    | ok nl =>
      obtain ⟨N, u3⟩ := nl
      rw [hen] at hs
      dsimp only at hs
      obtain ⟨hNend, hNbr, hNsub, hu3sub, hnd⟩ := extractNetloc_ok_facts _ _ _ hen
      rcases hf : splitFirst (fun c => (c = '#' : Bool)) u3 with ⟨u4, obF⟩
      rw [hf] at hs
      rcases hq2 : splitFirst (fun c => (c = '?' : Bool)) u4 with ⟨path0, obQ⟩
      rw [hq2] at hs
      dsimp only at hs
      injection hs with hP
      subst hP
      have hu3X : ∀ c ∈ u3, c ∈ removeTabCrLf (l.dropWhile isC0OrSpace) := by
        intro c hc
        rw [hXeq]
        exact List.mem_append.mpr (Or.inr (List.mem_cons_of_mem _ (hu3sub c hc)))
      have hu4sub : ∀ c ∈ u4, c ∈ u3 := fun c hc =>
        splitFirst_fst_sub _ u3 c (by rw [hf]; exact hc)
      have hp0sub : ∀ c ∈ path0, c ∈ u4 := fun c hc =>
        splitFirst_fst_sub _ u4 c (by rw [hq2]; exact hc)
      have hu4hash : ∀ c ∈ u4, (c = '#' : Bool) = false := fun c hc =>
        Bool.eq_false_iff.mpr (splitFirst_before_not _ u3 c (by rw [hf]; exact hc))
      have hp0qm : ∀ c ∈ path0, (c = '?' : Bool) = false := fun c hc =>
        Bool.eq_false_iff.mpr (splitFirst_before_not _ u4 c (by rw [hq2]; exact hc))
      have hSfacts : before.map asciiLower ≠ [] ∧
          isAsciiAlphaCh ((before.map asciiLower).headD ' ') = true ∧
          (before.map asciiLower).all isSchemeChar = true := by
        refine ⟨map_ne_nil hne, ?_, ?_⟩
        · cases before with
          | nil => exact absurd rfl hne
          | cons x xs => exact isAsciiAlphaCh_asciiLower halpha
        · rw [List.all_eq_true]
          intro c hc
          obtain ⟨d, hd, rfl⟩ := List.mem_map.mp hc
          exact isSchemeChar_asciiLower (List.all_eq_true.mp hall d hd)
      refine ⟨⟨?_, ?_, ?_, ?_, ?_, ?_, ?_, ?_, ?_, ?_, ?_, ?_, ?_, ?_, ?_, ?_, ?_⟩, rfl⟩
      all_goals dsimp only
      · exact Or.inr ⟨hSfacts.1, hSfacts.2.1, hSfacts.2.2, map_asciiLower_idem before⟩
      · exact hNend
      · exact hNbr
      · exact fun c hc => hu4hash c (hp0sub c hc)
      · exact hp0qm
      · intro c hc
        cases hc
      · intro c hc
        cases hc
      · intro c hc
        cases hc
      · cases obQ with
        | none => intro c hc; cases hc
        | some Q =>
          intro c hc
          exact hu4hash c (splitFirst_after_sub _ u4 (by rw [hq2]; try rfl) c hc)
      · refine fun c hc => hXtab c ?_
        rw [hXeq]
        exact List.mem_append.mpr (Or.inr (List.mem_cons_of_mem _ (hNsub c hc)))
      · exact fun c hc => hXtab c (hu3X c (hu4sub c (hp0sub c hc)))
      · intro c hc
        cases hc
      · cases obQ with
        | none => intro c hc; cases hc
        | some Q =>
          intro c hc
          exact hXtab c (hu3X c (hu4sub c (splitFirst_after_sub _ u4 (by rw [hq2]; try rfl) c hc)))
      · cases obF with
        | none => intro c hc; cases hc
        | some F =>
          intro c hc
          exact hXtab c (hu3X c (splitFirst_after_sub _ u3 (by rw [hf]; try rfl) c hc))
      · intro hSnil
        exact absurd hSnil (map_ne_nil hne)
      · intro hSnil
        exact absurd hSnil (map_ne_nil hne)
      · intro hne2
        exact absurd rfl hne2

theorem urlparse_wf (s : String) (p : UrlParts) (h : urlparseCore s = .ok p) : UrlWF p := by
  unfold urlparseCore at h
  cases hs : urlsplitCore s.data with
  | error e =>
    rw [hs] at h
    cases h
  | ok parts =>
    rw [hs] at h
    dsimp only at h
    obtain ⟨W, _hparams⟩ := urlsplit_wf s.data parts hs
    by_cases hg : (usesParamsSchemes.contains parts.scheme &&
        parts.path.contains ';') = true
    case neg =>
      rw [if_neg hg] at h
      injection h with h
      subst h
      exact W
    rw [if_pos hg] at h
    injection h with h
    subst h
    refine ⟨?_, ?_, ?_, ?_, ?_, ?_, ?_, ?_, ?_, ?_, ?_, ?_, ?_, ?_, ?_, ?_, ?_⟩
    all_goals dsimp only
    · exact W.scheme_ok
    · exact W.netloc_end
    · exact W.netloc_br
    · exact fun c hc => W.path_hash c (splitparams_fst_sub parts.path c hc)
    · exact fun c hc => W.path_qm c (splitparams_fst_sub parts.path c hc)
    · exact fun c hc => W.path_hash c (splitparams_snd_sub parts.path c hc).1
    · exact fun c hc => W.path_qm c (splitparams_snd_sub parts.path c hc).1
    · exact fun c hc => (splitparams_snd_sub parts.path c hc).2
    · exact W.query_hash
    · exact W.netloc_tab
    · exact fun c hc => W.path_tab c (splitparams_fst_sub parts.path c hc)
    · exact fun c hc => W.path_tab c (splitparams_snd_sub parts.path c hc).1
    · exact W.query_tab
    · exact W.frag_tab
    · intro hS a t hpt
      rcases splitparams_fst_head parts.path a t hpt with rfl | ⟨t2, ht2⟩
      · decide
      · exact W.head_ok hS a t2 ht2
    · intro hS b0 r0 hsplit
      have hb0clean : ∀ c ∈ b0, (c = ':' : Bool) = false := fun c hc =>
        Bool.eq_false_iff.mpr
          (splitFirst_before_not _ (splitparams parts.path).1 c (by rw [hsplit]; exact hc))
      obtain ⟨tp, htp⟩ := splitparams_fst_prefix parts.path
      have hrec : (splitparams parts.path).1 = b0 ++ ':' :: r0 :=
        splitFirst_recompose ':' _ b0 r0 hsplit
      have hfound : splitFirst (fun c => (c = ':' : Bool)) parts.path =
          (b0, some (r0 ++ tp)) := by
        rw [show parts.path = b0 ++ ':' :: (r0 ++ tp) from by
          rw [htp, hrec]; simp]
        exact splitFirst_append_found ':' _
          (fun d hd hdt => by rw [hb0clean d hd] at hdt; cases hdt) (by decide)
      exact W.colon_ok hS b0 (r0 ++ tp) hfound
    · intro _
      exact (Bool.and_eq_true _ _ ▸ hg).1

theorem alpha_not_c0 {a : Char} (h : isAsciiAlphaCh a = true) : isC0OrSpace a = false := by
  rw [isAsciiAlphaCh_iff] at h
  simp only [isC0OrSpace, decide_eq_false_iff_not]
  omega

theorem splitFirst_append_skip (p : Char → Bool) (A B : List Char)
    (hA : ∀ c ∈ A, p c = false) :
    splitFirst p (A ++ B) = (A ++ (splitFirst p B).1, (splitFirst p B).2) := by
  induction A with
  | nil => rfl
  | cons x A2 ih =>
    have hx := hA x (List.mem_cons_self _ _)
    have ih2 := ih (fun d hd => hA d (List.mem_cons_of_mem _ hd))
    rw [List.cons_append]
    simp only [splitFirst]
    rw [show splitFirst p (A2 ++ B) =
      (A2 ++ (splitFirst p B).1, (splitFirst p B).2) from ih2,
      if_neg (show ¬(p x = true) from by rw [hx]; exact Bool.false_ne_true)]
    simp

theorem extractScheme_none (url b : List Char)
    (h : splitFirst (fun c => (c = ':' : Bool)) url = (b, Option.none)) :
    extractScheme url = ([], url) := by
  unfold extractScheme
  rw [h]

theorem extractScheme_fail (url b a : List Char)
    (h : splitFirst (fun c => (c = ':' : Bool)) url = (b, some a))
    (hfail : b = [] ∨ isAsciiAlphaCh (b.headD ' ') = false ∨
      b.all isSchemeChar = false) :
    extractScheme url = ([], url) := by
  unfold extractScheme
  rw [h]
  dsimp only
  rw [if_neg ?_]
  intro hcond
  simp only [Bool.and_eq_true] at hcond
  obtain ⟨⟨h1, h2⟩, h3⟩ := hcond
  rcases hfail with hf | hf | hf
  · rw [hf] at h1
    simp at h1
  · rw [hf] at h2
    cases h2
  · rw [hf] at h3
    cases h3

theorem extractScheme_slashhead (W0 : List Char) :
    extractScheme ('/' :: W0) = ([], '/' :: W0) := by
  rcases hv : splitFirst (fun c => (c = ':' : Bool)) ('/' :: W0) with ⟨b, ob⟩
  cases ob with
  | none => exact extractScheme_none _ b hv
  | some a =>
    refine extractScheme_fail _ b a hv ?_
    cases b with
    | nil => exact Or.inl rfl
    | cons x xs =>
      have := splitFirst_recompose ':' ('/' :: W0) (x :: xs) a hv
      rw [List.cons_append] at this
      injection this with h1 _
      right
      left
      rw [← h1, show (('/' : Char) :: xs).headD ' ' = '/' from rfl]
      decide

theorem extractScheme_pathlike (Z M0t path T : List Char)
    (hT : path = Z ++ T)
    (hcolon : ∀ b0 r0, splitFirst (fun c => (c = ':' : Bool)) path = (b0, some r0) →
      b0 = [] ∨ isAsciiAlphaCh (b0.headD ' ') = false ∨ b0.all isSchemeChar = false) :
    extractScheme (Z ++ '/' :: M0t) = ([], Z ++ '/' :: M0t) := by
  rcases hz : splitFirst (fun c => (c = ':' : Bool)) Z with ⟨bz, obz⟩
  cases obz with
  | some az =>
    have hZrec : Z = bz ++ ':' :: az := splitFirst_recompose ':' Z bz az hz
    have hbzclean : ∀ c ∈ bz, (c = ':' : Bool) = false := fun c hc =>
      Bool.eq_false_iff.mpr (splitFirst_before_not _ Z c (by rw [hz]; exact hc))
    have hfound : splitFirst (fun c => (c = ':' : Bool)) (Z ++ '/' :: M0t) =
        (bz, some (az ++ '/' :: M0t)) := by
      rw [hZrec, List.append_assoc, List.cons_append]
      exact splitFirst_append_found ':' _
        (fun d hd hdt => by rw [hbzclean d hd] at hdt; cases hdt) (by decide)
    have hfoundP : splitFirst (fun c => (c = ':' : Bool)) path = (bz, some (az ++ T)) := by
      rw [hT, hZrec, List.append_assoc, List.cons_append]
      exact splitFirst_append_found ':' _
        (fun d hd hdt => by rw [hbzclean d hd] at hdt; cases hdt) (by decide)
    exact extractScheme_fail _ bz _ hfound (hcolon bz _ hfoundP)
  | none =>
    have hZclean := splitFirst_none_not (fun c => (c = ':' : Bool)) Z (by rw [hz])
    rcases hv : splitFirst (fun c => (c = ':' : Bool)) (Z ++ '/' :: M0t) with ⟨b, ob⟩
    cases ob with
    | none => exact extractScheme_none _ b hv
    | some a =>
      refine extractScheme_fail _ b a hv (Or.inr (Or.inr ?_))
      have hskip : splitFirst (fun c => (c = ':' : Bool)) (Z ++ '/' :: M0t) =
          ((Z ++ ['/']) ++ (splitFirst (fun c => (c = ':' : Bool)) M0t).1,
           (splitFirst (fun c => (c = ':' : Bool)) M0t).2) := by
        rw [show Z ++ '/' :: M0t = (Z ++ ['/']) ++ M0t from by simp]
        exact splitFirst_append_skip _ _ _ (fun c hc => by
          rcases List.mem_append.mp hc with hc2 | hc2
          · exact hZclean c hc2
          · rw [List.mem_singleton.mp hc2]
            decide)
      rw [hv] at hskip
      injection hskip with hb _
      have hmem : '/' ∈ b := by
        rw [hb]
        exact List.mem_append.mpr (Or.inl (List.mem_append.mpr (Or.inr (by simp))))
      rcases hall : b.all isSchemeChar with _ | _
      · rfl
      · have := List.all_eq_true.mp hall '/' hmem
        rw [show isSchemeChar '/' = false from by decide] at this
        cases this

theorem opt_append_form (x : Char) (Q u : List Char) :
    (if !Q.isEmpty then u ++ x :: Q else u) = u ++ (if Q.isEmpty then [] else x :: Q) := by
  cases Q with
  | nil => simp
  | cons a t => simp

theorem mcpPath_decomp (path : List Char) :
    ∃ Z, mcpPath path = Z ++ '/' :: ['m', 'c', 'p'] ∧ (∃ T, path = Z ++ T) ∧
      (Z.getLast? = some '/' → False) ∧ (∀ c ∈ Z, c ∈ path) := by
  unfold mcpPath
  by_cases h : (path.isEmpty || path = ['/'] : Bool) = true
  · rw [if_pos h]
    refine ⟨[], rfl, ⟨path, rfl⟩, ?_, ?_⟩
    · intro hl
      cases hl
    · intro c hc
      cases hc
  · rw [if_neg h]
    obtain ⟨T, hT, hTall⟩ := rstripSlash_prefix path
    refine ⟨rstripSlash path, rfl, ⟨T, hT⟩, rstripSlash_last path, ?_⟩
    intro c hc
    rw [hT]
    exact List.mem_append.mpr (Or.inl hc)

theorem urlsplitCore_reduce (V S2 rest2 : List Char)
    (htab : ∀ c ∈ V, isTabCrLf c = false)
    (hhead : ∀ a t, V = a :: t → isC0OrSpace a = false)
    (hsch : extractScheme V = (S2, rest2)) :
    urlsplitCore V = match extractNetloc rest2 with
      | .error e => .error e
      | .ok nl =>
        .ok { scheme := S2, netloc := nl.1,
              path := (splitFirst (fun c => (c = '?' : Bool))
                (splitFirst (fun c => (c = '#' : Bool)) nl.2).1).1,
              params := [],
              query := ((splitFirst (fun c => (c = '?' : Bool))
                (splitFirst (fun c => (c = '#' : Bool)) nl.2).1).2).getD [],
              fragment := ((splitFirst (fun c => (c = '#' : Bool)) nl.2).2).getD [] } := by
  unfold urlsplitCore
  rw [dropWhile_eq_self _ _ hhead, removeTabCrLf_eq_self _ htab]
  dsimp only
  rw [hsch]

theorem mem_all_app {Q : Char → Prop} {a b : List Char}
    (ha : ∀ c ∈ a, Q c) (hb : ∀ c ∈ b, Q c) : ∀ c ∈ a ++ b, Q c :=
  fun c hc => (List.mem_append.mp hc).elim (ha c) (hb c)

theorem mem_all_cons {Q : Char → Prop} {x : Char} {l : List Char}
    (hx : Q x) (hl : ∀ c ∈ l, Q c) : ∀ c ∈ x :: l, Q c := by
  intro c hc
  rcases List.mem_cons.mp hc with rfl | hc2
  · exact hx
  · exact hl c hc2

theorem opt_shape (x : Char) (F : List Char) :
    ((if F.isEmpty then ([] : List Char) else x :: F) = [] ∧ F = []) ∨
    ((if F.isEmpty then ([] : List Char) else x :: F) = x :: F ∧ F ≠ []) := by
  cases F with
  | nil => exact Or.inl ⟨rfl, rfl⟩
  | cons a t => exact Or.inr ⟨rfl, fun h => by cases h⟩

theorem contains_true_of_mem {a : Char} {l : List Char} (h : a ∈ l) :
    l.contains a = true :=
  List.elem_iff.mpr h

theorem splitparams_mcp (Γ OP par : List Char)
    (hOP : (OP = [] ∧ par = []) ∨ OP = ';' :: par)
    (hpars : ∀ c ∈ par, (c = '/' : Bool) = false) :
    splitparams (Γ ++ '/' :: (['m', 'c', 'p'] ++ OP)) =
      (Γ ++ '/' :: ['m', 'c', 'p'], par) := by
  rcases hOP with ⟨hOP1, hpar1⟩ | hOP1
  · subst hOP1
    subst hpar1
    rw [List.append_nil]
    unfold splitparams
    rw [splitLastSlash_append Γ ['m', 'c', 'p'] (by decide)]
    dsimp only
    rw [splitFirst_of_not_mem
      (by decide : ∀ c ∈ (['m', 'c', 'p'] : List Char),
        ¬ ((fun c => (c = ';' : Bool)) c = true))]
  · subst hOP1
    unfold splitparams
    rw [splitLastSlash_append Γ (['m', 'c', 'p'] ++ ';' :: par)
      (mem_all_app (by decide) (mem_all_cons (by decide) hpars))]
    dsimp only
    rw [splitFirst_append_found ';' par (by decide) (by decide)]

theorem parse_error (V S2 rest2 : List Char) (e : PyErr)
    (htab : ∀ c ∈ V, isTabCrLf c = false)
    (hhead : ∀ a t, V = a :: t → isC0OrSpace a = false)
    (hsch : extractScheme V = (S2, rest2))
    (hnl : extractNetloc rest2 = .error e) :
    urlparseCore (String.mk V) = .error e := by
  unfold urlparseCore
  rw [show (String.mk V).data = V from rfl,
    urlsplitCore_reduce V S2 rest2 htab hhead hsch, hnl]

theorem parse_finish (V S2 rest2 N u3 Γ OP par OQ OF : List Char)
    (htab : ∀ c ∈ V, isTabCrLf c = false)
    (hhead : ∀ a t, V = a :: t → isC0OrSpace a = false)
    (hsch : extractScheme V = (S2, rest2))
    (hnl : extractNetloc rest2 = Except.ok (N, u3))
    (hu3 : u3 = ((Γ ++ '/' :: (['m', 'c', 'p'] ++ OP)) ++ OQ) ++ OF)
    (hOP : (OP = [] ∧ par = []) ∨ OP = ';' :: par)
    (husep : OP = [] ∨ usesParamsSchemes.contains S2 = true)
    (hOQ : OQ = [] ∨ ∃ Qv, OQ = '?' :: Qv ∧ ∀ c ∈ Qv, (c = '#' : Bool) = false)
    (hOF : OF = [] ∨ ∃ Fv, OF = '#' :: Fv)
    (hGh : ∀ c ∈ Γ, (c = '#' : Bool) = false)
    (hGq : ∀ c ∈ Γ, (c = '?' : Bool) = false)
    (hparh : ∀ c ∈ par, (c = '#' : Bool) = false)
    (hparq : ∀ c ∈ par, (c = '?' : Bool) = false)
    (hpars : ∀ c ∈ par, (c = '/' : Bool) = false) :
    ∃ q, urlparseCore (String.mk V) = Except.ok q ∧ hasMcpSegment q.path = true := by
  have hOPh : ∀ c ∈ OP, (c = '#' : Bool) = false := by
    rcases hOP with ⟨h1, _⟩ | h1
    · rw [h1]
      intro c hc
      cases hc
    · rw [h1]
      exact mem_all_cons (by decide) hparh
  have hOPq : ∀ c ∈ OP, (c = '?' : Bool) = false := by
    rcases hOP with ⟨h1, _⟩ | h1
    · rw [h1]
      intro c hc
      cases hc
    · rw [h1]
      exact mem_all_cons (by decide) hparq
  have hBq : ∀ c ∈ Γ ++ '/' :: (['m', 'c', 'p'] ++ OP), (c = '?' : Bool) = false :=
    mem_all_app hGq (mem_all_cons (by decide) (mem_all_app (by decide) hOPq))
  have hBh : ∀ c ∈ Γ ++ '/' :: (['m', 'c', 'p'] ++ OP), (c = '#' : Bool) = false :=
    mem_all_app hGh (mem_all_cons (by decide) (mem_all_app (by decide) hOPh))
  have hAh : ∀ c ∈ (Γ ++ '/' :: (['m', 'c', 'p'] ++ OP)) ++ OQ, (c = '#' : Bool) = false := by
    refine mem_all_app hBh ?_
    rcases hOQ with h1 | ⟨Qv, h1, h2⟩
    · rw [h1]
      intro c hc
      cases hc
    · rw [h1]
      exact mem_all_cons (by decide) h2
  have hfrag : ∃ ofv, splitFirst (fun c => (c = '#' : Bool)) u3 =
      ((Γ ++ '/' :: (['m', 'c', 'p'] ++ OP)) ++ OQ, ofv) := by
    rcases hOF with h1 | ⟨Fv, h1⟩
    · refine ⟨Option.none, ?_⟩
      rw [hu3, h1, List.append_nil]
      exact splitFirst_of_not_mem (fun c hc hct => by rw [hAh c hc] at hct; cases hct)
    · refine ⟨some Fv, ?_⟩
      rw [hu3, h1]
      exact splitFirst_append_found '#' Fv
        (fun c hc hct => by rw [hAh c hc] at hct; cases hct) (by decide)
  have hquer : ∃ oqv, splitFirst (fun c => (c = '?' : Bool))
      ((Γ ++ '/' :: (['m', 'c', 'p'] ++ OP)) ++ OQ) =
      (Γ ++ '/' :: (['m', 'c', 'p'] ++ OP), oqv) := by
    rcases hOQ with h1 | ⟨Qv, h1, _⟩
    · refine ⟨Option.none, ?_⟩
      rw [h1, List.append_nil]
      exact splitFirst_of_not_mem (fun c hc hct => by rw [hBq c hc] at hct; cases hct)
    · refine ⟨some Qv, ?_⟩
      rw [h1]
      exact splitFirst_append_found '?' Qv
        (fun c hc hct => by rw [hBq c hc] at hct; cases hct) (by decide)
  obtain ⟨ofv, hfrag⟩ := hfrag
  obtain ⟨oqv, hquer⟩ := hquer
  refine ⟨{ scheme := S2, netloc := N, path := Γ ++ '/' :: ['m', 'c', 'p'],
            params := par, query := oqv.getD [], fragment := ofv.getD [] }, ?_, ?_⟩
  · unfold urlparseCore
    rw [show (String.mk V).data = V from rfl,
      urlsplitCore_reduce V S2 rest2 htab hhead hsch, hnl]
    dsimp only
    rw [hfrag]
    dsimp only
    rw [hquer]
    dsimp only
    rcases hOP with ⟨hOP1, hpar1⟩ | hOP1
    · subst hOP1
      subst hpar1
      have hsp := splitparams_mcp Γ [] [] (Or.inl ⟨rfl, rfl⟩) (fun c hc => by cases hc)
      rw [List.append_nil] at hsp
      rw [List.append_nil]
      by_cases hg : (usesParamsSchemes.contains S2 &&
          (Γ ++ '/' :: ['m', 'c', 'p']).contains ';') = true
      · rw [if_pos hg, hsp]
      · rw [if_neg hg]
    · subst hOP1
      have hg : (usesParamsSchemes.contains S2 &&
          (Γ ++ '/' :: (['m', 'c', 'p'] ++ ';' :: par)).contains ';') = true := by
        rcases husep with h1 | h1
        · cases h1
        · rw [h1, contains_true_of_mem (List.mem_append.mpr (Or.inr
            (List.mem_cons_of_mem _ (List.mem_append.mpr (Or.inr
              (List.mem_cons_self _ _))))))]
          rfl
      rw [if_pos hg, splitparams_mcp Γ (';' :: par) par (Or.inr rfl) hpars]
  · exact hasMcp_append_end Γ

theorem unparse_parse (p : UrlParts) (W : UrlWF p) :
    (∃ e, urlparseCore (String.mk (urlunparseCore { p with path := mcpPath p.path })) =
      .error e) ∨
    (∃ q, urlparseCore (String.mk (urlunparseCore { p with path := mcpPath p.path })) =
      .ok q ∧ hasMcpSegment q.path = true) := by
  obtain ⟨Z, hZeq, ⟨T, hT⟩, hZlast, hZmem⟩ := mcpPath_decomp p.path
  obtain ⟨OP, hOPdef⟩ : ∃ x, x = (if p.params.isEmpty then ([] : List Char)
    else ';' :: p.params) := ⟨_, rfl⟩
  obtain ⟨OQ, hOQdef⟩ : ∃ x, x = (if p.query.isEmpty then ([] : List Char)
    else '?' :: p.query) := ⟨_, rfl⟩
  obtain ⟨OF, hOFdef⟩ : ∃ x, x = (if p.fragment.isEmpty then ([] : List Char)
    else '#' :: p.fragment) := ⟨_, rfl⟩
  have hZh : ∀ c ∈ Z, (c = '#' : Bool) = false := fun c hc => W.path_hash c (hZmem c hc)
  have hZq : ∀ c ∈ Z, (c = '?' : Bool) = false := fun c hc => W.path_qm c (hZmem c hc)
  have hZtab : ∀ c ∈ Z, isTabCrLf c = false := fun c hc => W.path_tab c (hZmem c hc)
  have hOPs : (OP = [] ∧ p.params = []) ∨ (OP = ';' :: p.params ∧ p.params ≠ []) := by
    rw [hOPdef]
    exact opt_shape ';' p.params
  have hOP : (OP = [] ∧ p.params = []) ∨ OP = ';' :: p.params := by
    rcases hOPs with h1 | ⟨h1, _⟩
    · exact Or.inl h1
    · exact Or.inr h1
  have husepS : OP = [] ∨ usesParamsSchemes.contains p.scheme = true := by
    rcases hOPs with ⟨h1, _⟩ | ⟨_, h2⟩
    · exact Or.inl h1
    · exact Or.inr (W.params_scheme h2)
  have husepN : OP = [] ∨ usesParamsSchemes.contains ([] : List Char) = true :=
    Or.inr (by decide)
  have hOQsh : OQ = [] ∨ ∃ Qv, OQ = '?' :: Qv ∧ ∀ c ∈ Qv, (c = '#' : Bool) = false := by
    rcases opt_shape '?' p.query with ⟨h1, _⟩ | ⟨h1, _⟩
    · exact Or.inl (by rw [hOQdef, h1])
    · exact Or.inr ⟨p.query, by rw [hOQdef, h1], W.query_hash⟩
  have hOFsh : OF = [] ∨ ∃ Fv, OF = '#' :: Fv := by
    rcases opt_shape '#' p.fragment with ⟨h1, _⟩ | ⟨h1, _⟩
    · exact Or.inl (by rw [hOFdef, h1])
    · exact Or.inr ⟨p.fragment, by rw [hOFdef, h1]⟩
  have hOPtab : ∀ c ∈ OP, isTabCrLf c = false := by
    rcases hOP with ⟨h1, _⟩ | h1
    · rw [h1]
      intro c hc
      cases hc
    · rw [h1]
      exact mem_all_cons (by decide) W.params_tab
  have hOQtab : ∀ c ∈ OQ, isTabCrLf c = false := by
    rw [hOQdef]
    rcases opt_shape '?' p.query with ⟨h1, _⟩ | ⟨h1, _⟩
    · rw [h1]
      intro c hc
      cases hc
    · rw [h1]
      exact mem_all_cons (by decide) W.query_tab
  have hOFtab : ∀ c ∈ OF, isTabCrLf c = false := by
    rw [hOFdef]
    rcases opt_shape '#' p.fragment with ⟨h1, _⟩ | ⟨h1, _⟩
    · rw [h1]
      intro c hc
      cases hc
    · rw [h1]
      exact mem_all_cons (by decide) W.frag_tab
  have hurltab : ∀ c ∈ Z ++ '/' :: (['m', 'c', 'p'] ++ OP), isTabCrLf c = false :=
    mem_all_app hZtab (mem_all_cons (by decide) (mem_all_app (by decide) hOPtab))
  obtain ⟨c1, c2, ur, hccE, hccT, hc1head⟩ :
      ∃ c1 c2 ur, Z ++ '/' :: (['m', 'c', 'p'] ++ OP) = c1 :: c2 :: ur ∧
        (Z ++ '/' :: (['m', 'c', 'p'] ++ OP)).take 2 = [c1, c2] ∧
        (p.scheme = [] → isC0OrSpace c1 = false) := by
    cases Z with
    | nil => exact ⟨'/', 'm', 'c' :: 'p' :: OP, rfl, rfl, fun _ => by decide⟩
    | cons z1 Zt =>
      have hz1 : p.scheme = [] → isC0OrSpace z1 = false := fun hS0 =>
        W.head_ok hS0 z1 (Zt ++ T) (by rw [hT]; rfl)
      cases Zt with
      | nil => exact ⟨z1, '/', _, rfl, rfl, hz1⟩
      | cons z2 Zt2 => exact ⟨z1, z2, _, rfl, rfl, hz1⟩
  have hun : urlunparseCore { p with path := mcpPath p.path } =
      urlunsplitCore p.scheme p.netloc (Z ++ '/' :: (['m', 'c', 'p'] ++ OP))
        p.query p.fragment := by
    unfold urlunparseCore
    dsimp only
    rw [opt_append_form ';' p.params (mcpPath p.path), ← hOPdef, hZeq]
    simp [List.append_assoc]
  rw [hun]
  have h222 : urlunsplitCore p.scheme p.netloc (Z ++ '/' :: (['m', 'c', 'p'] ++ OP))
      p.query p.fragment =
      ((if (!p.netloc.isEmpty
          || (!p.scheme.isEmpty && usesNetlocSchemes.contains p.scheme
              && (Z ++ '/' :: (['m', 'c', 'p'] ++ OP)).take 2 ≠ ['/', '/'])) = true then
        (if !p.scheme.isEmpty then
          p.scheme ++ ':' :: ('/' :: '/' :: (p.netloc ++
            (if !(Z ++ '/' :: (['m', 'c', 'p'] ++ OP)).isEmpty
                && (Z ++ '/' :: (['m', 'c', 'p'] ++ OP)).headD ' ' ≠ '/' then
              '/' :: (Z ++ '/' :: (['m', 'c', 'p'] ++ OP))
            else Z ++ '/' :: (['m', 'c', 'p'] ++ OP))))
        else '/' :: '/' :: (p.netloc ++
            (if !(Z ++ '/' :: (['m', 'c', 'p'] ++ OP)).isEmpty
                && (Z ++ '/' :: (['m', 'c', 'p'] ++ OP)).headD ' ' ≠ '/' then
              '/' :: (Z ++ '/' :: (['m', 'c', 'p'] ++ OP))
            else Z ++ '/' :: (['m', 'c', 'p'] ++ OP))))
      else
        (if !p.scheme.isEmpty then
          p.scheme ++ ':' :: (Z ++ '/' :: (['m', 'c', 'p'] ++ OP))
        else Z ++ '/' :: (['m', 'c', 'p'] ++ OP))) ++ OQ) ++ OF := by
    unfold urlunsplitCore
    dsimp only
    rw [opt_append_form '#' p.fragment, opt_append_form '?' p.query, ← hOQdef, ← hOFdef]
    split_ifs <;> rfl
  rw [h222]
  have hM1tab : ∀ c ∈ ['m', 'c', 'p'] ++ OP, isTabCrLf c = false :=
    mem_all_app (by decide) hOPtab
  by_cases hC : (!p.netloc.isEmpty
      || (!p.scheme.isEmpty && usesNetlocSchemes.contains p.scheme
          && (Z ++ '/' :: (['m', 'c', 'p'] ++ OP)).take 2 ≠ ['/', '/'])) = true
  · rw [if_pos hC]
    have hu1 : ∃ Γ W1,
        (if (!(Z ++ '/' :: (['m', 'c', 'p'] ++ OP)).isEmpty
            && (Z ++ '/' :: (['m', 'c', 'p'] ++ OP)).headD ' ' ≠ '/') = true then
          '/' :: (Z ++ '/' :: (['m', 'c', 'p'] ++ OP))
        else Z ++ '/' :: (['m', 'c', 'p'] ++ OP)) = Γ ++ '/' :: (['m', 'c', 'p'] ++ OP) ∧
        Γ ++ '/' :: (['m', 'c', 'p'] ++ OP) = '/' :: W1 ∧
        (∀ c ∈ Γ, c ∈ Z ∨ c = '/') := by
      by_cases hH : (!(Z ++ '/' :: (['m', 'c', 'p'] ++ OP)).isEmpty
          && (Z ++ '/' :: (['m', 'c', 'p'] ++ OP)).headD ' ' ≠ '/') = true
      · refine ⟨'/' :: Z, Z ++ '/' :: (['m', 'c', 'p'] ++ OP), ?_, rfl, ?_⟩
        · rw [if_pos hH]
          rfl
        · exact fun c hc => (List.mem_cons.mp hc).elim (fun h => Or.inr h) Or.inl
      · have hNE : (Z ++ '/' :: (['m', 'c', 'p'] ++ OP)).isEmpty = false := by
          rw [hccE]
          rfl
        have hhd : (Z ++ '/' :: (['m', 'c', 'p'] ++ OP)).headD ' ' = '/' := by
          by_contra hcon
          exact hH (by rw [hNE, decide_eq_true hcon]; rfl)
        obtain ⟨W1, hW1⟩ : ∃ W1,
            Z ++ '/' :: (['m', 'c', 'p'] ++ OP) = '/' :: W1 := by
          cases Z with
          | nil => exact ⟨_, rfl⟩
          | cons z1 Zt =>
            have hz1 : z1 = '/' := by simpa using hhd
            exact ⟨Zt ++ '/' :: (['m', 'c', 'p'] ++ OP), by rw [hz1]; rfl⟩
        exact ⟨Z, W1, by rw [if_neg hH], hW1, fun c hc => Or.inl hc⟩
    obtain ⟨Γ, W1, hu1eq, hW1eq, hΓmem⟩ := hu1
    rw [hu1eq]
    have hΓh : ∀ c ∈ Γ, (c = '#' : Bool) = false := fun c hc =>
      (hΓmem c hc).elim (hZh c) (fun h => by rw [h]; decide)
    have hΓq : ∀ c ∈ Γ, (c = '?' : Bool) = false := fun c hc =>
      (hΓmem c hc).elim (hZq c) (fun h => by rw [h]; decide)
    have hΓtab : ∀ c ∈ Γ, isTabCrLf c = false := fun c hc =>
      (hΓmem c hc).elim (hZtab c) (fun h => by rw [h]; decide)
    have hΓurltab : ∀ c ∈ Γ ++ '/' :: (['m', 'c', 'p'] ++ OP), isTabCrLf c = false :=
      mem_all_app hΓtab (mem_all_cons (by decide) hM1tab)
    rcases W.scheme_ok with hS0 | ⟨hSne, hSalpha, hSall, hSlow⟩
    · rw [if_neg (show ¬((!p.scheme.isEmpty) = true) from by rw [hS0]; decide)]
      have htabA : ∀ c ∈ ('/' :: '/' :: (p.netloc ++ (Γ ++ '/' :: (['m', 'c', 'p'] ++ OP)))
          ++ OQ) ++ OF, isTabCrLf c = false :=
        mem_all_app (mem_all_app (mem_all_cons (by decide) (mem_all_cons (by decide)
          (mem_all_app W.netloc_tab hΓurltab))) hOQtab) hOFtab
      have hheadA : ∀ a t, ('/' :: '/' :: (p.netloc ++ (Γ ++ '/' :: (['m', 'c', 'p'] ++ OP)))
          ++ OQ) ++ OF = a :: t → isC0OrSpace a = false := by
        intro a t h
        rw [show ('/' :: '/' :: (p.netloc ++ (Γ ++ '/' :: (['m', 'c', 'p'] ++ OP))) ++ OQ)
            ++ OF = '/' :: (('/' :: (p.netloc ++ (Γ ++ '/' :: (['m', 'c', 'p'] ++ OP)))
            ++ OQ) ++ OF) from rfl] at h
        injection h with h1 _
        rw [← h1]
        decide
      have hschA : extractScheme (('/' :: '/' :: (p.netloc ++ (Γ ++ '/' ::
          (['m', 'c', 'p'] ++ OP))) ++ OQ) ++ OF) = ([], ('/' :: '/' :: (p.netloc ++
          (Γ ++ '/' :: (['m', 'c', 'p'] ++ OP))) ++ OQ) ++ OF) :=
        extractScheme_slashhead _
      have hnlA : extractNetloc (('/' :: '/' :: (p.netloc ++ (Γ ++ '/' ::
          (['m', 'c', 'p'] ++ OP))) ++ OQ) ++ OF) =
          Except.ok (p.netloc, '/' :: (W1 ++ OQ ++ OF)) := by
        rw [show ('/' :: '/' :: (p.netloc ++ (Γ ++ '/' :: (['m', 'c', 'p'] ++ OP))) ++ OQ)
            ++ OF = '/' :: '/' :: (p.netloc ++ '/' :: (W1 ++ OQ ++ OF)) from by
          rw [hW1eq]
          simp [List.append_assoc]]
        exact extractNetloc_clean p.netloc (W1 ++ OQ ++ OF) W.netloc_end W.netloc_br
      have hu3A : '/' :: (W1 ++ OQ ++ OF) =
          ((Γ ++ '/' :: (['m', 'c', 'p'] ++ OP)) ++ OQ) ++ OF := by
        rw [hW1eq]
        simp [List.append_assoc]
      exact Or.inr (parse_finish _ [] _ p.netloc _ Γ OP p.params OQ OF htabA hheadA hschA
        hnlA hu3A hOP husepN hOQsh hOFsh hΓh hΓq W.params_hash W.params_qm W.params_slash)
    · rw [if_pos (show (!p.scheme.isEmpty) = true from by
        rw [isEmpty_false_of_ne hSne]; rfl)]
      have hStab : ∀ c ∈ p.scheme, isTabCrLf c = false := fun c hc =>
        (schemeChar_ne (List.all_eq_true.mp hSall c hc)).2.2.2.2.1
      have htabA : ∀ c ∈ ((p.scheme ++ ':' :: ('/' :: '/' :: (p.netloc ++ (Γ ++ '/' ::
          (['m', 'c', 'p'] ++ OP))))) ++ OQ) ++ OF, isTabCrLf c = false :=
        mem_all_app (mem_all_app (mem_all_app hStab (mem_all_cons (by decide)
          (mem_all_cons (by decide) (mem_all_cons (by decide)
            (mem_all_app W.netloc_tab hΓurltab))))) hOQtab) hOFtab
      have hschA : extractScheme (((p.scheme ++ ':' :: ('/' :: '/' :: (p.netloc ++
          (Γ ++ '/' :: (['m', 'c', 'p'] ++ OP))))) ++ OQ) ++ OF) =
          (p.scheme, ('/' :: '/' :: (p.netloc ++ (Γ ++ '/' :: (['m', 'c', 'p'] ++ OP)))
            ++ OQ) ++ OF) := by
        rw [show ((p.scheme ++ ':' :: ('/' :: '/' :: (p.netloc ++ (Γ ++ '/' ::
            (['m', 'c', 'p'] ++ OP))))) ++ OQ) ++ OF = p.scheme ++ ':' ::
            (('/' :: '/' :: (p.netloc ++ (Γ ++ '/' :: (['m', 'c', 'p'] ++ OP))) ++ OQ)
              ++ OF) from by simp [List.append_assoc]]
        exact extractScheme_of_wf p.scheme _ hSne hSall hSalpha hSlow
      have hheadA : ∀ a t, ((p.scheme ++ ':' :: ('/' :: '/' :: (p.netloc ++ (Γ ++ '/' ::
          (['m', 'c', 'p'] ++ OP))))) ++ OQ) ++ OF = a :: t → isC0OrSpace a = false := by
        intro a t h
        cases hSc : p.scheme with
        | nil => exact absurd hSc hSne
        | cons s1 st =>
          rw [hSc] at h
          rw [show (((s1 :: st) ++ ':' :: ('/' :: '/' :: (p.netloc ++ (Γ ++ '/' ::
              (['m', 'c', 'p'] ++ OP))))) ++ OQ) ++ OF = s1 :: (((st ++ ':' ::
              ('/' :: '/' :: (p.netloc ++ (Γ ++ '/' :: (['m', 'c', 'p'] ++ OP))))) ++ OQ)
              ++ OF) from rfl] at h
          injection h with h1 _
          rw [← h1]
          exact alpha_not_c0 (by rw [hSc] at hSalpha; exact hSalpha)
      have hnlA : extractNetloc (('/' :: '/' :: (p.netloc ++ (Γ ++ '/' ::
          (['m', 'c', 'p'] ++ OP))) ++ OQ) ++ OF) =
          Except.ok (p.netloc, '/' :: (W1 ++ OQ ++ OF)) := by
        rw [show ('/' :: '/' :: (p.netloc ++ (Γ ++ '/' :: (['m', 'c', 'p'] ++ OP))) ++ OQ)
            ++ OF = '/' :: '/' :: (p.netloc ++ '/' :: (W1 ++ OQ ++ OF)) from by
          rw [hW1eq]
          simp [List.append_assoc]]
        exact extractNetloc_clean p.netloc (W1 ++ OQ ++ OF) W.netloc_end W.netloc_br
      have hu3A : '/' :: (W1 ++ OQ ++ OF) =
          ((Γ ++ '/' :: (['m', 'c', 'p'] ++ OP)) ++ OQ) ++ OF := by
        rw [hW1eq]
        simp [List.append_assoc]
      exact Or.inr (parse_finish _ p.scheme _ p.netloc _ Γ OP p.params OQ OF htabA hheadA
        hschA hnlA hu3A hOP husepS hOQsh hOFsh hΓh hΓq W.params_hash W.params_qm W.params_slash)
  · rw [if_neg hC]
    rcases W.scheme_ok with hS0 | ⟨hSne, hSalpha, hSall, hSlow⟩
    · rw [if_neg (show ¬((!p.scheme.isEmpty) = true) from by rw [hS0]; decide)]
      have htabB : ∀ c ∈ ((Z ++ '/' :: (['m', 'c', 'p'] ++ OP)) ++ OQ) ++ OF,
          isTabCrLf c = false :=
        mem_all_app (mem_all_app hurltab hOQtab) hOFtab
      have hheadB : ∀ a t, ((Z ++ '/' :: (['m', 'c', 'p'] ++ OP)) ++ OQ) ++ OF = a :: t →
          isC0OrSpace a = false := by
        intro a t h
        rw [hccE] at h
        rw [show ((c1 :: c2 :: ur) ++ OQ) ++ OF = c1 :: ((c2 :: ur ++ OQ) ++ OF)
          from rfl] at h
        injection h with h1 _
        rw [← h1]
        exact hc1head hS0
      have hschB : extractScheme (((Z ++ '/' :: (['m', 'c', 'p'] ++ OP)) ++ OQ) ++ OF) =
          ([], ((Z ++ '/' :: (['m', 'c', 'p'] ++ OP)) ++ OQ) ++ OF) := by
        rw [show ((Z ++ '/' :: (['m', 'c', 'p'] ++ OP)) ++ OQ) ++ OF =
          Z ++ '/' :: ((['m', 'c', 'p'] ++ OP) ++ OQ ++ OF) from by
            simp [List.append_assoc]]
        exact extractScheme_pathlike Z _ p.path T hT (W.colon_ok hS0)
      by_cases h2 : (Z ++ '/' :: (['m', 'c', 'p'] ++ OP)).take 2 = ['/', '/']
      · obtain ⟨Zt, hZt⟩ : ∃ Zt, Z = '/' :: '/' :: Zt := by
          cases Z with
          | nil =>
            rw [show (([] : List Char) ++ '/' :: (['m', 'c', 'p'] ++ OP)).take 2 =
              ['/', 'm'] from rfl] at h2
            injection h2 with _ h2b
            injection h2b with h2c _
            exact absurd h2c (by decide)
          | cons z1 Zt0 =>
            cases Zt0 with
            | nil =>
              rw [show ((z1 :: []) ++ '/' :: (['m', 'c', 'p'] ++ OP)).take 2 =
                [z1, '/'] from rfl] at h2
              injection h2 with h2a _
              exact absurd (by rw [h2a]; rfl :
                ([z1] : List Char).getLast? = some '/') hZlast
            | cons z2 Zt =>
              rw [show ((z1 :: z2 :: Zt) ++ '/' :: (['m', 'c', 'p'] ++ OP)).take 2 =
                [z1, z2] from rfl] at h2
              injection h2 with h2a h2b
              injection h2b with h2b _
              exact ⟨Zt, by rw [h2a, h2b]⟩
        rcases extractNetloc_slash2_any (Zt ++ '/' :: ((['m', 'c', 'p'] ++ OP) ++ OQ ++ OF))
          with herr | hok
        · obtain ⟨e, herr⟩ := herr
          refine Or.inl ⟨e, ?_⟩
          refine parse_error _ [] _ _ htabB hheadB hschB ?_
          rw [show ((Z ++ '/' :: (['m', 'c', 'p'] ++ OP)) ++ OQ) ++ OF = '/' :: '/' ::
            (Zt ++ '/' :: ((['m', 'c', 'p'] ++ OP) ++ OQ ++ OF)) from by
              rw [hZt]
              simp [List.append_assoc]]
          exact herr
        · obtain ⟨Z2, hdw, hZ2mem⟩ := dropWhile_reach_slash (fun c => !isNetlocEnd c)
            (by decide) Zt ((['m', 'c', 'p'] ++ OP) ++ OQ ++ OF)
          rw [hdw] at hok
          have hZ2Z : ∀ c ∈ Z2, c ∈ Z := fun c hc => by
            rw [hZt]
            exact List.mem_cons_of_mem _ (List.mem_cons_of_mem _ (hZ2mem c hc))
          have hnlB : extractNetloc (((Z ++ '/' :: (['m', 'c', 'p'] ++ OP)) ++ OQ) ++ OF) =
              Except.ok ((Zt ++ '/' :: ((['m', 'c', 'p'] ++ OP) ++ OQ ++ OF)).takeWhile
                  (fun c => !isNetlocEnd c),
                Z2 ++ '/' :: ((['m', 'c', 'p'] ++ OP) ++ OQ ++ OF)) := by
            rw [show ((Z ++ '/' :: (['m', 'c', 'p'] ++ OP)) ++ OQ) ++ OF = '/' :: '/' ::
              (Zt ++ '/' :: ((['m', 'c', 'p'] ++ OP) ++ OQ ++ OF)) from by
                rw [hZt]
                simp [List.append_assoc]]
            exact hok
          have hu3B : Z2 ++ '/' :: ((['m', 'c', 'p'] ++ OP) ++ OQ ++ OF) =
              ((Z2 ++ '/' :: (['m', 'c', 'p'] ++ OP)) ++ OQ) ++ OF := by
            simp [List.append_assoc]
          exact Or.inr (parse_finish _ [] _ _ _ Z2 OP p.params OQ OF htabB hheadB hschB
            hnlB hu3B hOP husepN hOQsh hOFsh (fun c hc => hZh c (hZ2Z c hc))
            (fun c hc => hZq c (hZ2Z c hc)) W.params_hash W.params_qm W.params_slash)
      · have hnlB : extractNetloc (((Z ++ '/' :: (['m', 'c', 'p'] ++ OP)) ++ OQ) ++ OF) =
            Except.ok ([], ((Z ++ '/' :: (['m', 'c', 'p'] ++ OP)) ++ OQ) ++ OF) := by
          refine extractNetloc_no_slash2 _ ?_
          rw [show (((Z ++ '/' :: (['m', 'c', 'p'] ++ OP)) ++ OQ) ++ OF).take 2 =
            [c1, c2] from by rw [hccE]; rfl, ← hccT]
          exact h2
        exact Or.inr (parse_finish _ [] _ [] _ Z OP p.params OQ OF htabB hheadB hschB
          hnlB rfl hOP husepN hOQsh hOFsh hZh hZq W.params_hash W.params_qm W.params_slash)
    · rw [if_pos (show (!p.scheme.isEmpty) = true from by
        rw [isEmpty_false_of_ne hSne]; rfl)]
      have hStab : ∀ c ∈ p.scheme, isTabCrLf c = false := fun c hc =>
        (schemeChar_ne (List.all_eq_true.mp hSall c hc)).2.2.2.2.1
      have htabB : ∀ c ∈ ((p.scheme ++ ':' :: (Z ++ '/' :: (['m', 'c', 'p'] ++ OP)))
          ++ OQ) ++ OF, isTabCrLf c = false :=
        mem_all_app (mem_all_app (mem_all_app hStab (mem_all_cons (by decide) hurltab))
          hOQtab) hOFtab
      have hheadB : ∀ a t, ((p.scheme ++ ':' :: (Z ++ '/' :: (['m', 'c', 'p'] ++ OP)))
          ++ OQ) ++ OF = a :: t → isC0OrSpace a = false := by
        intro a t h
        cases hSc : p.scheme with
        | nil => exact absurd hSc hSne
        | cons s1 st =>
          rw [hSc] at h
          rw [show (((s1 :: st) ++ ':' :: (Z ++ '/' :: (['m', 'c', 'p'] ++ OP))) ++ OQ)
            ++ OF = s1 :: (((st ++ ':' :: (Z ++ '/' :: (['m', 'c', 'p'] ++ OP))) ++ OQ)
            ++ OF) from rfl] at h
          injection h with h1 _
          rw [← h1]
          exact alpha_not_c0 (by rw [hSc] at hSalpha; exact hSalpha)
      have hschB : extractScheme (((p.scheme ++ ':' :: (Z ++ '/' ::
          (['m', 'c', 'p'] ++ OP))) ++ OQ) ++ OF) =
          (p.scheme, ((Z ++ '/' :: (['m', 'c', 'p'] ++ OP)) ++ OQ) ++ OF) := by
        rw [show ((p.scheme ++ ':' :: (Z ++ '/' :: (['m', 'c', 'p'] ++ OP))) ++ OQ) ++ OF
          = p.scheme ++ ':' :: (((Z ++ '/' :: (['m', 'c', 'p'] ++ OP)) ++ OQ) ++ OF)
          from by simp [List.append_assoc]]
        exact extractScheme_of_wf p.scheme _ hSne hSall hSalpha hSlow
      by_cases h2 : (Z ++ '/' :: (['m', 'c', 'p'] ++ OP)).take 2 = ['/', '/']
      · obtain ⟨Zt, hZt⟩ : ∃ Zt, Z = '/' :: '/' :: Zt := by
          cases Z with
          | nil =>
            rw [show (([] : List Char) ++ '/' :: (['m', 'c', 'p'] ++ OP)).take 2 =
              ['/', 'm'] from rfl] at h2
            injection h2 with _ h2b
            injection h2b with h2c _
            exact absurd h2c (by decide)
          | cons z1 Zt0 =>
            cases Zt0 with
            | nil =>
              rw [show ((z1 :: []) ++ '/' :: (['m', 'c', 'p'] ++ OP)).take 2 =
                [z1, '/'] from rfl] at h2
              injection h2 with h2a _
              exact absurd (by rw [h2a]; rfl :
                ([z1] : List Char).getLast? = some '/') hZlast
            | cons z2 Zt =>
              rw [show ((z1 :: z2 :: Zt) ++ '/' :: (['m', 'c', 'p'] ++ OP)).take 2 =
                [z1, z2] from rfl] at h2
              injection h2 with h2a h2b
              injection h2b with h2b _
              exact ⟨Zt, by rw [h2a, h2b]⟩
        rcases extractNetloc_slash2_any (Zt ++ '/' :: ((['m', 'c', 'p'] ++ OP) ++ OQ ++ OF))
          with herr | hok
        · obtain ⟨e, herr⟩ := herr
          refine Or.inl ⟨e, ?_⟩
          refine parse_error _ p.scheme _ _ htabB hheadB hschB ?_
          rw [show ((Z ++ '/' :: (['m', 'c', 'p'] ++ OP)) ++ OQ) ++ OF = '/' :: '/' ::
            (Zt ++ '/' :: ((['m', 'c', 'p'] ++ OP) ++ OQ ++ OF)) from by
              rw [hZt]
              simp [List.append_assoc]]
          exact herr
        · obtain ⟨Z2, hdw, hZ2mem⟩ := dropWhile_reach_slash (fun c => !isNetlocEnd c)
            (by decide) Zt ((['m', 'c', 'p'] ++ OP) ++ OQ ++ OF)
          rw [hdw] at hok
          have hZ2Z : ∀ c ∈ Z2, c ∈ Z := fun c hc => by
            rw [hZt]
            exact List.mem_cons_of_mem _ (List.mem_cons_of_mem _ (hZ2mem c hc))
          have hnlB : extractNetloc (((Z ++ '/' :: (['m', 'c', 'p'] ++ OP)) ++ OQ) ++ OF) =
              Except.ok ((Zt ++ '/' :: ((['m', 'c', 'p'] ++ OP) ++ OQ ++ OF)).takeWhile
                  (fun c => !isNetlocEnd c),
                Z2 ++ '/' :: ((['m', 'c', 'p'] ++ OP) ++ OQ ++ OF)) := by
            rw [show ((Z ++ '/' :: (['m', 'c', 'p'] ++ OP)) ++ OQ) ++ OF = '/' :: '/' ::
              (Zt ++ '/' :: ((['m', 'c', 'p'] ++ OP) ++ OQ ++ OF)) from by
                rw [hZt]
                simp [List.append_assoc]]
            exact hok
          have hu3B : Z2 ++ '/' :: ((['m', 'c', 'p'] ++ OP) ++ OQ ++ OF) =
              ((Z2 ++ '/' :: (['m', 'c', 'p'] ++ OP)) ++ OQ) ++ OF := by
            simp [List.append_assoc]
          exact Or.inr (parse_finish _ p.scheme _ _ _ Z2 OP p.params OQ OF htabB hheadB
            hschB hnlB hu3B hOP husepS hOQsh hOFsh (fun c hc => hZh c (hZ2Z c hc))
            (fun c hc => hZq c (hZ2Z c hc)) W.params_hash W.params_qm W.params_slash)
      · have hnlB : extractNetloc (((Z ++ '/' :: (['m', 'c', 'p'] ++ OP)) ++ OQ) ++ OF) =
            Except.ok ([], ((Z ++ '/' :: (['m', 'c', 'p'] ++ OP)) ++ OQ) ++ OF) := by
          refine extractNetloc_no_slash2 _ ?_
          rw [show (((Z ++ '/' :: (['m', 'c', 'p'] ++ OP)) ++ OQ) ++ OF).take 2 =
            [c1, c2] from by rw [hccE]; rfl, ← hccT]
          exact h2
        exact Or.inr (parse_finish _ p.scheme _ [] _ Z OP p.params OQ OF htabB hheadB
          hschB hnlB rfl hOP husepS hOQsh hOFsh hZh hZq W.params_hash W.params_qm W.params_slash)

theorem normalize_fixpoint (p : UrlParts) (W : UrlWF p) :
    normalizeServerUrl (String.mk (urlunparseCore { p with path := mcpPath p.path })) =
      String.mk (urlunparseCore { p with path := mcpPath p.path }) := by
  rcases unparse_parse p W with ⟨e, he⟩ | ⟨q, hq, hm⟩
  · unfold normalizeServerUrl
    rw [he]
  · unfold normalizeServerUrl
    rw [hq]
    dsimp only
    rw [if_pos hm]

theorem c10_idem (u : String) :
    normalizeServerUrl (normalizeServerUrl u) = normalizeServerUrl u := by
  cases hp : urlparseCore u with
  | error e =>
    have hnu : normalizeServerUrl u = u := by
      unfold normalizeServerUrl
      rw [hp]
    rw [hnu]
    exact hnu
  | ok p =>
    by_cases hm : hasMcpSegment p.path = true
    · have hnu : normalizeServerUrl u = u := by
        unfold normalizeServerUrl
        rw [hp]
        dsimp only
        rw [if_pos hm]
      rw [hnu]
      exact hnu
    · have hnu : normalizeServerUrl u =
          String.mk (urlunparseCore { p with path := mcpPath p.path }) := by
        unfold normalizeServerUrl
        rw [hp]
        dsimp only
        rw [if_neg hm]
      rw [hnu]
      exact normalize_fixpoint p (urlparse_wf u p hp)

theorem c10_mcp_stable (u : String) (p : UrlParts) (hp : urlparseCore u = .ok p)
    (hm : hasMcpSegment p.path = true) : normalizeServerUrl u = u := by
  unfold normalizeServerUrl
  rw [hp]
  dsimp only
  rw [if_pos hm]

/-- Claim C10: the URL normalization is idempotent, normalizing twice equals
normalizing once for every URL string, and any URL whose parsed path already
contains an mcp segment (case-insensitively) is returned unchanged. -/
theorem C10_normalize_idempotent_and_mcp_stable :
    (∀ u : String, normalizeServerUrl (normalizeServerUrl u) = normalizeServerUrl u) ∧
    (∀ (u : String) (p : UrlParts), urlparseCore u = .ok p →
      hasMcpSegment p.path = true → normalizeServerUrl u = u) :=
  ⟨c10_idem, c10_mcp_stable⟩

/-- Claim C10, witness: idempotence and mcp-stability at concrete URLs. -/
theorem C10_normalize_idempotent_and_mcp_stable_witness :
    normalizeServerUrl (normalizeServerUrl "http://h/api") =
      normalizeServerUrl "http://h/api" ∧
    normalizeServerUrl "http://h/api/MCP/v1" = "http://h/api/MCP/v1" :=
  ⟨C10_normalize_idempotent_and_mcp_stable.1 "http://h/api",
   C10_normalize_idempotent_and_mcp_stable.2 "http://h/api/MCP/v1"
     { scheme := "http".data, netloc := "h".data, path := "/api/MCP/v1".data,
       params := [], query := [], fragment := [] } rfl rfl⟩
